import Mathlib

/-! # Concurrency containers: sequential semantics

Shallow embedding of the containers of `SpscQueue.h`, `SpscQueueUtils.h`,
`Stack.h` and `Queue.h`, executed by one thread at a time.

Conventions of the embedding

* A pointer is a natural number; `0` is `nullptr`; the object at address
  `p > 0` is the entry `p - 1` of the heap list.  `new`/`malloc` returns
  the first address past the heap, so a fresh address is never reused.
* `size_t` is 64 bits wide: every `size_t` operation that can wrap is
  written with an explicit `% WORD`.
* An operation returns `Except Fault _`: `Fault.assertion` is an `assert`
  that fired in a build without `NDEBUG` (the process aborts),
  `Fault.badAccess` is a null, out-of-bounds, dead-slot or freed-object
  access (undefined behaviour), `Fault.fuel` is an exhausted loop bound of
  the model.
* Atomic operations are executed sequentially: a compare-exchange succeeds
  exactly when the stored value equals the expected one, and on failure it
  writes the stored value into the expected one.
-/

/-- Ways an operation can fail to return. -/
inductive Fault where
  | assertion
  | badAccess
  | fuel
deriving DecidableEq, Repr

/-- Number of values of a 64-bit `size_t`. -/
def WORD : Nat := 2 ^ 64

/-- Dereference pointer `p` in heap `h` (`0` is `nullptr`). -/
def deref {α : Type} (h : List α) (p : Nat) : Except Fault α :=
  if p = 0 then .error .badAccess
  else match h[p - 1]? with
    | some b => .ok b
    | none => .error .badAccess

/-- Overwrite the object at address `p`. -/
def writeAt {α : Type} (h : List α) (p : Nat) (b : α) : List α :=
  h.set (p - 1) b

namespace sq

/-- The class `sq::Block<T>` of `SpscQueueUtils.h`: the cursors, the link
and the element storage.  A slot is `none` while no object lives in it. -/
structure Block (T : Type) where
  front : Nat
  local_tail : Nat
  tail : Nat
  local_front : Nat
  next : Nat
  data : List (Option T)
  size_mask : Nat
deriving DecidableEq, Repr

namespace Block

variable {T : Type}

/-- The block built by `Block::make_block(capacity)` when `malloc` succeeds:
`capacity` dead slots, `size_mask = capacity - 1` in `size_t`. -/
def make_block (capacity : Nat) : Block T :=
  { front := 0, local_tail := 0, tail := 0, local_front := 0, next := 0,
    data := List.replicate capacity none,
    size_mask := (capacity + WORD - 1) % WORD }

/-- The method `Block::forward`: `(i + 1) & size_mask`. -/
def forward (b : Block T) (i : Nat) : Nat :=
  ((i + 1) % WORD) &&& b.size_mask

/-- The method `Block::get_local_front_from_front`: refreshes the cached
front and returns the block so changed (the value returned to the caller
is its `local_front`). -/
def get_local_front_from_front (b : Block T) : Block T :=
  { b with local_front := b.front }

/-- The method `Block::get_local_tail_from_tail`: refreshes the cached tail. -/
def get_local_tail_from_tail (b : Block T) : Block T :=
  { b with local_tail := b.tail }

/-- The method `Block::construct_element_at_idx`: placement-new in slot `idx`. -/
def construct_element_at_idx (b : Block T) (idx : Nat) (t : T) :
    Except Fault (Block T) :=
  if idx < b.data.length then .ok { b with data := b.data.set idx (some t) }
  else .error .badAccess

/-- The statements `result = std::move(*element); element->~T();` on the
slot given by `get_element_at_idx(idx)`: the live object is moved out and
the slot dies. -/
def move_out_element_at_idx (b : Block T) (idx : Nat) :
    Except Fault (T × Block T) :=
  match b.data[idx]? with
  | some (some v) => .ok (v, { b with data := b.data.set idx none })
  | _ => .error .badAccess

end Block

/-- The class `sq::ReaderWriterQueue<T, MAX_BLOCK_SIZE>`: the heap of its
blocks and its three fields.  The two `ReentrantGuard` flags are written
on entry and exit of a call and never read, they are left out. -/
structure ReaderWriterQueue (T : Type) where
  blocks : List (Block T)
  frontBlock : Nat
  tailBlock : Nat
  largestBlockSize : Nat
deriving DecidableEq, Repr

namespace ReaderWriterQueue

variable {T : Type}

/-- The function `ReaderWriterQueue::ceilToPow2` on a 64-bit `size_t`
(`sizeof(size_t) = 8`, so the loop runs for `i = 1, 2, 4`). -/
def ceilToPow2 (x : Nat) : Nat :=
  let x := (x + WORD - 1) % WORD
  let x := x ||| (x >>> 1)
  let x := x ||| (x >>> 2)
  let x := x ||| (x >>> 4)
  let x := [1, 2, 4].foldl (fun x i => x ||| (x >>> (i <<< 3))) x
  (x + 1) % WORD

/-- Local variables of the constructor loop: heap, `firstBlock`, `lastBlock`. -/
structure CtorLoop (T : Type) where
  blocks : List (Block T)
  firstBlock : Nat
  lastBlock : Nat

/-- One iteration of the constructor loop. -/
def ctorStep (largestBlockSize : Nat) (st : CtorLoop T) : CtorLoop T :=
  let block := st.blocks.length + 1
  let blocks := st.blocks ++ [Block.make_block largestBlockSize]
  let firstBlock := if st.firstBlock = 0 then block else st.firstBlock
  let blocks :=
    if st.firstBlock = 0 then blocks
    else match deref blocks st.lastBlock with
      | .ok lb => writeAt blocks st.lastBlock { lb with next := block }
      | .error _ => blocks
  let blocks :=
    match deref blocks block with
    | .ok b => writeAt blocks block { b with next := firstBlock }
    | .error _ => blocks
  { blocks := blocks, firstBlock := firstBlock, lastBlock := block }

/-- The loop `for (i = 0; i != initialBlockCount; ++i)` of the constructor. -/
def ctorLoop (largestBlockSize : Nat) : Nat → CtorLoop T → CtorLoop T
  | 0, st => st
  | n + 1, st => ctorLoop largestBlockSize n (ctorStep largestBlockSize st)

/-- The constructor `ReaderWriterQueue(size_t size)`, every allocation
succeeding.  The class requires `MAX_BLOCK_SIZE >= 2` (its second
assertion), so the divisor `MAX_BLOCK_SIZE - 1` is written without
wrap-around. -/
def ctor (MAX_BLOCK_SIZE : Nat) (NDEBUG : Bool) (size : Nat) :
    Except Fault (ReaderWriterQueue T) :=
  if !NDEBUG && (MAX_BLOCK_SIZE != ceilToPow2 MAX_BLOCK_SIZE) then .error .assertion
  else if !NDEBUG && !(decide (MAX_BLOCK_SIZE ≥ 2)) then .error .assertion
  else
    let largestBlockSize := ceilToPow2 ((size + 1) % WORD)
    if largestBlockSize > (MAX_BLOCK_SIZE * 2) % WORD then
      let initialBlockCount :=
        ((size + (MAX_BLOCK_SIZE * 2) % WORD + WORD - 3) % WORD) / (MAX_BLOCK_SIZE - 1)
      let largestBlockSize := MAX_BLOCK_SIZE
      let st := ctorLoop largestBlockSize initialBlockCount
        { blocks := [], firstBlock := 0, lastBlock := 0 }
      .ok { blocks := st.blocks, frontBlock := st.firstBlock,
            tailBlock := st.firstBlock, largestBlockSize := largestBlockSize }
    else
      let firstBlock := 1
      .ok { blocks := [{ (Block.make_block largestBlockSize : Block T) with next := firstBlock }],
            frontBlock := firstBlock, tailBlock := firstBlock,
            largestBlockSize := largestBlockSize }

/-- The dequeue sequence that `try_dequeue` repeats three times: move the
element at `idx` of block `b` (stored at `p`) into `result`, destroy the
slot, advance and publish `front`, return `true`. -/
def dequeue_from (q : ReaderWriterQueue T) (p : Nat) (b : Block T) (idx : Nat) :
    Except Fault (Bool × ReaderWriterQueue T × T) :=
  match b.move_out_element_at_idx idx with
  | .error e => .error e
  | .ok (v, b1) =>
    let b2 := { b1 with front := b1.forward idx }
    .ok (true, { q with blocks := writeAt q.blocks p b2 }, v)

/-- The method `try_dequeue(U& result)`: returns the returned flag, the
queue afterwards and the content of `result` afterwards. -/
def try_dequeue (NDEBUG : Bool) (q : ReaderWriterQueue T) (result : T) :
    Except Fault (Bool × ReaderWriterQueue T × T) :=
  match deref q.blocks q.frontBlock with
  | .error e => .error e
  | .ok fb =>
    let blockTail := fb.local_tail
    let blockFront := fb.front
    if blockFront ≠ blockTail then dequeue_from q q.frontBlock fb blockFront
    else
      let fb := fb.get_local_tail_from_tail
      if blockFront ≠ fb.local_tail then dequeue_from q q.frontBlock fb blockFront
      else
        let q := { q with blocks := writeAt q.blocks q.frontBlock fb }
        if q.frontBlock ≠ q.tailBlock then
          let fb := fb.get_local_tail_from_tail
          let blockTail := fb.local_tail
          let blockFront := fb.front
          let q := { q with blocks := writeAt q.blocks q.frontBlock fb }
          if blockFront ≠ blockTail then dequeue_from q q.frontBlock fb blockFront
          else
            let nextBlock := fb.next
            match deref q.blocks nextBlock with
            | .error e => .error e
            | .ok nb =>
              let nextBlockFront := nb.front
              let nb := nb.get_local_tail_from_tail
              let nextBlockTail := nb.local_tail
              if !NDEBUG && (nextBlockFront == nextBlockTail) then .error .assertion
              else
                dequeue_from { q with frontBlock := nextBlock } nextBlock nb nextBlockFront
        else .ok (false, q, result)

/-- The method `inner_enqueue(U&& element)`; `allocOk` tells whether
`Block::make_block` succeeds should the call reach it (`false`:
`std::bad_alloc`). -/
def inner_enqueue (MAX_BLOCK_SIZE : Nat) (NDEBUG : Bool) (q : ReaderWriterQueue T)
    (element : T) (allocOk : Bool) : Except Fault (Bool × ReaderWriterQueue T) :=
  match deref q.blocks q.tailBlock with
  | .error e => .error e
  | .ok tb =>
    let blockFront := tb.local_front
    let blockTail := tb.tail
    let nextBlockTail := tb.forward blockTail
    if nextBlockTail ≠ blockFront then
      match tb.construct_element_at_idx blockTail element with
      | .error e => .error e
      | .ok tb => .ok (true, { q with blocks := writeAt q.blocks q.tailBlock { tb with tail := nextBlockTail } })
    else
      let tb := tb.get_local_front_from_front
      if nextBlockTail ≠ tb.local_front then
        match tb.construct_element_at_idx blockTail element with
        | .error e => .error e
        | .ok tb => .ok (true, { q with blocks := writeAt q.blocks q.tailBlock { tb with tail := nextBlockTail } })
      else
        let q := { q with blocks := writeAt q.blocks q.tailBlock tb }
        if tb.next ≠ q.frontBlock then
          let tailBlockNext := tb.next
          match deref q.blocks tailBlockNext with
          | .error e => .error e
          | .ok tbn =>
            let tbn := tbn.get_local_front_from_front
            let nextBlockFront := tbn.local_front
            let nextBlockTail := tbn.tail
            if !NDEBUG && (nextBlockTail == nextBlockFront) then .error .assertion
            else
              match tbn.construct_element_at_idx nextBlockTail element with
              | .error e => .error e
              | .ok tbn =>
                let tbn := { tbn with tail := tbn.forward nextBlockTail }
                .ok (true, { q with blocks := writeAt q.blocks tailBlockNext tbn,
                                    tailBlock := tailBlockNext })
        else
          let newBlockSize :=
            if q.largestBlockSize ≥ MAX_BLOCK_SIZE then q.largestBlockSize
            else (q.largestBlockSize * 2) % WORD
          if !allocOk then .ok (false, q)
          else
            let newBlock : Block T := Block.make_block newBlockSize
            let newAddr := q.blocks.length + 1
            match newBlock.construct_element_at_idx 0 element with
            | .error e => .error e
            | .ok newBlock =>
              if !NDEBUG && (newBlock.front != 0) then .error .assertion
              else
                let newBlock := { newBlock with tail := 1 }
                let newBlock := newBlock.get_local_tail_from_tail
                let newBlock := { newBlock with next := tb.next }
                let blocks := writeAt q.blocks q.tailBlock { tb with next := newAddr }
                .ok (true, { blocks := blocks ++ [newBlock], frontBlock := q.frontBlock,
                             tailBlock := newAddr, largestBlockSize := newBlockSize })

/-- A call made on the queue by its single user. -/
inductive Op (T : Type) where
  | enqueue (element : T) (allocOk : Bool)
  | dequeue
deriving DecidableEq, Repr

/-- What a sequence of calls has produced: the queue, the variable passed
to `try_dequeue`, the values of the `inner_enqueue` calls that returned
`true` and the values written by the `try_dequeue` calls that returned
`true`, both in call order. -/
structure Run (T : Type) where
  queue : ReaderWriterQueue T
  result : T
  enqueued : List T
  dequeued : List T
deriving DecidableEq, Repr

/-- Execute one call. -/
def step (MAX_BLOCK_SIZE : Nat) (NDEBUG : Bool) (r : Run T) : Op T → Except Fault (Run T)
  | .enqueue v allocOk =>
    match inner_enqueue MAX_BLOCK_SIZE NDEBUG r.queue v allocOk with
    | .error e => .error e
    | .ok (true, q) => .ok { r with queue := q, enqueued := r.enqueued ++ [v] }
    | .ok (false, q) => .ok { r with queue := q }
  | .dequeue =>
    match try_dequeue NDEBUG r.queue r.result with
    | .error e => .error e
    | .ok (true, q, v) => .ok { r with queue := q, result := v, dequeued := r.dequeued ++ [v] }
    | .ok (false, q, v) => .ok { r with queue := q, result := v }

/-- Execute a sequence of calls, one at a time. -/
def run (MAX_BLOCK_SIZE : Nat) (NDEBUG : Bool) : Run T → List (Op T) → Except Fault (Run T)
  | r, [] => .ok r
  | r, op :: ops =>
    match step MAX_BLOCK_SIZE NDEBUG r op with
    | .error e => .error e
    | .ok r1 => run MAX_BLOCK_SIZE NDEBUG r1 ops

/-- Construct a queue with the given size hint and execute the calls;
`result0` is the initial content of the variable passed to `try_dequeue`. -/
def session (MAX_BLOCK_SIZE : Nat) (NDEBUG : Bool) (size : Nat) (result0 : T)
    (ops : List (Op T)) : Except Fault (Run T) :=
  match ctor MAX_BLOCK_SIZE NDEBUG size with
  | .error e => .error e
  | .ok q => run MAX_BLOCK_SIZE NDEBUG { queue := q, result := result0, enqueued := [], dequeued := [] } ops

end ReaderWriterQueue

end sq

/-! ## `Stack.h` and `Queue.h`: the counted-pointer containers -/

/-- The enumerators of `std::memory_order`, an unscoped enumeration of
`<atomic>` in the language versions that accept this code (C++11 to C++17):
`memory_order_relaxed, memory_order_consume, memory_order_acquire,
memory_order_release, memory_order_acq_rel, memory_order_seq_cst`, numbered
from zero.  Where the source closes the parenthesis of a
compare-exchange call before its memory-order arguments, these become
operands of the comma operator and the last one is the value of the
condition. -/
def memory_order_relaxed : Nat := 0

/-- See `memory_order_relaxed`. -/
def memory_order_acquire : Nat := 2

/-- See `memory_order_relaxed`. -/
def memory_order_release : Nat := 3

/-- Contextual conversion of an enumerator to `bool`: non-zero is `true`. -/
def truthy (n : Nat) : Bool := n != 0

/-- The struct `CountedNodePtr` of `LockFreeStack4` and `LockFreeQueue2`. -/
structure CountedNodePtr where
  external_count : Int
  ptr : Nat
deriving DecidableEq, Repr

namespace LockFreeStack4

/-- The struct `LockFreeStack4::Node`; `data = none` is the null
`shared_ptr`. -/
structure Node (T : Type) where
  data : Option T
  internal_count : Int
  next : CountedNodePtr
deriving DecidableEq, Repr

end LockFreeStack4

/-- The class `LockFreeStack4<T>`: the heap of its nodes, the addresses given
to `delete` so far (in order) and the atomic `_head`. -/
structure LockFreeStack4 (T : Type) where
  nodes : List (LockFreeStack4.Node T)
  deleted : List Nat
  _head : CountedNodePtr
deriving DecidableEq, Repr

namespace LockFreeStack4

variable {T : Type}

/-- The defaulted constructor: `_head` holds a default `CountedNodePtr`,
`external_count = 1` and `ptr = nullptr`. -/
def ctor : LockFreeStack4 T :=
  { nodes := [], deleted := [], _head := { external_count := 1, ptr := 0 } }

/-- Read the node at `p`; a deleted node cannot be read. -/
def node_at (s : LockFreeStack4 T) (p : Nat) : Except Fault (Node T) :=
  if p ∈ s.deleted then .error .badAccess else deref s.nodes p

/-- The method `push`: the new node takes the address after the heap, its
`next` is the head just loaded, and the compare-exchange loop installs it
(alone on the stack, the expected value is the stored one). -/
def push (s : LockFreeStack4 T) (t : T) : LockFreeStack4 T :=
  let new_node : CountedNodePtr := { external_count := 1, ptr := s.nodes.length + 1 }
  let node : Node T := { data := some t, internal_count := 0, next := s._head }
  { s with nodes := s.nodes ++ [node], _head := new_node }

/-- The method `increase_head_count`: the do-while loop around
`_head.compare_exchange_strong(old_header, new_counter)`, then the copy of
the new count into `old_header`. -/
def increase_head_count :
    Nat → LockFreeStack4 T → CountedNodePtr → Except Fault (LockFreeStack4 T × CountedNodePtr)
  | 0, _, _ => .error .fuel
  | fuel + 1, s, old_header =>
    let new_counter : CountedNodePtr :=
      { old_header with external_count := old_header.external_count + 1 }
    if s._head = old_header then
      .ok ({ s with _head := new_counter },
           { old_header with external_count := new_counter.external_count })
    else increase_head_count fuel s s._head

/-- The loop `while(true)` of `pop`, with the local `old_node`. -/
def popLoop :
    Nat → LockFreeStack4 T → CountedNodePtr → Except Fault (LockFreeStack4 T × Option T)
  | 0, _, _ => .error .fuel
  | fuel + 1, s, old_node =>
    match increase_head_count (fuel + 1) s old_node with
    | .error e => .error e
    | .ok (s, old_node) =>
      let ptr := old_node.ptr
      if ptr = 0 then .ok (s, none)
      else
        match node_at s ptr with
        | .error e => .error e
        | .ok nd =>
          -- first operand of the comma: `_head.compare_exchange_strong(old_node, ptr->next)`
          let s1 := if s._head = old_node then { s with _head := nd.next } else s
          let old_node1 := if s._head = old_node then old_node else s._head
          -- second operand, the value of the condition: `std::memory_order_relaxed`
          if truthy memory_order_relaxed then
            let res := nd.data
            let count_increase := old_node1.external_count - 2
            let nd1 := { nd with data := none, internal_count := nd.internal_count + count_increase }
            let s2 := { s1 with nodes := writeAt s1.nodes ptr nd1 }
            let s3 := if nd.internal_count = -count_increase
              then { s2 with deleted := s2.deleted ++ [ptr] } else s2
            .ok (s3, res)
          else
            let nd1 := { nd with internal_count := nd.internal_count - 1 }
            let s2 := { s1 with nodes := writeAt s1.nodes ptr nd1 }
            let s3 := if nd.internal_count = 1
              then { s2 with deleted := s2.deleted ++ [ptr] } else s2
            popLoop fuel s3 old_node1

/-- The method `pop`: `none` is the null `shared_ptr`, the empty signal. -/
def pop (fuel : Nat) (s : LockFreeStack4 T) : Except Fault (LockFreeStack4 T × Option T) :=
  popLoop fuel s s._head

/-- Push the values of a list, first to last. -/
def pushAll (s : LockFreeStack4 T) (vs : List T) : LockFreeStack4 T :=
  vs.foldl push s

/-- Call `pop` `n` times and collect what the calls return, first to last. -/
def popN (fuel : Nat) : Nat → LockFreeStack4 T → Except Fault (LockFreeStack4 T × List (Option T))
  | 0, s => .ok (s, [])
  | n + 1, s =>
    match pop fuel s with
    | .error e => .error e
    | .ok (s1, r) =>
      match popN fuel n s1 with
      | .error e => .error e
      | .ok (s2, rs) => .ok (s2, r :: rs)

end LockFreeStack4

namespace LockFreeQueue2

/-- The bit-field struct `NodeCounter`: `internal_count` has 30 bits,
`external_count` has 2 bits. -/
structure NodeCounter where
  internal_count : Nat
  external_count : Nat
deriving DecidableEq, Repr

/-- The struct `LockFreeQueue2::Node`; `data = none` is the null `T*`.  The
constructor sets `count` to `{0, 2}`; its statements `next.ptr = nullptr;
next.external_count = 0;` name members of the counted pointer on the
atomic that holds it and are read as storing `{nullptr, 0}`; `data` is
taken to start as `nullptr`. -/
structure Node (T : Type) where
  data : Option T
  count : NodeCounter
  next : CountedNodePtr
deriving DecidableEq, Repr

/-- The node built by `new Node`. -/
def Node.new (T : Type) : Node T :=
  { data := none, count := { internal_count := 0, external_count := 2 },
    next := { external_count := 0, ptr := 0 } }

end LockFreeQueue2

/-- The class `LockFreeQueue2<T>`: the heap of its nodes, the addresses given
to `delete` so far and the atomics `_head` and `_tail`. -/
structure LockFreeQueue2 (T : Type) where
  nodes : List (LockFreeQueue2.Node T)
  deleted : List Nat
  _head : CountedNodePtr
  _tail : CountedNodePtr
deriving DecidableEq, Repr

namespace LockFreeQueue2

variable {T : Type}

/-- The constructor `LockFreeQueue2(): _head(CountedNodePtr()), _tail(_head)`:
`_head` holds the value-initialised counted pointer, `{nullptr, 0}`, and
`_tail(_head)` is read as initialising `_tail` with the value of `_head`;
no node is allocated. -/
def ctor : LockFreeQueue2 T :=
  { nodes := [], deleted := [],
    _head := { external_count := 0, ptr := 0 }, _tail := { external_count := 0, ptr := 0 } }

/-- Read the node at `p`; a null pointer or a deleted node cannot be read. -/
def node_at (s : LockFreeQueue2 T) (p : Nat) : Except Fault (Node T) :=
  if p ∈ s.deleted then .error .badAccess else deref s.nodes p

/-- Which of the two atomics a call of `increase_external_count` is given. -/
inductive Counter where
  | head
  | tail
deriving DecidableEq, Repr

/-- Load the atomic. -/
def Counter.load (c : Counter) (s : LockFreeQueue2 T) : CountedNodePtr :=
  match c with
  | .head => s._head
  | .tail => s._tail

/-- Store into the atomic. -/
def Counter.store (c : Counter) (s : LockFreeQueue2 T) (v : CountedNodePtr) : LockFreeQueue2 T :=
  match c with
  | .head => { s with _head := v }
  | .tail => { s with _tail := v }

/-- The static method `increase_external_count(counter, old_counter)`.  Its
loop condition is the comma expression
`!counter.compare_exchange_strong(old_counter, new_counter), std::memory_order_acquire, std::memory_order_relaxed`,
whose value is the last operand. -/
def increase_external_count (c : Counter) :
    Nat → LockFreeQueue2 T → CountedNodePtr → Except Fault (LockFreeQueue2 T × CountedNodePtr)
  | 0, _, _ => .error .fuel
  | fuel + 1, s, old_counter =>
    let new_counter : CountedNodePtr :=
      { old_counter with external_count := old_counter.external_count + 1 }
    let s1 := if c.load s = old_counter then c.store s new_counter else s
    let old_counter1 := if c.load s = old_counter then old_counter else c.load s
    if truthy memory_order_relaxed then increase_external_count c fuel s1 old_counter1
    else .ok (s1, { old_counter1 with external_count := new_counter.external_count })

/-- The loop of `Node::release_ref`, with the locals `old_counter` and
`new_counter` (the latter as left by the iteration before).  Its
condition is the comma expression
`!count.compare_exchange_strong(old_counter, new_counter), std::memory_order_release, std::memory_order_release`. -/
def release_ref_loop (p : Nat) :
    Nat → LockFreeQueue2 T → NodeCounter → Except Fault (LockFreeQueue2 T × NodeCounter)
  | 0, _, _ => .error .fuel
  | fuel + 1, s, old_counter =>
    match node_at s p with
    | .error e => .error e
    | .ok nd =>
      let new_counter : NodeCounter :=
        { old_counter with internal_count := (old_counter.internal_count + 2 ^ 30 - 1) % 2 ^ 30 }
      let s1 := if nd.count = old_counter
        then { s with nodes := writeAt s.nodes p { nd with count := new_counter } } else s
      let old_counter1 := if nd.count = old_counter then old_counter else nd.count
      if truthy memory_order_release then release_ref_loop p fuel s1 old_counter1
      else .ok (s1, new_counter)

/-- The method `Node::release_ref` called on the node at `p`. -/
def release_ref (fuel : Nat) (s : LockFreeQueue2 T) (p : Nat) : Except Fault (LockFreeQueue2 T) :=
  match node_at s p with
  | .error e => .error e
  | .ok nd =>
    match release_ref_loop p fuel s nd.count with
    | .error e => .error e
    | .ok (s1, new_counter) =>
      if new_counter.internal_count = 0 ∧ new_counter.external_count = 0
      then .ok { s1 with deleted := s1.deleted ++ [p] } else .ok s1

/-- The loop of `free_external_counter`, a compare-exchange loop on the
node's counter whose new value has `external_count` decremented. -/
def free_external_counter_loop (p : Nat) :
    Nat → LockFreeQueue2 T → NodeCounter → Except Fault (LockFreeQueue2 T × NodeCounter)
  | 0, _, _ => .error .fuel
  | fuel + 1, s, old_counter =>
    match node_at s p with
    | .error e => .error e
    | .ok nd =>
      let new_counter : NodeCounter :=
        { old_counter with external_count := (old_counter.external_count + 4 - 1) % 4 }
      if nd.count = old_counter
      then .ok ({ s with nodes := writeAt s.nodes p { nd with count := new_counter } }, new_counter)
      else free_external_counter_loop p fuel s nd.count

/-- The static method `free_external_counter(old_node_ptr)`; the local
`count_increase` is computed and not used. -/
def free_external_counter (fuel : Nat) (s : LockFreeQueue2 T) (old_node_ptr : CountedNodePtr) :
    Except Fault (LockFreeQueue2 T) :=
  let ptr := old_node_ptr.ptr
  match node_at s ptr with
  | .error e => .error e
  | .ok nd =>
    match free_external_counter_loop ptr fuel s nd.count with
    | .error e => .error e
    | .ok (s1, new_counter) =>
      if new_counter.internal_count = 0 ∧ new_counter.external_count = 0
      then .ok { s1 with deleted := s1.deleted ++ [ptr] } else .ok s1

/-- The loop of `set_new_tail`:
`while(!_tail.compare_exchange_weak(old_tail, new_tail) && old_tail.ptr==current_tail_ptr)`. -/
def set_new_tail_loop (current_tail_ptr : Nat) (new_tail : CountedNodePtr) :
    Nat → LockFreeQueue2 T → CountedNodePtr → Except Fault (LockFreeQueue2 T × CountedNodePtr)
  | 0, _, _ => .error .fuel
  | fuel + 1, s, old_tail =>
    if s._tail = old_tail then .ok ({ s with _tail := new_tail }, old_tail)
    else
      let old_tail1 := s._tail
      if old_tail1.ptr = current_tail_ptr
      then set_new_tail_loop current_tail_ptr new_tail fuel s old_tail1
      else .ok (s, old_tail1)

/-- The method `set_new_tail(old_tail, new_tail)`; `old_tail` is passed by
reference, its value on return is returned with the queue. -/
def set_new_tail (fuel : Nat) (s : LockFreeQueue2 T) (old_tail new_tail : CountedNodePtr) :
    Except Fault (LockFreeQueue2 T × CountedNodePtr) :=
  let current_tail_ptr := old_tail.ptr
  match set_new_tail_loop current_tail_ptr new_tail fuel s old_tail with
  | .error e => .error e
  | .ok (s1, old_tail1) =>
    if old_tail1.ptr = current_tail_ptr then
      match free_external_counter fuel s1 old_tail1 with
      | .error e => .error e
      | .ok s2 => .ok (s2, old_tail1)
    else
      match release_ref fuel s1 current_tail_ptr with
      | .error e => .error e
      | .ok s2 => .ok (s2, old_tail1)

/-- The loop `while (true)` of `push`, with the locals `new_next` and
`old_tail`; `t` is the value owned by `new_data`. -/
def pushLoop (t : T) :
    Nat → LockFreeQueue2 T → CountedNodePtr → CountedNodePtr → Except Fault (LockFreeQueue2 T)
  | 0, _, _, _ => .error .fuel
  | fuel + 1, s, new_next, old_tail =>
    match increase_external_count .tail (fuel + 1) s old_tail with
    | .error e => .error e
    | .ok (s, old_tail) =>
      match node_at s old_tail.ptr with
      | .error e => .error e
      | .ok nd =>
        let old_next : CountedNodePtr := { external_count := 0, ptr := 0 }
        if nd.data.isNone then
          -- `data.compare_exchange_strong(old_data, new_data.get())` succeeded
          let nd1 := { nd with data := some t }
          if nd1.next = old_next then
            let s1 := { s with nodes := writeAt s.nodes old_tail.ptr { nd1 with next := new_next } }
            match set_new_tail (fuel + 1) s1 old_tail new_next with
            | .error e => .error e
            | .ok (s2, _) => .ok s2
          else
            let s1 := { s with nodes := writeAt s.nodes old_tail.ptr nd1,
                               deleted := s.deleted ++ [new_next.ptr] }
            match set_new_tail (fuel + 1) s1 old_tail nd1.next with
            | .error e => .error e
            | .ok (s2, _) => .ok s2
        else
          if nd.next = old_next then
            let s1 := { s with nodes := writeAt s.nodes old_tail.ptr { nd with next := new_next } }
            let old_next := new_next
            let s2 := { s1 with nodes := s1.nodes ++ [Node.new T] }
            let new_next := { new_next with ptr := s1.nodes.length + 1 }
            match set_new_tail (fuel + 1) s2 old_tail old_next with
            | .error e => .error e
            | .ok (s3, old_tail) => pushLoop t fuel s3 new_next old_tail
          else
            match set_new_tail (fuel + 1) s old_tail nd.next with
            | .error e => .error e
            | .ok (s3, old_tail) => pushLoop t fuel s3 new_next old_tail

/-- The method `push`. -/
def push (fuel : Nat) (s : LockFreeQueue2 T) (t : T) : Except Fault (LockFreeQueue2 T) :=
  let new_next : CountedNodePtr := { external_count := 1, ptr := s.nodes.length + 1 }
  let s1 := { s with nodes := s.nodes ++ [Node.new T] }
  pushLoop t fuel s1 new_next s1._tail

/-- The loop `while(true)` of `pop`, with the local `old_head`; the value
returned is the pointer taken out of the node (`none`: the null
`unique_ptr`): `std::unique_ptr<T>(*res)` is read as the `unique_ptr` that
owns `res`. -/
def popLoop :
    Nat → LockFreeQueue2 T → CountedNodePtr → Except Fault (LockFreeQueue2 T × Option T)
  | 0, _, _ => .error .fuel
  | fuel + 1, s, old_head =>
    match increase_external_count .head (fuel + 1) s old_head with
    | .error e => .error e
    | .ok (s, old_head) =>
      let ptr := old_head.ptr
      if ptr = s._tail.ptr then
        match release_ref (fuel + 1) s ptr with
        | .error e => .error e
        | .ok s1 => .ok (s1, none)
      else
        match node_at s ptr with
        | .error e => .error e
        | .ok nd =>
          if s._head = old_head then
            let s1 := { s with _head := nd.next,
                               nodes := writeAt s.nodes ptr { nd with data := none } }
            match free_external_counter (fuel + 1) s1 old_head with
            | .error e => .error e
            | .ok s2 => .ok (s2, nd.data)
          else
            match release_ref (fuel + 1) s ptr with
            | .error e => .error e
            | .ok s1 => popLoop fuel s1 s._head

/-- The method `pop`. -/
def pop (fuel : Nat) (s : LockFreeQueue2 T) : Except Fault (LockFreeQueue2 T × Option T) :=
  popLoop fuel s s._head

end LockFreeQueue2

/-! ## `SpscQueue.h`: destruction -/

namespace sq

namespace Block

variable {T : Type}

/-- The loop `for (i = block_front; i != block_tail; i = (i+1) & size_mask)`
of `Block::~Block`, which runs `~T()` on slot `i`; `acc` collects the values
destroyed so far.  Running the destructor on a slot that holds no object is
a bad access. -/
def destroyLoop : Nat → Block T → Nat → Nat → List T → Except Fault (Block T × List T)
  | 0, _, _, _, _ => .error .fuel
  | fuel + 1, b, i, block_tail, acc =>
    if i = block_tail then .ok (b, acc)
    else
      match b.data[i]? with
      | some (some v) =>
        destroyLoop fuel { b with data := b.data.set i none } (((i + 1) % WORD) &&& b.size_mask)
          block_tail (acc ++ [v])
      | _ => .error .badAccess

/-- The destructor `Block::~Block` up to `std::free(raw_this)`: the block
after the loop and the values destroyed, in order. -/
def dtor (fuel : Nat) (b : Block T) : Except Fault (Block T × List T) :=
  let block_front := b.front
  let block_tail := b.tail
  destroyLoop fuel b block_front block_tail []

end Block

/-- What a destruction has done: the heap of blocks afterwards, the values
on which `~T()` ran and the addresses passed to `std::free`, both in
order. -/
structure Destruction (T : Type) where
  blocks : List (Block T)
  destroyed : List T
  freed : List Nat
deriving DecidableEq, Repr

namespace ReaderWriterQueue

variable {T : Type}

/-- The loop `do { ... } while (block != frontBlock_)` of
`~ReaderWriterQueue`: read `next`, run `block->~Block()` (which destroys
the elements between `front` and `tail` and frees the block), go on with
the next block.  Reading a freed block is a bad access. -/
def dtorLoop : Nat → Destruction T → Nat → Nat → Except Fault (Destruction T)
  | 0, _, _, _ => .error .fuel
  | fuel + 1, st, block, frontBlock_ =>
    if block ∈ st.freed then .error .badAccess
    else
      match deref st.blocks block with
      | .error e => .error e
      | .ok b =>
        let nextBlock := b.next
        match b.dtor (fuel + 1) with
        | .error e => .error e
        | .ok (b1, vs) =>
          let st1 : Destruction T :=
            { blocks := writeAt st.blocks block b1, destroyed := st.destroyed ++ vs,
              freed := st.freed ++ [block] }
          if nextBlock ≠ frontBlock_ then dtorLoop fuel st1 nextBlock frontBlock_
          else .ok st1

/-- The destructor `~ReaderWriterQueue`. -/
def dtor (fuel : Nat) (q : ReaderWriterQueue T) : Except Fault (Destruction T) :=
  let frontBlock_ := q.frontBlock
  dtorLoop fuel { blocks := q.blocks, destroyed := [], freed := [] } frontBlock_ frontBlock_

end ReaderWriterQueue

end sq

namespace LockFreeStack4

variable {T : Type}

/-- Draining a stack: `pop` is called until it returns the empty signal (at
most `n` times); the values returned before that, in order. -/
def drain (fuel : Nat) : Nat → LockFreeStack4 T → Except Fault (LockFreeStack4 T × List T)
  | 0, _ => .error .fuel
  | n + 1, s =>
    match pop fuel s with
    | .error e => .error e
    | .ok (s1, none) => .ok (s1, [])
    | .ok (s1, some v) =>
      match drain fuel n s1 with
      | .error e => .error e
      | .ok (s2, vs) => .ok (s2, v :: vs)

end LockFreeStack4

/-! ## `Stack.h`: `LockFreeStack1`, `LockFreeStack2`, `LockFreeStack3`

A `std::shared_ptr<T>` is an `Option T`: `none` is the null pointer,
`some v` points to an object of value `v`.  The argument `dflt` of the
`pop` functions is the value of a value-initialised `T`, the object that
`std::make_shared<T>()` creates.  The objects are value-initialised, as in
`StackType stack{}` of the test, so the atomics start as null and zero. -/

namespace LockFreeStack1

/-- The struct `LockFreeStack1::Node`. -/
structure Node (T : Type) where
  data : Option T
  next : Nat
deriving DecidableEq, Repr

end LockFreeStack1

/-- The class `LockFreeStack1<T>`: the heap of its nodes and `_head`. -/
structure LockFreeStack1 (T : Type) where
  nodes : List (LockFreeStack1.Node T)
  _head : Nat
deriving DecidableEq, Repr

namespace LockFreeStack1

variable {T : Type}

/-- A value-initialised stack: `_head` is null. -/
def ctor : LockFreeStack1 T :=
  { nodes := [], _head := 0 }

/-- The method `push`: the compare-exchange loop installs the new node at
the first attempt, the expected value being the one just loaded. -/
def push (s : LockFreeStack1 T) (t : T) : LockFreeStack1 T :=
  let new_node := s.nodes.length + 1
  { nodes := s.nodes ++ [{ data := some t, next := s._head }], _head := new_node }

/-- The method `pop`: `old_head ? old_head->data : std::make_shared<T>()`
after the compare-exchange loop, which succeeds at the first attempt. -/
def pop (dflt : T) (s : LockFreeStack1 T) : Except Fault (LockFreeStack1 T × Option T) :=
  let old_head := s._head
  if old_head = 0 then .ok (s, some dflt)
  else
    match deref s.nodes old_head with
    | .error e => .error e
    | .ok nd => .ok ({ s with _head := nd.next }, nd.data)

end LockFreeStack1

namespace LockFreeStack2

/-- The struct `LockFreeStack2::Node`. -/
structure Node (T : Type) where
  data : Option T
  next : Nat
deriving DecidableEq, Repr

end LockFreeStack2

/-- The class `LockFreeStack2<T>`: the heap of its nodes, the addresses given
to `delete` so far and the three atomics. -/
structure LockFreeStack2 (T : Type) where
  nodes : List (LockFreeStack2.Node T)
  deleted : List Nat
  _head : Nat
  _threads_in_pop : Int
  _to_be_deleted : Nat
deriving DecidableEq, Repr

namespace LockFreeStack2

variable {T : Type}

/-- A value-initialised stack: the pointers are null, the counter is 0. -/
def ctor : LockFreeStack2 T :=
  { nodes := [], deleted := [], _head := 0, _threads_in_pop := 0, _to_be_deleted := 0 }

/-- Read the node at `p`; a null pointer or a deleted node cannot be read. -/
def node_at (s : LockFreeStack2 T) (p : Nat) : Except Fault (Node T) :=
  if p ∈ s.deleted then .error .badAccess else deref s.nodes p

/-- The method `push`. -/
def push (s : LockFreeStack2 T) (t : T) : LockFreeStack2 T :=
  let new_node := s.nodes.length + 1
  { s with nodes := s.nodes ++ [{ data := some t, next := s._head }], _head := new_node }

/-- The loop `while(need_to_be_deleted) { tmp = need_to_be_deleted;
need_to_be_deleted = need_to_be_deleted->next; delete tmp; }` of
`try_reclaim`. -/
def delete_nodes : Nat → LockFreeStack2 T → Nat → Except Fault (LockFreeStack2 T)
  | 0, _, _ => .error .fuel
  | fuel + 1, s, need_to_be_deleted =>
    if need_to_be_deleted = 0 then .ok s
    else
      match node_at s need_to_be_deleted with
      | .error e => .error e
      | .ok nd =>
        delete_nodes fuel { s with deleted := s.deleted ++ [need_to_be_deleted] } nd.next

/-- The loop `while(last && last->next) last = last->next;` of `try_reclaim`. -/
def last_node : Nat → LockFreeStack2 T → Nat → Except Fault Nat
  | 0, _, _ => .error .fuel
  | fuel + 1, s, last =>
    if last = 0 then .ok last
    else
      match node_at s last with
      | .error e => .error e
      | .ok nd => if nd.next ≠ 0 then last_node fuel s nd.next else .ok last

/-- The method `try_reclaim(old_head)`. -/
def try_reclaim (fuel : Nat) (s : LockFreeStack2 T) (old_head : Nat) :
    Except Fault (LockFreeStack2 T) :=
  if s._threads_in_pop = 1 then
    let need_to_be_deleted := s._to_be_deleted
    let s := { s with _to_be_deleted := 0 }
    let s := { s with _threads_in_pop := s._threads_in_pop - 1 }
    if s._threads_in_pop = 0 then
      match delete_nodes fuel s need_to_be_deleted with
      | .error e => .error e
      | .ok s => .ok { s with deleted := s.deleted ++ [old_head] }
    else
      if need_to_be_deleted ≠ 0 then
        match last_node fuel s need_to_be_deleted with
        | .error e => .error e
        | .ok last =>
          match node_at s last with
          | .error e => .error e
          | .ok nd =>
            let s := { s with nodes := writeAt s.nodes last { nd with next := s._to_be_deleted } }
            let s := { s with _to_be_deleted := need_to_be_deleted }
            .ok { s with deleted := s.deleted ++ [old_head] }
      else .ok { s with deleted := s.deleted ++ [old_head] }
  else
    match node_at s old_head with
    | .error e => .error e
    | .ok nd =>
      let s := { s with nodes := writeAt s.nodes old_head { nd with next := s._to_be_deleted } }
      let s := { s with _to_be_deleted := old_head }
      .ok { s with _threads_in_pop := s._threads_in_pop - 1 }

/-- The method `pop`: the counter is incremented, the head is unlinked (the
compare-exchange succeeds at the first attempt), `res` starts as
`std::make_shared<T>()` and is swapped with the data of the node, and
`try_reclaim` is called, only when there was a node. -/
def pop (fuel : Nat) (dflt : T) (s : LockFreeStack2 T) :
    Except Fault (LockFreeStack2 T × Option T) :=
  let s := { s with _threads_in_pop := s._threads_in_pop + 1 }
  let old_head := s._head
  if old_head = 0 then
    let res := some dflt
    .ok (s, res)
  else
    match node_at s old_head with
    | .error e => .error e
    | .ok nd =>
      let s := { s with _head := nd.next }
      let res := some dflt
      let s := { s with nodes := writeAt s.nodes old_head { nd with data := res } }
      let res := nd.data
      match try_reclaim fuel s old_head with
      | .error e => .error e
      | .ok s => .ok (s, res)

end LockFreeStack2

namespace LockFreeStack3

/-- The struct `LockFreeStack3::Node`; `next` is a `std::shared_ptr<Node>`. -/
structure Node (T : Type) where
  data : Option T
  next : Nat
deriving DecidableEq, Repr

end LockFreeStack3

/-- The class `LockFreeStack3<T>`: the heap of its nodes and `_head`.  The
nodes are owned by shared pointers; when they are released is not
modelled. -/
structure LockFreeStack3 (T : Type) where
  nodes : List (LockFreeStack3.Node T)
  _head : Nat
deriving DecidableEq, Repr

namespace LockFreeStack3

variable {T : Type}

/-- The defaulted constructor: `_head` is the null shared pointer. -/
def ctor : LockFreeStack3 T :=
  { nodes := [], _head := 0 }

/-- The method `push`. -/
def push (s : LockFreeStack3 T) (t : T) : LockFreeStack3 T :=
  let new_node := s.nodes.length + 1
  { nodes := s.nodes ++ [{ data := some t, next := s._head }], _head := new_node }

/-- The method `pop`: `old_head ? old_head->data : std::make_shared<T>()`. -/
def pop (dflt : T) (s : LockFreeStack3 T) : Except Fault (LockFreeStack3 T × Option T) :=
  let old_head := s._head
  if old_head = 0 then .ok (s, some dflt)
  else
    match deref s.nodes old_head with
    | .error e => .error e
    | .ok nd => .ok ({ s with _head := nd.next }, nd.data)

end LockFreeStack3

/-! ## `Queue.h`: the mutex-protected `Queue` -/

namespace Queue

/-- The struct `Queue::Node`; `next` is a `std::unique_ptr<Node>`. -/
structure Node (T : Type) where
  data : Option T
  next : Nat
deriving DecidableEq, Repr

end Queue

/-- The class `Queue<T>`: the heap of its nodes, the nodes deleted so far,
the owning pointer `_head` and the raw pointer `_tail`. -/
structure Queue (T : Type) where
  nodes : List (Queue.Node T)
  deleted : List Nat
  _head : Nat
  _tail : Nat
deriving DecidableEq, Repr

namespace Queue

variable {T : Type}

/-- The constructor `Queue(): _head(new Node), _tail(_head.get())`. -/
def ctor : Queue T :=
  { nodes := [{ data := none, next := 0 }], deleted := [], _head := 1, _tail := 1 }

/-- Read the node at `p`; a null pointer or a deleted node cannot be read. -/
def node_at (s : Queue T) (p : Nat) : Except Fault (Node T) :=
  if p ∈ s.deleted then .error .badAccess else deref s.nodes p

/-- The method `push`.  The local `new_tail` is a `std::unique_ptr<Node>`;
after `_tail->next = std::move(new_tail)` it is null, and
`_tail = new_tail.get()` reads it after that. -/
def push (s : Queue T) (v : T) : Except Fault (Queue T) :=
  let data := some v
  let new_tail := s.nodes.length + 1
  let s := { s with nodes := s.nodes ++ [{ data := none, next := 0 }] }
  match node_at s s._tail with
  | .error e => .error e
  | .ok nd =>
    -- `_tail->data = data;`
    let nd := { nd with data := data }
    -- `_tail->next = std::move(new_tail);`
    let nd := { nd with next := new_tail }
    let new_tail := 0
    let s := { s with nodes := writeAt s.nodes s._tail nd }
    -- `_tail = new_tail.get();`
    .ok { s with _tail := new_tail }

/-- The statements `auto old_head = std::move(_head); _head =
std::move(old_head->next);` shared by the two `pop` overloads: the queue
afterwards and the node `old_head` owns. -/
def unlink_head (s : Queue T) : Except Fault (Queue T × Nat × Node T) :=
  let old_head := s._head
  let s := { s with _head := 0 }
  match node_at s old_head with
  | .error e => .error e
  | .ok nd =>
    let s := { s with _head := nd.next,
                      nodes := writeAt s.nodes old_head { nd with next := 0 } }
    .ok (s, old_head, nd)

/-- The overload `std::shared_ptr<T> pop()`; at the end of the call
`old_head` goes out of scope and its node is deleted. -/
def pop (dflt : T) (s : Queue T) : Except Fault (Queue T × Option T) :=
  if s._head = s._tail then .ok (s, some dflt)
  else
    match unlink_head s with
    | .error e => .error e
    | .ok (s, old_head, nd) =>
      .ok ({ s with deleted := s.deleted ++ [old_head] }, nd.data)

/-- The overload `bool pop(T& t)`: the returned flag, the queue and the
content of `t` afterwards. -/
def pop_into (s : Queue T) (t : T) : Except Fault (Bool × Queue T × T) :=
  if s._head = s._tail then .ok (false, s, t)
  else
    match unlink_head s with
    | .error e => .error e
    | .ok (s, old_head, nd) =>
      match nd.data with
      | none => .error .badAccess
      | some v => .ok (true, { s with deleted := s.deleted ++ [old_head] }, v)

end Queue

/-! ## Definitions used to state the invariants -/

/-- Reduction modulo `cap` of a number below `2 * cap`. -/
def wrap (cap x : Nat) : Nat := if x < cap then x else x - cap

namespace sq
namespace Block

variable {T : Type}

/-- Block `b` holds exactly the values `xs`, oldest first: its capacity is
`2 ^ e`, the live slots are the `xs.length` slots from `front` on, the
cached tail lies `a` slots after `front` and the cached front `c` slots
before it.  With `over = true` a block of capacity one may hold one
value (its cursors cannot tell it from an empty block). -/
def RepW (over : Bool) (b : Block T) (xs : List T) (e c a : Nat) : Prop :=
  e ≤ 63 ∧ b.data.length = 2 ^ e ∧ b.size_mask = 2 ^ e - 1 ∧ b.front < 2 ^ e ∧
  b.tail = wrap (2 ^ e) (b.front + xs.length) ∧
  a ≤ xs.length ∧ b.local_tail = wrap (2 ^ e) (b.front + a) ∧
  (c + xs.length < 2 ^ e ∨ (over = true ∧ e = 0 ∧ c = 0 ∧ xs.length = 1)) ∧
  b.local_front = wrap (2 ^ e) (b.front + 2 ^ e - c) ∧
  ∀ j, j < 2 ^ e → b.data[wrap (2 ^ e) (b.front + j)]? = some xs[j]?

/-- Block `b` holds exactly the values `xs`. -/
def Rep (over : Bool) (b : Block T) (xs : List T) : Prop :=
  ∃ e c a, RepW over b xs e c a

end Block
end sq

namespace sq
namespace ReaderWriterQueue

variable {T : Type}

/-- Following `next` from address `a` visits, in order, the blocks whose
addresses and contents `l` lists, and arrives at `z`. -/
def Chain (over : Bool) (h : List (Block T)) : Nat → List (Nat × List T) → Nat → Prop
  | a, [], z => a = z
  | a, (p, c) :: l, z =>
    a = p ∧ ∃ b, deref h p = .ok b ∧ b.Rep over c ∧ Chain over h b.next l z

/-- The representation invariant of the queue.  The ring of blocks, read
from `frontBlock` along `next`, is `init`, then the tail block (holding
`ct`), then `post`; a block before the tail block other than the front
block is not empty; the blocks of `post` are empty; the values held by
the queue, oldest first, are `xs`; `largestBlockSize` is a power of two
not above `2 * MAX_BLOCK_SIZE`. -/
def Inv (MAX_BLOCK_SIZE : Nat) (NDEBUG : Bool) (q : ReaderWriterQueue T) (xs : List T) : Prop :=
  ∃ (init : List (Nat × List T)) (ct : List T) (post : List (Nat × List T)),
    Chain NDEBUG q.blocks q.frontBlock (init ++ (q.tailBlock, ct) :: post) q.frontBlock ∧
    ((init ++ (q.tailBlock, ct) :: post).map Prod.fst).Nodup ∧
    (∃ b c, (init ++ (q.tailBlock, ct) :: post).head? = some (q.frontBlock, c) ∧
      deref q.blocks q.frontBlock = .ok b ∧ b.Rep false c) ∧
    (∀ e ∈ init, e.1 ≠ q.frontBlock → e.2 ≠ []) ∧
    (q.tailBlock ≠ q.frontBlock → ct ≠ []) ∧
    (∀ e ∈ post, e.2 = []) ∧
    xs = init.flatMap Prod.snd ++ ct ∧
    (∃ k, q.largestBlockSize = 2 ^ k ∧ q.largestBlockSize ≤ 2 * MAX_BLOCK_SIZE)

/-- The ring of `j` empty blocks at addresses `1 .. j`. -/
def emptyRing (T : Type) (j : Nat) : List (Nat × List T) :=
  (List.range' 1 j).map (fun i => (i, []))

/-- State of the constructor loop after `j ≥ 1` iterations. -/
def CtorInv (over : Bool) (j : Nat) (st : CtorLoop T) : Prop :=
  st.blocks.length = j ∧ st.firstBlock = 1 ∧ st.lastBlock = j ∧
    Chain over st.blocks 1 (emptyRing T j) 1

/-- Invariant of a run: the values accepted so far are the values delivered
so far followed by the values `xs` the queue still holds. -/
def RunInv (m : Nat) (NDEBUG : Bool) (r : Run T) : Prop :=
  ∃ xs, r.enqueued = r.dequeued ++ xs ∧ Inv (2 ^ m) NDEBUG r.queue xs

/-- Every block of the heap has at most `B` slots and `largestBlockSize`
is at most `B`. -/
def CapBound (B : Nat) (q : ReaderWriterQueue T) : Prop :=
  (∀ b ∈ q.blocks, b.data.length ≤ B) ∧ q.largestBlockSize ≤ B

/-- The queue the constructor builds for a size hint of `2 ^ 63` or more:
`ceilToPow2 (size + 1)` wraps to zero, the one block has no slot and the
mask `0 - 1`. -/
def noSlotQueue (T : Type) : ReaderWriterQueue T :=
  { blocks := [{ (Block.make_block 0 : Block T) with next := 1 }],
    frontBlock := 1, tailBlock := 1, largestBlockSize := 0 }

/-- The queue reached by constructing with size hint 1 and enqueuing 7: one
block of capacity 2 that holds one value, so that the block is full. -/
def fullBlockQueue : ReaderWriterQueue Nat :=
  { blocks := [{ front := 0, local_tail := 0, tail := 1, local_front := 0, next := 1,
                 data := [some 7, none], size_mask := 1 }],
    frontBlock := 1, tailBlock := 1, largestBlockSize := 2 }

/-- The block that the growth branch of `inner_enqueue` builds: capacity
`size`, the element in slot 0, `front = 0`, `tail = 1`, linked to `next`. -/
def grownBlock (size : Nat) (element : T) (next : Nat) : Block T :=
  { front := 0, local_tail := 1, tail := 1, local_front := 0, next := next,
    data := (List.replicate size none).set 0 (some element),
    size_mask := (size + WORD - 1) % WORD }

end ReaderWriterQueue
end sq

namespace sq

variable {T : Type}

/-- The capacity of a block and its mask, the two things fixed when the
block is made. -/
def Block.shape {T : Type} (b : Block T) : Nat × Nat := (b.data.length, b.size_mask)

end sq

namespace sq
namespace ReaderWriterQueue

variable {T : Type}

/-- Address `x` is reached from address `a` by following `next` through the
heap `h`. -/
inductive Reach (h : List (Block T)) (a : Nat) : Nat → Prop
  | refl : Reach h a a
  | step {p : Nat} {b : Block T} : Reach h a p → deref h p = .ok b → Reach h a b.next

/-- The block at address `p` lies on the ring of the queue: it is reached
from `frontBlock` by following `next`. -/
def OnRing (q : ReaderWriterQueue T) (p : Nat) : Prop :=
  Reach q.blocks q.frontBlock p ∧ ∃ b, deref q.blocks p = .ok b

/-- The queue `q1` has every block of `q`, with the capacity it had, and
possibly more blocks after them; every block on the ring of `q` is on the
ring of `q1`; `largestBlockSize` has not decreased. -/
def Extends (q q1 : ReaderWriterQueue T) : Prop :=
  (∃ l, q1.blocks.map Block.shape = q.blocks.map Block.shape ++ l) ∧
  (∀ p, OnRing q p → OnRing q1 p) ∧
  q.largestBlockSize ≤ q1.largestBlockSize

/-- Every block of the heap has at least two slots. -/
def CapLow (q : ReaderWriterQueue T) : Prop :=
  ∀ b ∈ q.blocks, 2 ≤ b.data.length

end ReaderWriterQueue
end sq

namespace LockFreeQueue2

variable {T : Type}

/-- A queue whose head refers to its one node, with the node counter `c` and
the external count `e` in `_head`. -/
def oneNode (c : NodeCounter) (e : Int) : LockFreeQueue2 Nat :=
  { nodes := [{ data := some 7, count := c, next := { external_count := 0, ptr := 0 } }],
    deleted := [],
    _head := { external_count := e, ptr := 1 },
    _tail := { external_count := 0, ptr := 0 } }

end LockFreeQueue2

namespace sq
namespace ReaderWriterQueue

variable {T : Type}

end ReaderWriterQueue
end sq

/-! ## Theorems -/

/-! ## Heap lemmas -/

theorem deref_ok_iff {α : Type} (h : List α) (p : Nat) (b : α) :
    deref h p = .ok b ↔ p ≠ 0 ∧ h[p - 1]? = some b := by
  unfold deref
  by_cases hp : p = 0
  · simp [hp]
  · simp only [hp, if_false]
    cases hg : h[p - 1]? <;> simp [hp]

theorem deref_le_length {α : Type} {h : List α} {p : Nat} {b : α}
    (hd : deref h p = .ok b) : 0 < p ∧ p ≤ h.length := by
  rw [deref_ok_iff] at hd
  obtain ⟨hp, hg⟩ := hd
  have := (List.getElem?_eq_some.mp hg).1
  omega

theorem deref_writeAt_same {α : Type} {h : List α} {p : Nat} {b0 : α} (b : α)
    (hd : deref h p = .ok b0) : deref (writeAt h p b) p = .ok b := by
  have hl := deref_le_length hd
  rw [deref_ok_iff]
  refine ⟨by omega, ?_⟩
  unfold writeAt
  rw [List.getElem?_set_self (by omega)]

theorem deref_writeAt_ne {α : Type} (h : List α) {p q : Nat} (b : α)
    (hp : p ≠ 0) (hq : q ≠ 0) (hpq : q ≠ p) : deref (writeAt h p b) q = deref h q := by
  unfold deref writeAt
  simp only [hq, if_false]
  rw [List.getElem?_set_ne (by omega)]

theorem deref_append {α : Type} {h : List α} {p : Nat} {b : α} (l : List α)
    (hd : deref h p = .ok b) : deref (h ++ l) p = .ok b := by
  have hl := deref_le_length hd
  rw [deref_ok_iff] at hd ⊢
  refine ⟨hd.1, ?_⟩
  rw [List.getElem?_append_left (by omega)]
  exact hd.2

theorem deref_append_new {α : Type} (h : List α) (b : α) :
    deref (h ++ [b]) (h.length + 1) = .ok b := by
  rw [deref_ok_iff]
  refine ⟨by omega, ?_⟩
  simp

theorem writeAt_length {α : Type} (h : List α) (p : Nat) (b : α) :
    (writeAt h p b).length = h.length := by
  simp [writeAt]

theorem writeAt_self {α : Type} {h : List α} {p : Nat} {b : α}
    (hd : deref h p = .ok b) : writeAt h p b = h := by
  rw [deref_ok_iff] at hd
  unfold writeAt
  apply List.ext_getElem?
  intro i
  rw [List.getElem?_set]
  by_cases hi : p - 1 = i
  · subst hi
    have := (List.getElem?_eq_some.mp hd.2).1
    simp [this, hd.2]
  · simp [hi]

/-! ## Wrapping arithmetic -/

theorem mod_eq_wrap {cap x : Nat} (h : x < 2 * cap) : x % cap = wrap cap x := by
  unfold wrap
  split_ifs with hx
  · exact Nat.mod_eq_of_lt hx
  · rw [Nat.mod_eq_sub_mod (by omega), Nat.mod_eq_of_lt (by omega)]

namespace sq
namespace Block
variable {T : Type}

theorem forward_eq_wrap (b : Block T) (e i : Nat) (he : e ≤ 63)
    (hm : b.size_mask = 2 ^ e - 1) (hi : i < 2 ^ e) :
    b.forward i = wrap (2 ^ e) (i + 1) := by
  unfold forward
  rw [hm, Nat.and_pow_two_sub_one_eq_mod]
  have hdvd : 2 ^ e ∣ WORD := by
    unfold WORD
    exact pow_dvd_pow 2 (by omega)
  rw [Nat.mod_mod_of_dvd _ hdvd]
  exact mod_eq_wrap (by omega)

end Block
end sq

namespace sq
namespace Block
variable {T : Type}

theorem Rep.weaken {b : Block T} {xs : List T} (over : Bool) (h : Rep false b xs) :
    Rep over b xs := by
  obtain ⟨e, c, a, h1, h2, h3, h4, h5, h6, h7, h8, h9⟩ := h
  refine ⟨e, c, a, h1, h2, h3, h4, h5, h6, h7, ?_, h9⟩
  rcases h8 with h8 | h8
  · exact Or.inl h8
  · simp at h8

theorem Rep.of_nil {over : Bool} {b : Block T} (h : Rep over b []) : Rep false b [] := by
  obtain ⟨e, c, a, h1, h2, h3, h4, h5, h6, h7, h8, h9⟩ := h
  refine ⟨e, c, a, h1, h2, h3, h4, h5, h6, h7, ?_, h9⟩
  rcases h8 with h8 | h8
  · exact Or.inl h8
  · simp at h8

theorem Rep.next_irrelevant {over : Bool} {b : Block T} {xs : List T} (n : Nat)
    (h : Rep over b xs) : Rep over { b with next := n } xs := h

theorem Rep.refresh_tail {over : Bool} {b : Block T} {xs : List T}
    (h : Rep over b xs) : Rep over b.get_local_tail_from_tail xs := by
  obtain ⟨e, c, a, h1, h2, h3, h4, h5, h6, h7, h8, h9⟩ := h
  exact ⟨e, c, xs.length, h1, h2, h3, h4, h5, le_refl _, h5, h8, h9⟩

theorem Rep.refresh_front {over : Bool} {b : Block T} {xs : List T}
    (h : Rep over b xs) : Rep over b.get_local_front_from_front xs := by
  obtain ⟨e, c, a, h1, h2, h3, h4, h5, h6, h7, h8, h9, h10⟩ := h
  refine ⟨e, 0, a, h1, h2, h3, h4, h5, h6, h7, ?_, ?_, h10⟩
  · rcases h8 with h8 | h8
    · left; omega
    · right; simp [h8.1, h8.2.1, h8.2.2.2]
  · show b.front = wrap (2 ^ e) (b.front + 2 ^ e - 0)
    unfold wrap
    have := Nat.two_pow_pos e
    split_ifs <;> omega

theorem Rep.empty_iff {b : Block T} {xs : List T} (h : Rep false b xs) :
    b.front = b.tail ↔ xs = [] := by
  obtain ⟨e, c, a, h1, h2, h3, h4, h5, h6, h7, h8, h9⟩ := h
  rw [← List.length_eq_zero]
  have h8 : c + xs.length < 2 ^ e := by
    rcases h8 with h8 | h8
    · exact h8
    · simp at h8
  rw [h5]
  unfold wrap
  split_ifs <;> omega

/-- Moving out the front element of a block whose cached tail shows one. -/
theorem RepW.take {over : Bool} {b : Block T} {x : T} {xs : List T} {e c a : Nat}
    (h : RepW over b (x :: xs) e c a) (ha : 1 ≤ a) :
    ∃ b1, b.move_out_element_at_idx b.front = .ok (x, b1) ∧ b1.next = b.next ∧
      Rep false { b1 with front := b1.forward b.front } xs := by
  obtain ⟨h1, h2, h3, h4, h5, h6, h7, h8, h9, h10⟩ := h
  have hpos := Nat.two_pow_pos e
  have hslot0 := h10 0 hpos
  have hw0 : wrap (2 ^ e) (b.front + 0) = b.front := by
    unfold wrap; split_ifs <;> omega
  rw [hw0] at hslot0
  simp only [List.getElem?_cons_zero] at hslot0
  refine ⟨{ b with data := b.data.set b.front none }, ?_, rfl, ?_⟩
  · unfold move_out_element_at_idx
    rw [hslot0]
  · have hfw := forward_eq_wrap ({ b with data := b.data.set b.front none }) e b.front h1 h3 h4
    simp only [List.length_cons] at h5 h6 h8
    have hlen : xs.length + 1 ≤ 2 ^ e := by
      rcases h8 with h8 | h8
      · omega
      · rw [h8.2.1]; omega
    refine ⟨e, (if c + (xs.length + 1) < 2 ^ e then c + 1 else 0), a - 1, h1, ?_, h3, ?_, ?_, ?_, ?_, ?_, ?_, ?_⟩
    · simp [h2]
    · show forward _ b.front < 2 ^ e
      rw [hfw]; unfold wrap; split_ifs <;> omega
    · show b.tail = wrap (2 ^ e) (forward _ b.front + xs.length)
      rw [hfw, h5]; unfold wrap; split_ifs <;> omega
    · omega
    · show b.local_tail = wrap (2 ^ e) (forward _ b.front + (a - 1))
      rw [hfw, h7]; unfold wrap; split_ifs <;> omega
    · left
      rcases h8 with h8 | h8
      · rw [if_pos h8]; omega
      · obtain ⟨_, he, hc, hn⟩ := h8
        subst he
        simp at hn
        simp [hn, hc]
    · show b.local_front = wrap (2 ^ e) (forward _ b.front + 2 ^ e - _)
      rw [hfw, h9]
      rcases h8 with h8 | h8
      · rw [if_pos h8]; unfold wrap; split_ifs <;> omega
      · obtain ⟨_, he, hc, hn⟩ := h8
        subst he
        have : b.front = 0 := by omega
        simp [hc, this, wrap]
    · intro j hj
      show (b.data.set b.front none)[wrap (2 ^ e) (forward _ b.front + j)]? = some xs[j]?
      rw [hfw, List.getElem?_set]
      by_cases hjl : j + 1 < 2 ^ e
      · have hne : b.front ≠ wrap (2 ^ e) (wrap (2 ^ e) (b.front + 1) + j) := by
          unfold wrap; split_ifs <;> omega
        rw [if_neg hne]
        have := h10 (j + 1) hjl
        simp only [List.getElem?_cons_succ] at this
        rw [← this]
        congr 1
        unfold wrap; split_ifs <;> omega
      · have heq : b.front = wrap (2 ^ e) (wrap (2 ^ e) (b.front + 1) + j) := by
          unfold wrap; split_ifs <;> omega
        rw [if_pos heq, if_pos (by rw [h2]; exact h4)]
        rw [List.getElem?_eq_none (by omega)]

theorem Rep.take_cached {b : Block T} {xs : List T} (h : Rep false b xs)
    (hne : b.front ≠ b.local_tail) :
    ∃ x xs1 b1, xs = x :: xs1 ∧ b.move_out_element_at_idx b.front = .ok (x, b1) ∧
      b1.next = b.next ∧ Rep false { b1 with front := b1.forward b.front } xs1 := by
  obtain ⟨e, c, a, h⟩ := h
  have ha : 1 ≤ a := by
    obtain ⟨h1, h2, h3, h4, h5, h6, h7, h8, h9, h10⟩ := h
    by_contra hcon
    have ha0 : a = 0 := by omega
    subst ha0
    apply hne
    rw [h7]; unfold wrap; split_ifs <;> omega
  cases xs with
  | nil =>
    obtain ⟨h1, h2, h3, h4, h5, h6, h7, h8, h9, h10⟩ := h
    simp at h6; omega
  | cons x xs1 =>
    obtain ⟨b1, hb1, hn, hr⟩ := h.take ha
    exact ⟨x, xs1, b1, rfl, hb1, hn, hr⟩

theorem Rep.take_fresh {over : Bool} {b : Block T} {x : T} {xs : List T}
    (h : Rep over b (x :: xs)) (hlt : b.local_tail = b.tail) :
    ∃ b1, b.move_out_element_at_idx b.front = .ok (x, b1) ∧ b1.next = b.next ∧
      Rep false { b1 with front := b1.forward b.front } xs := by
  obtain ⟨e, c, a, h1, h2, h3, h4, h5, h6, h7, h8, h9, h10⟩ := h
  have h' : RepW over b (x :: xs) e c (x :: xs).length :=
    ⟨h1, h2, h3, h4, h5, le_refl _, hlt ▸ h5, h8, h9, h10⟩
  exact h'.take (by simp)

/-- Constructing a value at the tail of a block whose cached front shows room. -/
theorem Rep.put {b : Block T} {xs : List T} (v : T) (h : Rep false b xs)
    (hne : b.forward b.tail ≠ b.local_front) :
    ∃ b1, b.construct_element_at_idx b.tail v = .ok b1 ∧ b1.next = b.next ∧
      b1.forward b.tail = b.forward b.tail ∧
      Rep false { b1 with tail := b.forward b.tail } (xs ++ [v]) := by
  obtain ⟨e, c, a, h1, h2, h3, h4, h5, h6, h7, h8, h9, h10⟩ := h
  have hpos := Nat.two_pow_pos e
  have h8 : c + xs.length < 2 ^ e := by
    rcases h8 with h8 | h8
    · exact h8
    · simp at h8
  have htl : b.tail < 2 ^ e := by
    rw [h5]; unfold wrap; split_ifs <;> omega
  have hfw := forward_eq_wrap b e b.tail h1 h3 htl
  have hroom : c + xs.length + 1 < 2 ^ e := by
    rw [hfw, h9, h5] at hne
    by_contra hcon
    apply hne
    unfold wrap; split_ifs <;> omega
  refine ⟨{ b with data := b.data.set b.tail (some v) }, ?_, rfl, rfl, ?_⟩
  · unfold construct_element_at_idx
    rw [if_pos (by rw [h2]; exact htl)]
  · refine ⟨e, c, a, h1, ?_, h3, h4, ?_, ?_, h7, ?_, h9, ?_⟩
    · simp [h2]
    · show b.forward b.tail = wrap (2 ^ e) (b.front + (xs ++ [v]).length)
      rw [hfw, h5, List.length_append, List.length_singleton]
      unfold wrap; split_ifs <;> omega
    · rw [List.length_append]; omega
    · left; rw [List.length_append, List.length_singleton]; omega
    · intro j hj
      show (b.data.set b.tail (some v))[wrap (2 ^ e) (b.front + j)]? = some (xs ++ [v])[j]?
      rw [List.getElem?_set]
      by_cases hjn : j = xs.length
      · have heq : b.tail = wrap (2 ^ e) (b.front + j) := by rw [h5, hjn]
        rw [if_pos heq, if_pos (by rw [h2]; exact htl), hjn]
        simp
      · have hneq : b.tail ≠ wrap (2 ^ e) (b.front + j) := by
          rw [h5]; unfold wrap; split_ifs <;> omega
        rw [if_neg hneq, h10 j hj]
        congr 1
        by_cases hlt : j < xs.length
        · rw [List.getElem?_append_left hlt]
        · rw [List.getElem?_eq_none (by omega), List.getElem?_eq_none (by simp; omega)]

/-- Constructing a value in an empty block just entered by the producer. -/
theorem Rep.enter {b : Block T} (v : T) (h : Rep false b []) :
    ∃ b1, b.get_local_front_from_front.construct_element_at_idx b.tail v = .ok b1 ∧
      b1.next = b.next ∧
      Rep true { b1 with tail := b1.forward b.tail } [v] := by
  have hr := h.refresh_front
  by_cases hne : b.get_local_front_from_front.forward b.tail ≠ b.get_local_front_from_front.local_front
  · obtain ⟨b1, hb1, hn, hf, hrep⟩ := Rep.put v hr hne
    refine ⟨b1, hb1, hn, ?_⟩
    have : b1.forward b.tail = b.get_local_front_from_front.forward b.tail := hf
    rw [this]
    exact hrep.weaken true
  · simp only [ne_eq, not_not] at hne
    have hft := h.empty_iff.mpr rfl
    obtain ⟨e, c, a, h1, h2, h3, h4, h5, h6, h7, h8, h9, h10⟩ := h
    have hpos := Nat.two_pow_pos e
    have hfw := forward_eq_wrap b.get_local_front_from_front e b.tail h1 h3 (hft ▸ h4)
    have hcap : 2 ^ e = 1 := by
      rw [hfw] at hne
      change wrap (2 ^ e) (b.tail + 1) = b.front at hne
      rw [← hft] at hne
      unfold wrap at hne
      split_ifs at hne <;> omega
    have he : e = 0 := by
      rcases Nat.eq_zero_or_pos e with h0 | h0
      · exact h0
      · have := Nat.one_lt_two_pow (n := e) (by omega)
        omega
    subst he
    have hf0 : b.front = 0 := by omega
    have ht0 : b.tail = 0 := by omega
    let b1 : Block T := { b with local_front := b.front, data := b.data.set b.tail (some v) }
    refine ⟨b1, ?_, rfl, ?_⟩
    · unfold construct_element_at_idx
      rw [if_pos (by show b.tail < b.data.length; rw [h2, ht0]; omega)]
      rfl
    · have hfw2 : b1.forward b.tail = 0 := by
        rw [forward_eq_wrap b1 0 b.tail (by omega) h3 (by omega)]
        simp [wrap, ht0]
      refine ⟨0, 0, 0, by omega, ?_, h3, h4, ?_, by simp, ?_, ?_, ?_, ?_⟩
      · show (b.data.set b.tail (some v)).length = 2 ^ 0
        simp [h2]
      · show b1.forward b.tail = wrap (2 ^ 0) (b.front + [v].length)
        rw [hfw2]; simp [hf0, wrap]
      · show b.local_tail = wrap (2 ^ 0) (b.front + 0)
        have : a = 0 := by simpa using h6
        rw [h7, this]
      · right; simp
      · show b.front = wrap (2 ^ 0) (b.front + 2 ^ 0 - 0)
        simp [hf0, wrap]
      · intro j hj
        have hj0 : j = 0 := by omega
        subst hj0
        show (b.data.set b.tail (some v))[wrap (2 ^ 0) (b.front + 0)]? = some [v][0]?
        simp [hf0, ht0, wrap, h2]

/-- The block `make_block` builds is an empty block. -/
theorem Rep.make_block (e : Nat) (he : e ≤ 63) :
    Rep false (Block.make_block (2 ^ e) : Block T) [] := by
  have hpos := Nat.two_pow_pos e
  have hlt : 2 ^ e < WORD := by
    unfold WORD
    exact Nat.pow_lt_pow_right (by omega) (by omega)
  refine ⟨e, 0, 0, he, by simp [Block.make_block], ?_, hpos, ?_, le_refl _, ?_, Or.inl (by simp), ?_, ?_⟩
  · show (2 ^ e + WORD - 1) % WORD = 2 ^ e - 1
    rw [show 2 ^ e + WORD - 1 = (2 ^ e - 1) + WORD by omega, Nat.add_mod_right,
      Nat.mod_eq_of_lt (by omega)]
  · simp [Block.make_block, wrap, hpos]
  · simp [Block.make_block, wrap, hpos]
  · simp [Block.make_block, wrap]
  · intro j hj
    simp only [Block.make_block, Nat.zero_add, List.getElem?_nil]
    rw [List.getElem?_replicate, if_pos (by unfold wrap; split_ifs; omega)]

/-- The block the growth path of `inner_enqueue` builds holds the one value. -/
theorem Rep.new_block (e : Nat) (he1 : 1 ≤ e) (he : e ≤ 63) (v : T) (n : Nat) :
    ∃ b1, (Block.make_block (2 ^ e) : Block T).construct_element_at_idx 0 v = .ok b1 ∧
      b1.front = 0 ∧
      Rep false { ({ b1 with tail := 1 } : Block T).get_local_tail_from_tail with next := n } [v] := by
  have h := Rep.make_block (T := T) e he
  have h1lt : 1 < 2 ^ e := Nat.one_lt_two_pow (by omega)
  have hne : (Block.make_block (2 ^ e) : Block T).forward (Block.make_block (2 ^ e) : Block T).tail
      ≠ (Block.make_block (2 ^ e) : Block T).local_front := by
    obtain ⟨e2, c, a, h1, h2, h3, h4, h5, h6, h7, h8, h9, h10⟩ := h
    have he2 : e2 = e := by
      simp only [Block.make_block, List.length_replicate] at h2
      exact (Nat.pow_right_injective (le_refl 2) h2).symm
    subst he2
    rw [forward_eq_wrap _ e2 _ h1 h3 (by simp [Block.make_block])]
    simp only [Block.make_block, wrap]
    split_ifs <;> omega
  obtain ⟨b1, hb1, _, _, hrep⟩ := Rep.put v h hne
  refine ⟨b1, hb1, ?_, ?_⟩
  · unfold construct_element_at_idx at hb1
    split_ifs at hb1
    cases hb1
    rfl
  · have hfw : (Block.make_block (2 ^ e) : Block T).forward (Block.make_block (2 ^ e) : Block T).tail = 1 := by
      obtain ⟨e2, c, a, h1, h2, h3, h4, h5, h6, h7, h8, h9, h10⟩ := h
      have he2 : e2 = e := by
        simp only [Block.make_block, List.length_replicate] at h2
        exact (Nat.pow_right_injective (le_refl 2) h2).symm
      subst he2
      rw [forward_eq_wrap _ e2 _ h1 h3 (by simp [Block.make_block])]
      simp only [Block.make_block, wrap]
      split_ifs <;> omega
    rw [hfw] at hrep
    exact (hrep.refresh_tail).next_irrelevant n

end Block
end sq

namespace sq
namespace ReaderWriterQueue
variable {T : Type}

theorem Chain.append {over : Bool} {h : List (Block T)} {l1 l2 : List (Nat × List T)}
    {a z : Nat} : Chain over h a (l1 ++ l2) z ↔ ∃ m, Chain over h a l1 m ∧ Chain over h m l2 z := by
  induction l1 generalizing a with
  | nil => simp [Chain]
  | cons e l1 ih =>
    obtain ⟨p, c⟩ := e
    show Chain over h a ((p, c) :: (l1 ++ l2)) z ↔ _
    constructor
    · rintro ⟨hap, b, hd, hr, hrest⟩
      obtain ⟨m, h1, h2⟩ := ih.mp hrest
      exact ⟨m, ⟨hap, b, hd, hr, h1⟩, h2⟩
    · rintro ⟨m, ⟨hap, b, hd, hr, h1⟩, h2⟩
      exact ⟨hap, b, hd, hr, ih.mpr ⟨m, h1, h2⟩⟩

theorem Chain.mid {over : Bool} {h : List (Block T)} {l1 l2 : List (Nat × List T)}
    {a z p : Nat} {c : List T} :
    Chain over h a (l1 ++ (p, c) :: l2) z ↔
      Chain over h a l1 p ∧ ∃ b, deref h p = .ok b ∧ b.Rep over c ∧ Chain over h b.next l2 z := by
  rw [Chain.append]
  constructor
  · rintro ⟨m, h1, hmp, b, hd, hr, h2⟩
    subst hmp
    exact ⟨h1, b, hd, hr, h2⟩
  · rintro ⟨h1, b, hd, hr, h2⟩
    exact ⟨p, h1, rfl, b, hd, hr, h2⟩

theorem Chain.mem_deref {over : Bool} {h : List (Block T)} {l : List (Nat × List T)}
    {a z : Nat} (hc : Chain over h a l z) :
    ∀ p ∈ l.map Prod.fst, ∃ b, deref h p = .ok b := by
  induction l generalizing a with
  | nil => simp
  | cons e l ih =>
    obtain ⟨p, c⟩ := e
    obtain ⟨_, b, hd, _, hrest⟩ := hc
    intro p1 hp1
    simp only [List.map_cons, List.mem_cons] at hp1
    rcases hp1 with hp1 | hp1
    · subst hp1; exact ⟨b, hd⟩
    · exact ih hrest p1 hp1

theorem Chain.frame_writeAt {over : Bool} {h : List (Block T)} {l : List (Nat × List T)}
    {a z : Nat} (p : Nat) (b : Block T) (hp : p ≠ 0) (hc : Chain over h a l z)
    (hnot : p ∉ l.map Prod.fst) : Chain over (writeAt h p b) a l z := by
  induction l generalizing a with
  | nil => exact hc
  | cons e l ih =>
    obtain ⟨p1, c⟩ := e
    obtain ⟨hap, b1, hd, hr, hrest⟩ := hc
    simp only [List.map_cons, List.mem_cons, not_or] at hnot
    refine ⟨hap, b1, ?_, hr, ih hrest hnot.2⟩
    rw [deref_writeAt_ne h b hp (by have := deref_le_length hd; omega) (fun hh => hnot.1 hh.symm)]
    exact hd

theorem Chain.frame_append {over : Bool} {h : List (Block T)} {l : List (Nat × List T)}
    {a z : Nat} (h2 : List (Block T)) (hc : Chain over h a l z) :
    Chain over (h ++ h2) a l z := by
  induction l generalizing a with
  | nil => exact hc
  | cons e l ih =>
    obtain ⟨p1, c⟩ := e
    obtain ⟨hap, b1, hd, hr, hrest⟩ := hc
    exact ⟨hap, b1, deref_append h2 hd, hr, ih hrest⟩

theorem Chain.head_eq {over : Bool} {h : List (Block T)} {l : List (Nat × List T)}
    {a z p : Nat} {c : List T} (hc : Chain over h a ((p, c) :: l) z) : a = p := hc.1

theorem refresh_tail_eq_self (b : Block T) (h : b.local_tail = b.tail) :
    b.get_local_tail_from_tail = b := by
  cases b
  simp only [Block.get_local_tail_from_tail] at *
  simp [h]

theorem refresh_front_eq_self (b : Block T) (h : b.local_front = b.front) :
    b.get_local_front_from_front = b := by
  cases b
  simp only [Block.get_local_front_from_front] at *
  simp [h]

end ReaderWriterQueue
end sq

namespace sq
namespace ReaderWriterQueue
variable {T : Type}

/-- What the invariant tells the consumer about the front block: the block
and its content, how the invariant is re-established after an element
is taken from it, and, when it is empty, either the queue is empty or the
next block holds an element. -/
theorem Inv.consumer_view {MAX_BLOCK_SIZE : Nat} {NDEBUG : Bool} {q : ReaderWriterQueue T}
    {xs : List T} (hinv : Inv MAX_BLOCK_SIZE NDEBUG q xs) :
    ∃ fb c0, deref q.blocks q.frontBlock = .ok fb ∧ fb.Rep false c0 ∧
      (∀ x c1 b2, c0 = x :: c1 → b2.next = fb.next → b2.Rep false c1 →
        ∃ xs1, xs = x :: xs1 ∧
          Inv MAX_BLOCK_SIZE NDEBUG { q with blocks := writeAt q.blocks q.frontBlock b2 } xs1) ∧
      (c0 = [] → q.frontBlock = q.tailBlock → xs = []) ∧
      (c0 = [] → q.frontBlock ≠ q.tailBlock →
        ∃ nb x c1, deref q.blocks fb.next = .ok nb ∧ nb.Rep NDEBUG (x :: c1) ∧
          ∀ b2, b2.next = nb.next → b2.Rep false c1 →
            ∃ xs1, xs = x :: xs1 ∧
              Inv MAX_BLOCK_SIZE NDEBUG
                { q with blocks := writeAt q.blocks fb.next b2, frontBlock := fb.next } xs1) := by
  obtain ⟨init, ct, post, hchain, hnd, ⟨fb, c0, hhead, hdf, hrep0⟩, hinit, hct, hpost, hxs, hlarge⟩ := hinv
  have hf0 : q.frontBlock ≠ 0 := by have := deref_le_length hdf; omega
  refine ⟨fb, c0, hdf, hrep0, ?_, ?_, ?_⟩
  · -- an element is taken from the front block
    intro x c1 b2 hc0 hnext hrep2
    cases init with
    | nil =>
      simp only [List.nil_append, List.head?_cons, Option.some.injEq, Prod.mk.injEq] at hhead
      obtain ⟨htf, hcc⟩ := hhead
      simp only [List.nil_append] at hchain hnd
      obtain ⟨_, b, hd, hr, hrest⟩ := hchain
      rw [htf, hdf] at hd
      cases hd
      simp only [List.map_cons, List.nodup_cons] at hnd
      refine ⟨c1, by rw [hxs, hcc, hc0]; rfl, [], c1, post, ?_, ?_, ⟨b2, c1, ?_, ?_, hrep2⟩,
        by simp, ?_, hpost, by simp, hlarge⟩
      · simp only [List.nil_append]
        refine ⟨htf.symm, b2, ?_, hrep2.weaken _, ?_⟩
        · rw [htf]; exact deref_writeAt_same b2 hdf
        · rw [hnext]
          exact Chain.frame_writeAt _ _ hf0 hrest (by rw [← htf]; exact hnd.1)
      · simpa using hnd
      · simp [htf]
      · exact deref_writeAt_same b2 hdf
      · intro hh; exact absurd htf hh
    | cons e init1 =>
      obtain ⟨p, c⟩ := e
      simp only [List.cons_append, List.head?_cons, Option.some.injEq, Prod.mk.injEq] at hhead
      obtain ⟨hpf, hcc⟩ := hhead
      subst hpf hcc
      simp only [List.cons_append] at hchain hnd
      obtain ⟨_, b, hd, hr, hrest⟩ := hchain
      rw [hdf] at hd
      cases hd
      simp only [List.map_cons, List.nodup_cons] at hnd
      refine ⟨c1 ++ (init1.flatMap Prod.snd ++ ct), ?_, (q.frontBlock, c1) :: init1, ct, post, ?_, ?_,
        ⟨b2, c1, ?_, ?_, hrep2⟩, ?_, hct, hpost, ?_, hlarge⟩
      · rw [hxs, hc0]; simp
      · simp only [List.cons_append]
        refine ⟨rfl, b2, deref_writeAt_same b2 hdf, hrep2.weaken _, ?_⟩
        rw [hnext]
        exact Chain.frame_writeAt _ _ hf0 hrest hnd.1
      · simpa using hnd
      · simp
      · exact deref_writeAt_same b2 hdf
      · intro e he hne
        simp only [List.mem_cons] at he
        rcases he with he | he
        · subst he; exact absurd rfl hne
        · exact hinit e (List.mem_cons_of_mem _ he) hne
      · simp
  · -- the front block is empty and is the tail block
    intro hc0 hft
    cases init with
    | nil =>
      simp only [List.nil_append, List.head?_cons, Option.some.injEq, Prod.mk.injEq] at hhead
      rw [hxs, hhead.2, hc0]; rfl
    | cons e init1 =>
      obtain ⟨p, c⟩ := e
      simp only [List.cons_append, List.head?_cons, Option.some.injEq, Prod.mk.injEq] at hhead
      obtain ⟨hpf, hcc⟩ := hhead
      subst hpf
      simp only [List.cons_append, List.map_cons, List.nodup_cons, List.map_append,
        List.mem_append, List.mem_cons, not_or] at hnd
      exact absurd hft hnd.1.2.1
  · -- the front block is empty and the producer is ahead
    intro hc0 hft
    cases init with
    | nil =>
      simp only [List.nil_append, List.head?_cons, Option.some.injEq, Prod.mk.injEq] at hhead
      exact absurd hhead.1.symm hft
    | cons e init1 =>
      obtain ⟨p, c⟩ := e
      simp only [List.cons_append, List.head?_cons, Option.some.injEq, Prod.mk.injEq] at hhead
      obtain ⟨hpf, hcc⟩ := hhead
      subst hpf hcc hc0
      simp only [List.cons_append] at hchain
      obtain ⟨_, b, hd, hr, hrest⟩ := hchain
      rw [hdf] at hd
      cases hd
      cases init1 with
      | nil =>
        simp only [List.nil_append] at hrest hnd
        obtain ⟨hnt, nb, hdn, hrn, hrest2⟩ := hrest
        have hctne := hct (fun hh => hft hh.symm)
        obtain ⟨x, c1, hctx⟩ := List.exists_cons_of_ne_nil hctne
        subst hctx
        refine ⟨nb, x, c1, hnt ▸ hdn, hrn, ?_⟩
        intro b2 hnext hrep2
        have hn0 : q.tailBlock ≠ 0 := by have := deref_le_length hdn; omega
        have hnd0 := hnd
        simp only [List.cons_append, List.nil_append, List.map_cons, List.nodup_cons,
          List.mem_cons, not_or] at hnd
        refine ⟨c1, by rw [hxs]; simp, [], c1, post ++ [(q.frontBlock, [])], ?_, ?_,
          ⟨b2, c1, ?_, ?_, hrep2⟩, by simp, ?_, ?_, by simp, hlarge⟩
        · simp only [List.nil_append]
          rw [hnt]
          refine ⟨rfl, b2, deref_writeAt_same b2 hdn, hrep2.weaken _, ?_⟩
          rw [hnext, Chain.append]
          refine ⟨q.frontBlock, Chain.frame_writeAt _ _ hn0 hrest2 hnd.2.1, rfl, fb, ?_, hr, hnt⟩
          rw [deref_writeAt_ne _ _ hn0 hf0 hnd.1.1]
          exact hdf
        · have hmap : (([] : List (Nat × List T)) ++ (q.tailBlock, c1) :: (post ++ [(q.frontBlock, [])])).map Prod.fst
              = (q.tailBlock :: post.map Prod.fst) ++ [q.frontBlock] := by simp
          rw [hmap]
          exact List.nodup_append_comm.mp (by simpa using hnd0)
        · simp [hnt]
        · rw [hnt]; exact deref_writeAt_same b2 hdn
        · intro hh; exact absurd hnt.symm hh
        · intro e he
          simp only [List.mem_append, List.mem_singleton] at he
          rcases he with he | he
          · exact hpost e he
          · subst he; rfl
      | cons e2 init2 =>
        obtain ⟨n, cn⟩ := e2
        simp only [List.cons_append] at hrest hnd
        obtain ⟨hnt, nb, hdn, hrn, hrest2⟩ := hrest
        have hnd0 := hnd
        simp only [List.map_cons, List.nodup_cons, List.mem_cons, not_or, List.map_append,
          List.mem_append] at hnd
        have hnf : n ≠ q.frontBlock := fun hh => hnd.1.1 hh.symm
        have hcnne := hinit (n, cn) (by simp) hnf
        obtain ⟨x, c1, hcnx⟩ := List.exists_cons_of_ne_nil hcnne
        subst hcnx
        refine ⟨nb, x, c1, hnt ▸ hdn, hrn, ?_⟩
        intro b2 hnext hrep2
        have hn0 : n ≠ 0 := by have := deref_le_length hdn; omega
        rw [hnt]
        refine ⟨c1 ++ (init2.flatMap Prod.snd ++ ct), by rw [hxs]; simp, (n, c1) :: init2, ct,
          post ++ [(q.frontBlock, [])], ?_, ?_, ⟨b2, c1, ?_, ?_, hrep2⟩, ?_, ?_, ?_, by simp, hlarge⟩
        · simp only [List.cons_append]
          refine ⟨rfl, b2, deref_writeAt_same b2 hdn, hrep2.weaken _, ?_⟩
          rw [hnext, ← List.cons_append, ← List.append_assoc, Chain.append]
          refine ⟨q.frontBlock, Chain.frame_writeAt _ _ hn0 hrest2 ?_, rfl, fb, ?_, hr, hnt⟩
          · simp only [List.map_append, List.map_cons, List.mem_append, List.mem_cons, not_or]
            exact ⟨hnd.2.1.1, hnd.2.1.2.1, hnd.2.1.2.2⟩
          · rw [deref_writeAt_ne _ _ hn0 hf0 (Ne.symm hnf)]
            exact hdf
        · have hmap : (((n, c1) :: init2) ++ (q.tailBlock, ct) :: (post ++ [(q.frontBlock, [])])).map Prod.fst
              = (n :: (init2.map Prod.fst ++ q.tailBlock :: post.map Prod.fst)) ++ [q.frontBlock] := by simp
          rw [hmap]
          exact List.nodup_append_comm.mp (by simpa using hnd0)
        · simp
        · exact deref_writeAt_same b2 hdn
        · intro e he hne
          simp only [List.mem_cons] at he
          rcases he with he | he
          · subst he; exact absurd rfl hne
          · have hemem : e.1 ∈ init2.map Prod.fst := List.mem_map_of_mem _ he
            have : e.1 ≠ q.frontBlock := fun hh => hnd.1.2.1 (hh ▸ hemem)
            exact hinit e (by simp [he]) this
        · intro _
          exact hct (fun hh => hnd.1.2.2.1 hh.symm)
        · intro e he
          simp only [List.mem_append, List.mem_singleton] at he
          rcases he with he | he
          · exact hpost e he
          · subst he; rfl

end ReaderWriterQueue
end sq

namespace sq
namespace ReaderWriterQueue
variable {T : Type}

/-- On a queue that satisfies the invariant `try_dequeue` returns: `false`
with queue and `result` unchanged when the queue holds nothing, `true`
with the oldest value in `result` otherwise. -/
theorem try_dequeue_spec {MAX_BLOCK_SIZE : Nat} {NDEBUG : Bool} {q : ReaderWriterQueue T}
    {xs : List T} (result : T) (hinv : Inv MAX_BLOCK_SIZE NDEBUG q xs) :
    (xs = [] ∧ try_dequeue NDEBUG q result = .ok (false, q, result)) ∨
    (∃ x xs1 q1, xs = x :: xs1 ∧ try_dequeue NDEBUG q result = .ok (true, q1, x) ∧
      Inv MAX_BLOCK_SIZE NDEBUG q1 xs1) := by
  obtain ⟨fb, c0, hdf, hrep0, htake, hemp, hadv⟩ := hinv.consumer_view
  by_cases h1 : fb.front ≠ fb.local_tail
  · right
    obtain ⟨x, c1, b1, hc0, hmv, hnx, hrep⟩ := hrep0.take_cached h1
    obtain ⟨xs1, hxs, hinv1⟩ := htake x c1 { b1 with front := b1.forward fb.front } hc0 hnx hrep
    refine ⟨x, xs1, _, hxs, ?_, hinv1⟩
    unfold try_dequeue
    simp only [hdf]
    rw [if_pos h1]
    unfold dequeue_from
    simp only [hmv]
  · by_cases h2 : fb.front ≠ fb.tail
    · right
      have hrep1 := hrep0.refresh_tail
      have hne : c0 ≠ [] := fun hh => h2 (hrep0.empty_iff.mpr hh)
      obtain ⟨x, c1, hc0⟩ := List.exists_cons_of_ne_nil hne
      subst hc0
      obtain ⟨b1, hmv, hnx, hrep⟩ := hrep1.take_fresh rfl
      obtain ⟨xs1, hxs, hinv1⟩ := htake x c1 { b1 with front := b1.forward fb.front } rfl hnx hrep
      refine ⟨x, xs1, _, hxs, ?_, hinv1⟩
      unfold try_dequeue
      simp only [hdf]
      rw [if_neg h1, if_pos (show fb.front ≠ fb.get_local_tail_from_tail.local_tail from h2)]
      unfold dequeue_from
      have hmv2 : fb.get_local_tail_from_tail.move_out_element_at_idx fb.front = .ok (x, b1) := hmv
      simp only [hmv2]
    · simp only [ne_eq, not_not] at h1 h2
      have hc0 : c0 = [] := hrep0.empty_iff.mp h2
      have hself : fb.get_local_tail_from_tail = fb :=
        refresh_tail_eq_self fb (by rw [← h1, h2])
      have hq : writeAt q.blocks q.frontBlock fb = q.blocks := writeAt_self hdf
      by_cases hft : q.frontBlock = q.tailBlock
      · left
        refine ⟨hemp hc0 hft, ?_⟩
        unfold try_dequeue
        simp only [hdf, hself, hq]
        rw [if_neg (by simp [h1]), if_neg (by simp [h1, h2]), if_neg (by simp [hft])]
      · right
        obtain ⟨nb, x, c1, hdn, hrn, hcont⟩ := hadv hc0 hft
        have hrn1 := hrn.refresh_tail
        obtain ⟨b1, hmv, hnx, hrep⟩ := hrn1.take_fresh rfl
        obtain ⟨xs1, hxs, hinv1⟩ := hcont { b1 with front := b1.forward nb.front } hnx hrep
        refine ⟨x, xs1, _, hxs, ?_, hinv1⟩
        have hassert : (!NDEBUG && (nb.front == nb.get_local_tail_from_tail.local_tail)) = false := by
          cases NDEBUG with
          | true => rfl
          | false =>
            have : nb.front ≠ nb.tail := fun hh => by
              have := (Block.Rep.empty_iff hrn).mp hh
              simp at this
            simpa [Block.get_local_tail_from_tail] using this
        unfold try_dequeue
        simp only [hdf, hself, hq]
        rw [if_neg (by simp [h1]), if_neg (by simp [h1, h2]), if_pos hft, if_neg (by simp [h1, h2])]
        simp only [hdn, hassert]
        unfold dequeue_from
        have hmv2 : nb.get_local_tail_from_tail.move_out_element_at_idx nb.front = .ok (x, b1) := hmv
        simp only [hmv2]
        rfl

end ReaderWriterQueue
end sq

namespace sq
namespace Block
variable {T : Type}

theorem Rep.normal_of_room {over : Bool} {b : Block T} {xs : List T} (h : Rep over b xs)
    (hne : b.forward b.tail ≠ b.local_front) : Rep false b xs := by
  obtain ⟨e, c, a, h1, h2, h3, h4, h5, h6, h7, h8, h9, h10⟩ := h
  refine ⟨e, c, a, h1, h2, h3, h4, h5, h6, h7, ?_, h9, h10⟩
  rcases h8 with h8 | h8
  · exact Or.inl h8
  · exfalso
    obtain ⟨_, he, hc, hn⟩ := h8
    subst he hc
    apply hne
    have hf0 : b.front = 0 := by omega
    have ht0 : b.tail = 0 := by rw [h5, hf0, hn]; simp [wrap]
    rw [forward_eq_wrap b 0 b.tail (by omega) h3 (by omega), h9, hf0, ht0]
    simp [wrap]

end Block

namespace ReaderWriterQueue
variable {T : Type}

/-- What the invariant tells the producer about the tail block: the block
and its content, and how the invariant is re-established after a value
is stored in place, in the next block of the ring, or in a new block. -/
theorem Inv.producer_view {MAX_BLOCK_SIZE : Nat} {NDEBUG : Bool} {q : ReaderWriterQueue T}
    {xs : List T} (hinv : Inv MAX_BLOCK_SIZE NDEBUG q xs) :
    ∃ tb ct, deref q.blocks q.tailBlock = .ok tb ∧ tb.Rep NDEBUG ct ∧
      (∀ v b2, b2.next = tb.next → b2.Rep false (ct ++ [v]) →
        Inv MAX_BLOCK_SIZE NDEBUG { q with blocks := writeAt q.blocks q.tailBlock b2 } (xs ++ [v])) ∧
      (tb.next ≠ q.frontBlock →
        ∃ nb, deref q.blocks tb.next = .ok nb ∧ nb.Rep false [] ∧
          ∀ v b2, b2.next = nb.next → b2.Rep NDEBUG [v] →
            Inv MAX_BLOCK_SIZE NDEBUG
              { q with blocks := writeAt q.blocks tb.next b2, tailBlock := tb.next } (xs ++ [v])) ∧
      (tb.next = q.frontBlock → ∀ v nbk k, nbk.next = tb.next → nbk.Rep false [v] →
        2 ^ k ≤ 2 * MAX_BLOCK_SIZE →
        Inv MAX_BLOCK_SIZE NDEBUG
          { blocks := writeAt q.blocks q.tailBlock { tb with next := q.blocks.length + 1 } ++ [nbk],
            frontBlock := q.frontBlock, tailBlock := q.blocks.length + 1,
            largestBlockSize := 2 ^ k } (xs ++ [v])) := by
  obtain ⟨init, ct, post, hchain, hnd, ⟨fb, c0, hhead, hdf, hrep0⟩, hinit, hct, hpost, hxs, hlarge⟩ := hinv
  obtain ⟨hc1, tb, hdt, hrt, hc2⟩ := Chain.mid.mp hchain
  have ht0 : q.tailBlock ≠ 0 := by have := deref_le_length hdt; omega
  have hf0 : q.frontBlock ≠ 0 := by have := deref_le_length hdf; omega
  have hnd0 := hnd
  simp only [List.map_append, List.map_cons, List.nodup_append, List.nodup_cons] at hnd
  obtain ⟨hndi, ⟨htpost, hndp⟩, hdisj⟩ := hnd
  have htinit : q.tailBlock ∉ init.map Prod.fst := fun hh => hdisj hh (by simp)
  refine ⟨tb, ct, hdt, hrt, ?_, ?_, ?_⟩
  · -- stored in place
    intro v b2 hnext hrep2
    refine ⟨init, ct ++ [v], post, ?_, ?_, ?_, hinit, by simp, hpost, ?_, hlarge⟩
    · refine Chain.mid.mpr ⟨Chain.frame_writeAt _ _ ht0 hc1 htinit, b2, deref_writeAt_same b2 hdt,
        hrep2.weaken _, ?_⟩
      rw [hnext]
      exact Chain.frame_writeAt _ _ ht0 hc2 htpost
    · simpa using hnd0
    · cases init with
      | nil =>
        simp only [List.nil_append, List.head?_cons, Option.some.injEq, Prod.mk.injEq] at hhead
        refine ⟨b2, ct ++ [v], by simp [hhead.1], ?_, hrep2⟩
        show deref (writeAt q.blocks q.tailBlock b2) q.frontBlock = .ok b2
        rw [← hhead.1]
        exact deref_writeAt_same b2 hdt
      | cons e init1 =>
        obtain ⟨p, c⟩ := e
        simp only [List.cons_append, List.head?_cons, Option.some.injEq, Prod.mk.injEq] at hhead
        refine ⟨fb, c0, by simp [hhead.1, hhead.2], ?_, hrep0⟩
        show deref (writeAt q.blocks q.tailBlock b2) q.frontBlock = .ok fb
        rw [deref_writeAt_ne _ _ ht0 hf0 ?_]
        · exact hdf
        · intro hh
          apply htinit
          rw [← hh, ← hhead.1]
          simp
    · rw [hxs, List.append_assoc]
  · -- stored in the next block of the ring
    intro hnf
    cases post with
    | nil => exact absurd hc2 hnf
    | cons e post1 =>
      obtain ⟨n, cn⟩ := e
      obtain ⟨hnn, nb, hdn, hrn, hc3⟩ := hc2
      have hcn : cn = [] := hpost (n, cn) (by simp)
      subst hcn
      rw [hnn]
      have hn0 : n ≠ 0 := by have := deref_le_length hdn; omega
      simp only [List.map_cons, List.mem_cons, not_or, List.nodup_cons] at htpost hndp
      have hninit : n ∉ init.map Prod.fst := fun hh => hdisj hh (by simp)
      refine ⟨nb, hdn, hrn.of_nil, ?_⟩
      intro v b2 hnext hrep2
      have hring : (init ++ [(q.tailBlock, ct)]) ++ (n, [v]) :: post1
          = init ++ (q.tailBlock, ct) :: (n, [v]) :: post1 := by simp
      refine ⟨init ++ [(q.tailBlock, ct)], [v], post1, ?_, ?_, ?_, ?_, by simp, ?_, ?_, hlarge⟩
      · show Chain NDEBUG (writeAt q.blocks n b2) q.frontBlock
          ((init ++ [(q.tailBlock, ct)]) ++ (n, [v]) :: post1) q.frontBlock
        rw [hring]
        refine Chain.mid.mpr ⟨Chain.frame_writeAt _ _ hn0 hc1 hninit, tb, ?_, hrt, hnn, b2,
          deref_writeAt_same b2 hdn, hrep2, ?_⟩
        · rw [deref_writeAt_ne _ _ hn0 ht0 (fun hh => htpost.1 hh)]
          exact hdt
        · rw [hnext]
          exact Chain.frame_writeAt _ _ hn0 hc3 hndp.1
      · show (((init ++ [(q.tailBlock, ct)]) ++ (n, [v]) :: post1).map Prod.fst).Nodup
        rw [hring]
        simpa using hnd0
      · have hfn : q.frontBlock ≠ n := by
          intro hh
          cases init with
          | nil =>
            simp only [List.nil_append, List.head?_cons, Option.some.injEq, Prod.mk.injEq] at hhead
            exact htpost.1 (by rw [hhead.1, hh])
          | cons e init1 =>
            obtain ⟨p, c⟩ := e
            simp only [List.cons_append, List.head?_cons, Option.some.injEq, Prod.mk.injEq] at hhead
            apply hninit
            rw [← hh, ← hhead.1]
            simp
        refine ⟨fb, c0, ?_, ?_, hrep0⟩
        · show ((init ++ [(q.tailBlock, ct)]) ++ (n, [v]) :: post1).head? = some (q.frontBlock, c0)
          cases init with
          | nil => simpa using hhead
          | cons e init1 => simpa using hhead
        · show deref (writeAt q.blocks n b2) q.frontBlock = .ok fb
          rw [deref_writeAt_ne _ _ hn0 hf0 hfn]
          exact hdf
      · intro e he hne
        simp only [List.mem_append, List.mem_singleton] at he
        rcases he with he | he
        · exact hinit e he hne
        · subst he; exact hct hne
      · intro e he
        exact hpost e (List.mem_cons_of_mem _ he)
      · rw [hxs]; simp
  · -- stored in a new block
    intro hnf v nbk k hnext hrepk hk
    have hpostnil : post = [] := by
      cases post with
      | nil => rfl
      | cons e post1 =>
        exfalso
        obtain ⟨n, cn⟩ := e
        obtain ⟨hnn, _⟩ := hc2
        simp only [List.map_cons, List.mem_cons, not_or] at htpost
        cases init with
        | nil =>
          simp only [List.nil_append, List.head?_cons, Option.some.injEq, Prod.mk.injEq] at hhead
          exact htpost.1 (by rw [hhead.1, ← hnf, ← hnn])
        | cons e init1 =>
          obtain ⟨p, c⟩ := e
          simp only [List.cons_append, List.head?_cons, Option.some.injEq, Prod.mk.injEq] at hhead
          apply hdisj (a := n)
          · rw [← hnn, hnf, ← hhead.1]; simp
          · simp
    subst hpostnil
    have hc2f : tb.next = q.frontBlock := hc2
    have hring : (init ++ [(q.tailBlock, ct)]) ++ (q.blocks.length + 1, [v]) :: []
        = init ++ (q.tailBlock, ct) :: [(q.blocks.length + 1, [v])] := by simp
    have hnew0 : q.blocks.length + 1 ≠ 0 := by omega
    have hlenw : (writeAt q.blocks q.tailBlock { tb with next := q.blocks.length + 1 }).length
        = q.blocks.length := writeAt_length _ _ _
    have hold : ∀ p ∈ (init ++ [(q.tailBlock, ct)]).map Prod.fst, p ≤ q.blocks.length := by
      intro p hp
      obtain ⟨b, hb⟩ := Chain.mem_deref hchain p (by simpa using hp)
      exact (deref_le_length hb).2
    refine ⟨init ++ [(q.tailBlock, ct)], [v], [], ?_, ?_, ?_, ?_, by simp, by simp, ?_, ⟨k, rfl, hk⟩⟩
    · show Chain NDEBUG (writeAt q.blocks q.tailBlock { tb with next := q.blocks.length + 1 } ++ [nbk])
        q.frontBlock ((init ++ [(q.tailBlock, ct)]) ++ (q.blocks.length + 1, [v]) :: []) q.frontBlock
      rw [hring]
      refine Chain.mid.mpr ⟨Chain.frame_append _ (Chain.frame_writeAt _ _ ht0 hc1 htinit),
        { tb with next := q.blocks.length + 1 }, deref_append _ (deref_writeAt_same _ hdt), hrt, rfl,
        nbk, ?_, hrepk.weaken _, ?_⟩
      · have := deref_append_new (writeAt q.blocks q.tailBlock { tb with next := q.blocks.length + 1 }) nbk
        rw [hlenw] at this
        exact this
      · show nbk.next = q.frontBlock
        rw [hnext, hc2f]
    · show (((init ++ [(q.tailBlock, ct)]) ++ (q.blocks.length + 1, [v]) :: []).map Prod.fst).Nodup
      rw [List.map_append, List.nodup_append]
      refine ⟨by simpa using hnd0, by simp, ?_⟩
      intro a ha1 ha2
      simp only [List.map_cons, List.map_nil, List.mem_singleton] at ha2
      have := hold a ha1
      omega
    · cases init with
      | nil =>
        simp only [List.nil_append, List.head?_cons, Option.some.injEq, Prod.mk.injEq] at hhead
        have hfb : fb = tb := by
          have h1 := hdf
          rw [← hhead.1, hdt] at h1
          cases h1; rfl
        refine ⟨{ tb with next := q.blocks.length + 1 }, c0, by simp [hhead.1, hhead.2], ?_,
          (hfb ▸ hrep0 : tb.Rep false c0)⟩
        show deref (writeAt q.blocks q.tailBlock { tb with next := q.blocks.length + 1 } ++ [nbk])
          q.frontBlock = _
        rw [← hhead.1]
        exact deref_append _ (deref_writeAt_same _ hdt)
      | cons e init1 =>
        obtain ⟨p, c⟩ := e
        simp only [List.cons_append, List.head?_cons, Option.some.injEq, Prod.mk.injEq] at hhead
        refine ⟨fb, c0, by simp [hhead.1, hhead.2], ?_, hrep0⟩
        show deref (writeAt q.blocks q.tailBlock { tb with next := q.blocks.length + 1 } ++ [nbk])
          q.frontBlock = _
        apply deref_append
        rw [deref_writeAt_ne _ _ ht0 hf0 ?_]
        · exact hdf
        · intro hh
          apply htinit
          rw [← hh, ← hhead.1]
          simp
    · intro e he hne
      simp only [List.mem_append, List.mem_singleton] at he
      rcases he with he | he
      · exact hinit e he hne
      · subst he; exact hct hne
    · rw [hxs]; simp

end ReaderWriterQueue
end sq

namespace sq
namespace ReaderWriterQueue
variable {T : Type}

/-- The size of the block the growth path allocates is a power of two
between `2` and `2 * MAX_BLOCK_SIZE`, and the doubling does not wrap. -/
theorem newBlockSize_pow {m k : Nat} (hm1 : 1 ≤ m) (hm : m ≤ 62) (hk : 2 ^ k ≤ 2 * 2 ^ m) :
    ∃ j, 1 ≤ j ∧ j ≤ 63 ∧ 2 ^ j ≤ 2 * 2 ^ m ∧
      (if 2 ^ k ≥ 2 ^ m then 2 ^ k else (2 ^ k * 2) % WORD) = 2 ^ j := by
  have hk1 : k ≤ m + 1 := by
    rw [← pow_succ'] at hk
    exact (Nat.pow_le_pow_iff_right (by omega)).mp hk
  by_cases hge : 2 ^ k ≥ 2 ^ m
  · have hmk : m ≤ k := (Nat.pow_le_pow_iff_right (by omega)).mp hge
    exact ⟨k, by omega, by omega, hk, by rw [if_pos hge]⟩
  · have hkm : k < m := by
      by_contra hcon
      exact hge (Nat.pow_le_pow_right (by omega) (by omega))
    refine ⟨k + 1, by omega, by omega, ?_, ?_⟩
    · rw [pow_succ]
      have : 2 ^ k ≤ 2 ^ m := Nat.pow_le_pow_right (by omega) (by omega)
      omega
    · rw [if_neg hge, ← pow_succ]
      apply Nat.mod_eq_of_lt
      unfold WORD
      exact Nat.pow_lt_pow_right (by omega) (by omega)

/-- On a queue that satisfies the invariant `inner_enqueue` either returns
`true` with the value appended to the content, or returns `false` with the
queue unchanged after a failed allocation, or stops at the assertion of
the next-block branch in a build with assertions. -/
theorem inner_enqueue_spec {m : Nat} {NDEBUG : Bool} {q : ReaderWriterQueue T}
    {xs : List T} (hm1 : 1 ≤ m) (hm : m ≤ 62) (hinv : Inv (2 ^ m) NDEBUG q xs)
    (v : T) (allocOk : Bool) :
    (∃ q1, inner_enqueue (2 ^ m) NDEBUG q v allocOk = .ok (true, q1) ∧
      Inv (2 ^ m) NDEBUG q1 (xs ++ [v])) ∨
    (inner_enqueue (2 ^ m) NDEBUG q v allocOk = .ok (false, q) ∧ allocOk = false) ∨
    (inner_enqueue (2 ^ m) NDEBUG q v allocOk = .error .assertion ∧ NDEBUG = false) := by
  have hlarge : ∃ k, q.largestBlockSize = 2 ^ k ∧ q.largestBlockSize ≤ 2 * 2 ^ m := by
    obtain ⟨_, _, _, _, _, _, _, _, _, _, hl⟩ := hinv
    exact hl
  obtain ⟨tb, ct, hdt, hrt, hplace, hnextb, hgrow⟩ := hinv.producer_view
  by_cases h1 : tb.forward tb.tail ≠ tb.local_front
  · left
    obtain ⟨b1, hb1, hnx, _, hrep⟩ := Block.Rep.put v (hrt.normal_of_room h1) h1
    refine ⟨_, ?_, hplace v { b1 with tail := tb.forward tb.tail } hnx hrep⟩
    unfold inner_enqueue
    simp only [hdt]
    rw [if_pos h1]
    simp only [hb1]
  · by_cases h2 : tb.forward tb.tail ≠ tb.front
    · left
      have hrt1 := hrt.refresh_front
      have h2a : tb.get_local_front_from_front.forward tb.get_local_front_from_front.tail
          ≠ tb.get_local_front_from_front.local_front := h2
      obtain ⟨b1, hb1, hnx, _, hrep⟩ := Block.Rep.put v (hrt1.normal_of_room h2a) h2a
      refine ⟨_, ?_, hplace v { b1 with tail := tb.forward tb.tail } hnx hrep⟩
      unfold inner_enqueue
      simp only [hdt]
      rw [if_neg h1, if_pos (show tb.forward tb.tail ≠ tb.get_local_front_from_front.local_front from h2)]
      have hb2 : tb.get_local_front_from_front.construct_element_at_idx tb.tail v = .ok b1 := hb1
      simp only [hb2]
    · simp only [ne_eq, not_not] at h1 h2
      have hself : tb.get_local_front_from_front = tb :=
        refresh_front_eq_self tb (by rw [← h1, h2])
      have hq : writeAt q.blocks q.tailBlock tb = q.blocks := writeAt_self hdt
      by_cases hnf : tb.next ≠ q.frontBlock
      · obtain ⟨nb, hdn, hrn, hcont⟩ := hnextb hnf
        have hemp : nb.front = nb.tail := hrn.empty_iff.mpr rfl
        cases hN : NDEBUG with
        | false =>
          right; right
          refine ⟨?_, rfl⟩
          unfold inner_enqueue
          simp only [hdt, hself, hq]
          rw [if_neg (by simp [h1]), if_neg (by simp [h1]), if_pos hnf]
          simp only [hdn]
          rw [if_pos (by simp [Block.get_local_front_from_front, hemp])]
        | true =>
          left
          subst hN
          obtain ⟨b1, hb1, hnx, hrep⟩ := Block.Rep.enter v hrn
          refine ⟨_, ?_, hcont v { b1 with tail := b1.forward nb.tail } hnx hrep⟩
          unfold inner_enqueue
          simp only [hdt, hself, hq]
          rw [if_neg (by simp [h1]), if_neg (by simp [h1]), if_pos hnf]
          simp only [hdn]
          rw [if_neg (by simp)]
          have hb2 : nb.get_local_front_from_front.construct_element_at_idx
              nb.get_local_front_from_front.tail v = .ok b1 := hb1
          simp only [hb2]
          rfl
      · simp only [ne_eq, not_not] at hnf
        cases hA : allocOk with
        | false =>
          right; left
          refine ⟨?_, rfl⟩
          unfold inner_enqueue
          simp only [hdt, hself, hq]
          rw [if_neg (by simp [h1]), if_neg (by simp [h1]), if_neg (by simp [hnf])]
          simp
        | true =>
          left
          obtain ⟨k, hk, hkle⟩ := hlarge
          rw [hk] at hkle
          obtain ⟨j, hj1, hj63, hjle, hjeq⟩ := newBlockSize_pow hm1 hm hkle
          obtain ⟨b1, hb1, hfr, hrep⟩ := Block.Rep.new_block (T := T) j hj1 hj63 v tb.next
          refine ⟨_, ?_, hgrow hnf v
            { ({ b1 with tail := 1 } : Block T).get_local_tail_from_tail with next := tb.next }
            j rfl hrep hjle⟩
          unfold inner_enqueue
          simp only [hdt, hself, hq]
          rw [if_neg (by simp [h1]), if_neg (by simp [h1]), if_neg (by simp [hnf])]
          simp only [hk, hjeq, hb1]
          rw [if_neg (by simp), if_neg (by simp [hfr])]

end ReaderWriterQueue
end sq

namespace sq
namespace ReaderWriterQueue
variable {T : Type}

/-! ### `ceilToPow2` -/

/-- One smearing step `t |= t >> w`: if the top `w` bits below position
`L` are set, afterwards the top `2 * w` are. -/
theorem smear_step (t L w : Nat) (hlt : t < 2 ^ L)
    (htop : ∀ i, i < L → L ≤ i + w → t.testBit i = true) :
    (t ||| (t >>> w)) < 2 ^ L ∧
      ∀ i, i < L → L ≤ i + 2 * w → (t ||| (t >>> w)).testBit i = true := by
  constructor
  · apply Nat.or_lt_two_pow hlt
    rw [Nat.shiftRight_eq_div_pow]
    exact lt_of_le_of_lt (Nat.div_le_self _ _) hlt
  · intro i hi hiw
    rw [Nat.testBit_or, Nat.testBit_shiftRight]
    by_cases h : L ≤ i + w
    · rw [htop i hi h]; rfl
    · rw [htop (w + i) (by omega) (by omega)]
      simp

/-- A number below `2 ^ L` whose bits below `L` are all set is `2 ^ L - 1`. -/
theorem eq_two_pow_sub_one (t L : Nat) (hlt : t < 2 ^ L)
    (hall : ∀ i, i < L → t.testBit i = true) : t = 2 ^ L - 1 := by
  apply Nat.eq_of_testBit_eq
  intro i
  rw [Nat.testBit_two_pow_sub_one]
  by_cases hi : i < L
  · rw [hall i hi]; simp [hi]
  · have : t < 2 ^ i := lt_of_lt_of_le hlt (Nat.pow_le_pow_right (by omega) (by omega))
    rw [Nat.testBit_lt_two_pow this]
    simp [hi]

/-- The bit length of a 64-bit value. -/
theorem exists_bit_length (y : Nat) (hy : y < 2 ^ 64) :
    ∃ L, L ≤ 64 ∧ y < 2 ^ L ∧ (∀ i, i < L → L ≤ i + 1 → y.testBit i = true) ∧
      (1 ≤ L → 2 ^ (L - 1) ≤ y) := by
  by_cases h0 : y = 0
  · exact ⟨0, by omega, by simp [h0], by intro i hi; omega, by intro h; omega⟩
  · obtain ⟨i, hi, hhigh⟩ := Nat.exists_most_significant_bit h0
    have hi64 : i < 64 := by
      by_contra hcon
      have : y < 2 ^ i := lt_of_lt_of_le hy (Nat.pow_le_pow_right (by omega) (by omega))
      rw [Nat.testBit_lt_two_pow this] at hi
      exact Bool.false_ne_true hi
    refine ⟨i + 1, by omega, ?_, ?_, ?_⟩
    · apply Nat.lt_pow_two_of_testBit
      intro j hj
      exact hhigh j (by omega)
    · intro j hj hj2
      have : j = i := by omega
      rw [this]; exact hi
    · intro _
      simp only [Nat.add_sub_cancel]
      by_contra hcon
      rw [Nat.testBit_lt_two_pow (by omega)] at hi
      exact Bool.false_ne_true hi

/-- The loop of `ceilToPow2` unrolled. -/
theorem smear_fold (y : Nat) :
    List.foldl (fun x i => x ||| x >>> (i <<< 3)) y [1, 2, 4] =
      (fun y => (fun y => y ||| y >>> 32) (y ||| y >>> 16)) (y ||| y >>> 8) := by
  simp only [List.foldl]
  rfl

/-- The function `ceilToPow2` returns, modulo `2 ^ 64`, the power of two
whose exponent is the bit length of `x - 1`. -/
theorem ceilToPow2_eq (x : Nat) :
    ∃ L, L ≤ 64 ∧ ceilToPow2 x = 2 ^ L % WORD ∧ (x + WORD - 1) % WORD < 2 ^ L ∧
      (1 ≤ L → 2 ^ (L - 1) ≤ (x + WORD - 1) % WORD) := by
  have hy : (x + WORD - 1) % WORD < 2 ^ 64 := Nat.mod_lt _ (Nat.two_pow_pos 64)
  unfold ceilToPow2
  dsimp only
  rw [smear_fold]
  dsimp only
  generalize (x + WORD - 1) % WORD = y at hy ⊢
  obtain ⟨L, hL, hlt, htop, hlow⟩ := exists_bit_length y hy
  refine ⟨L, hL, ?_, hlt, hlow⟩
  obtain ⟨h1a, h1b⟩ := smear_step _ L 1 hlt htop
  obtain ⟨h2a, h2b⟩ := smear_step _ L 2 h1a h1b
  obtain ⟨h3a, h3b⟩ := smear_step _ L 4 h2a h2b
  obtain ⟨h4a, h4b⟩ := smear_step _ L 8 h3a h3b
  obtain ⟨h5a, h5b⟩ := smear_step _ L 16 h4a h4b
  obtain ⟨h6a, h6b⟩ := smear_step _ L 32 h5a h5b
  have hfin := eq_two_pow_sub_one _ L h6a (fun i hi => h6b i hi (by omega))
  have hpos := Nat.two_pow_pos L
  rw [hfin, Nat.sub_add_cancel hpos]

/-- For `1 ≤ x ≤ 2 ^ 63` the result of `ceilToPow2` is a power of two that
is at least `x`. -/
theorem ceilToPow2_pow (x : Nat) (hx1 : 1 ≤ x) (hx : x ≤ 2 ^ 63) :
    ∃ L, L ≤ 63 ∧ ceilToPow2 x = 2 ^ L ∧ x ≤ 2 ^ L ∧ (1 ≤ L → 2 ^ (L - 1) < x) := by
  obtain ⟨L, hL, heq, hlt, hlow⟩ := ceilToPow2_eq x
  have hW : WORD = 2 ^ 64 := rfl
  have hy : (x + WORD - 1) % WORD = x - 1 := by
    rw [show x + WORD - 1 = (x - 1) + WORD by omega, Nat.add_mod_right, Nat.mod_eq_of_lt (by omega)]
  rw [hy] at hlt hlow
  have hL63 : L ≤ 63 := by
    by_contra hcon
    have h64 : L = 64 := by omega
    subst h64
    have := hlow (by omega)
    simp only [show 64 - 1 = 63 from rfl] at this
    omega
  refine ⟨L, hL63, ?_, by omega, fun h => by have := hlow h; omega⟩
  rw [heq]
  apply Nat.mod_eq_of_lt
  rw [hW]
  exact Nat.pow_lt_pow_right (by omega) (by omega)

/-- A power of two between `2 ^ 0` and `2 ^ 63` is a fixed point of
`ceilToPow2`: the constructor's first assertion holds for such a
`MAX_BLOCK_SIZE`. -/
theorem ceilToPow2_two_pow (m : Nat) (hm : m ≤ 63) : ceilToPow2 (2 ^ m) = 2 ^ m := by
  have hpos := Nat.two_pow_pos m
  obtain ⟨L, hL, heq, hle, hlow⟩ := ceilToPow2_pow (2 ^ m) hpos
    (Nat.pow_le_pow_right (by omega) hm)
  rw [heq]
  have h1 : m ≤ L := (Nat.pow_le_pow_iff_right (by omega)).mp hle
  by_cases h0 : L = 0
  · have : m = 0 := by omega
    rw [h0, this]
  · have h2 := hlow (by omega)
    have h3 : L - 1 < m := (Nat.pow_lt_pow_iff_right (by omega)).mp h2
    have : L = m := by omega
    rw [this]

end ReaderWriterQueue
end sq

namespace sq
namespace ReaderWriterQueue
variable {T : Type}

/-! ### The constructor establishes the invariant -/

theorem emptyRing_succ (j : Nat) : emptyRing T (j + 1) = emptyRing T j ++ [(1 + j, [])] := by
  unfold emptyRing
  rw [List.range'_concat]
  simp

theorem emptyRing_fst (j : Nat) : (emptyRing T j).map Prod.fst = List.range' 1 j := by
  unfold emptyRing
  rw [List.map_map]
  simp [Function.comp_def]

theorem ctorStep_first (over : Bool) (e : Nat) (he : e ≤ 63) :
    CtorInv over 1 (ctorStep (2 ^ e) ({ blocks := [], firstBlock := 0, lastBlock := 0 } : CtorLoop T)) := by
  have hrep : (Block.make_block (2 ^ e) : Block T).Rep false [] := Block.Rep.make_block e he
  refine ⟨?_, ?_, ?_, ?_⟩
  · simp [ctorStep, deref, writeAt]
  · simp [ctorStep]
  · simp [ctorStep]
  · have hb : (ctorStep (2 ^ e) ({ blocks := [], firstBlock := 0, lastBlock := 0 } : CtorLoop T)).blocks
        = [{ (Block.make_block (2 ^ e) : Block T) with next := 1 }] := by
      simp [ctorStep, deref, writeAt]
    rw [hb]
    show Chain over _ 1 [(1, [])] 1
    refine ⟨rfl, _, ?_, (hrep.next_irrelevant 1).weaken over, rfl⟩
    simp [deref]

theorem ctorStep_next (over : Bool) (e : Nat) (he : e ≤ 63) (j : Nat) (hj : 1 ≤ j)
    (st : CtorLoop T) (hst : CtorInv over j st) : CtorInv over (j + 1) (ctorStep (2 ^ e) st) := by
  obtain ⟨hlen, hfirst, hlast, hchain⟩ := hst
  have hrep : (Block.make_block (2 ^ e) : Block T).Rep false [] := Block.Rep.make_block e he
  obtain ⟨j0, rfl⟩ : ∃ j0, j = j0 + 1 := ⟨j - 1, by omega⟩
  rw [emptyRing_succ] at hchain
  obtain ⟨hc1, lb, hdl, hrl, hlnext⟩ := Chain.mid.mp hchain
  have hlnext1 : lb.next = 1 := hlnext
  have hd1 : deref (st.blocks ++ [(Block.make_block (2 ^ e) : Block T)]) st.lastBlock = .ok lb := by
    rw [hlast, show j0 + 1 = 1 + j0 by omega]
    exact deref_append _ hdl
  have hd2 : deref (writeAt (st.blocks ++ [(Block.make_block (2 ^ e) : Block T)]) st.lastBlock
      { lb with next := st.blocks.length + 1 }) (st.blocks.length + 1)
      = .ok (Block.make_block (2 ^ e)) := by
    rw [deref_writeAt_ne _ _ (by omega) (by omega) (by omega)]
    exact deref_append_new _ _
  have hb : (ctorStep (2 ^ e) st).blocks =
      writeAt (writeAt (st.blocks ++ [(Block.make_block (2 ^ e) : Block T)]) st.lastBlock
        { lb with next := st.blocks.length + 1 }) (st.blocks.length + 1)
        { (Block.make_block (2 ^ e) : Block T) with next := 1 } := by
    unfold ctorStep
    simp only [hfirst, show (1 : Nat) ≠ 0 by omega, if_false, hd1, hd2]
  refine ⟨?_, ?_, ?_, ?_⟩
  · rw [hb, writeAt_length, writeAt_length]; simp [hlen]
  · simp [ctorStep, hfirst]
  · simp [ctorStep, hlen]
  · rw [hb, emptyRing_succ, emptyRing_succ, List.append_assoc]
    have hnotin : ∀ p, j0 < p → p ∉ (emptyRing T j0).map Prod.fst := by
      intro p hp
      rw [emptyRing_fst, List.mem_range'_1]
      omega
    refine Chain.mid.mpr ⟨?_, { lb with next := st.blocks.length + 1 }, ?_, hrl, ?_⟩
    · apply Chain.frame_writeAt _ _ (by omega)
      · apply Chain.frame_writeAt _ _ (by omega)
        · exact Chain.frame_append _ hc1
        · rw [hlast]; exact hnotin _ (by omega)
      · rw [hlen]; exact hnotin _ (by omega)
    · rw [deref_writeAt_ne _ _ (by omega) (by omega) (by omega)]
      have := deref_writeAt_same ({ lb with next := st.blocks.length + 1 }) hd1
      rw [show 1 + j0 = st.lastBlock by omega]
      exact this
    · show Chain over _ (st.blocks.length + 1) [(1 + (j0 + 1), [])] 1
      refine ⟨by omega, { (Block.make_block (2 ^ e) : Block T) with next := 1 }, ?_,
        (hrep.next_irrelevant 1).weaken over, rfl⟩
      have := deref_writeAt_same ({ (Block.make_block (2 ^ e) : Block T) with next := 1 }) hd2
      rw [show 1 + (j0 + 1) = st.blocks.length + 1 by omega]
      exact this

theorem ctorLoop_inv (over : Bool) (e : Nat) (he : e ≤ 63) (n j : Nat) (hj : 1 ≤ j)
    (st : CtorLoop T) (hst : CtorInv over j st) :
    CtorInv over (j + n) (ctorLoop (2 ^ e) n st) := by
  induction n generalizing j st with
  | zero => exact hst
  | succ n ih =>
    show CtorInv over (j + (n + 1)) (ctorLoop (2 ^ e) n (ctorStep (2 ^ e) st))
    rw [show j + (n + 1) = (j + 1) + n by omega]
    exact ih (j + 1) (by omega) _ (ctorStep_next over e he j hj st hst)

/-- The constructor returns a queue that satisfies the invariant and holds
nothing, for every size hint below `2 ^ 63`. -/
theorem ctor_inv (m : Nat) (hm1 : 1 ≤ m) (hm : m ≤ 62) (NDEBUG : Bool) (size : Nat)
    (hsize : size < 2 ^ 63) :
    ∃ q : ReaderWriterQueue T, ctor (2 ^ m) NDEBUG size = .ok q ∧ Inv (2 ^ m) NDEBUG q [] := by
  have hW : WORD = 2 ^ 64 := rfl
  have hfix := ceilToPow2_two_pow m (by omega)
  have h2 : 2 ≤ 2 ^ m := by
    calc 2 = 2 ^ 1 := by norm_num
      _ ≤ 2 ^ m := Nat.pow_le_pow_right (by omega) hm1
  have hM62 : 2 ^ m ≤ 2 ^ 62 := Nat.pow_le_pow_right (by omega) hm
  have hs1 : (size + 1) % WORD = size + 1 := Nat.mod_eq_of_lt (by rw [hW]; omega)
  have hM2 : (2 ^ m * 2) % WORD = 2 ^ m * 2 := Nat.mod_eq_of_lt (by rw [hW]; omega)
  obtain ⟨L, hL, hceil, hle, hlow⟩ := ceilToPow2_pow (size + 1) (by omega) (by omega)
  unfold ctor
  rw [if_neg (by simp [hfix]), if_neg (by simp [h2])]
  simp only [hs1, hM2, hceil]
  by_cases hbig : 2 ^ L > 2 ^ m * 2
  · rw [if_pos hbig]
    have hcnt : 1 ≤ ((size + 2 ^ m * 2 + WORD - 3) % WORD) / (2 ^ m - 1) := by
      rw [show size + 2 ^ m * 2 + WORD - 3 = (size + 2 ^ m * 2 - 3) + WORD by omega,
        Nat.add_mod_right, Nat.mod_eq_of_lt (by rw [hW]; omega)]
      exact Nat.div_pos (by omega) (by omega)
    obtain ⟨n, hn⟩ : ∃ n, ((size + 2 ^ m * 2 + WORD - 3) % WORD) / (2 ^ m - 1) = n + 1 :=
      ⟨_, (Nat.sub_add_cancel hcnt).symm⟩
    rw [hn]
    have hinv := ctorLoop_inv (T := T) NDEBUG m (by omega) n 1 (le_refl 1) _
      (ctorStep_first NDEBUG m (by omega))
    obtain ⟨hlen, hfirst, hlast, hchain⟩ := hinv
    refine ⟨_, rfl, ?_⟩
    have hring : emptyRing T (1 + n) = (1, []) :: (List.range' 2 n).map (fun i => (i, [])) := by
      unfold emptyRing
      rw [show 1 + n = n + 1 by omega, List.range'_succ]
      rfl
    have hfirst2 : (ctorLoop (2 ^ m) (n + 1) ({ blocks := [], firstBlock := 0, lastBlock := 0 } : CtorLoop T)).firstBlock = 1 := hfirst
    have hchain2 : Chain NDEBUG
        (ctorLoop (2 ^ m) (n + 1) ({ blocks := [], firstBlock := 0, lastBlock := 0 } : CtorLoop T)).blocks
        1 (emptyRing T (1 + n)) 1 := hchain
    refine ⟨[], [], (List.range' 2 n).map (fun i => (i, [])), ?_, ?_, ?_, by simp, by simp, ?_, by simp,
      ⟨m, rfl, by show 2 ^ m ≤ 2 * 2 ^ m; omega⟩⟩
    · show Chain NDEBUG _ _ ([] ++ (_, []) :: _) _
      simp only [hfirst2, List.nil_append]
      rw [← hring]
      exact hchain2
    · show (([] ++ (_, []) :: _ : List (Nat × List T)).map Prod.fst).Nodup
      simp only [hfirst2, List.nil_append]
      rw [← hring, emptyRing_fst]
      exact List.nodup_range' 1 (1 + n)
    · rw [hring] at hchain2
      obtain ⟨_, b, hd, hr, _⟩ := hchain2
      refine ⟨b, [], ?_, ?_, hr.of_nil⟩
      · simp [hfirst2]
      · show deref _ (ctorLoop (2 ^ m) (n + 1) _).firstBlock = _
        rw [hfirst2]; exact hd
    · intro e he
      simp only [List.mem_map] at he
      obtain ⟨i, _, rfl⟩ := he
      rfl
  · rw [if_neg hbig]
    refine ⟨_, rfl, [], [], [], ?_, by simp, ?_, by simp, by simp, by simp, by simp,
      ⟨L, rfl, by show 2 ^ L ≤ 2 * 2 ^ m; omega⟩⟩
    · show Chain NDEBUG _ 1 [(1, [])] 1
      refine ⟨rfl, _, ?_, ((Block.Rep.make_block L hL).next_irrelevant 1).weaken _, rfl⟩
      simp [deref]
    · refine ⟨_, [], by simp, ?_, (Block.Rep.make_block L hL).next_irrelevant 1⟩
      simp [deref]

end ReaderWriterQueue
end sq

namespace sq
namespace ReaderWriterQueue
variable {T : Type}

/-! ### Runs -/

theorem step_inv {m : Nat} {NDEBUG : Bool} (hm1 : 1 ≤ m) (hm : m ≤ 62) {r r1 : Run T}
    (op : Op T) (hr : RunInv m NDEBUG r) (hs : step (2 ^ m) NDEBUG r op = .ok r1) :
    RunInv m NDEBUG r1 := by
  obtain ⟨xs, hxs, hinv⟩ := hr
  cases op with
  | enqueue v allocOk =>
    unfold step at hs
    rcases inner_enqueue_spec hm1 hm hinv v allocOk with ⟨q1, he, hinv1⟩ | ⟨he, _⟩ | ⟨he, _⟩
    · simp only [he] at hs
      cases hs
      exact ⟨xs ++ [v], by simp [hxs], hinv1⟩
    · simp only [he] at hs
      cases hs
      exact ⟨xs, hxs, hinv⟩
    · simp only [he] at hs
      cases hs
  | dequeue =>
    unfold step at hs
    rcases try_dequeue_spec r.result hinv with ⟨hnil, he⟩ | ⟨x, xs1, q1, hcons, he, hinv1⟩
    · simp only [he] at hs
      cases hs
      exact ⟨xs, hxs, hinv⟩
    · simp only [he] at hs
      cases hs
      exact ⟨xs1, by simp [hxs, hcons], hinv1⟩

theorem run_inv {m : Nat} {NDEBUG : Bool} (hm1 : 1 ≤ m) (hm : m ≤ 62) (ops : List (Op T))
    {r r1 : Run T} (hr : RunInv m NDEBUG r) (hs : run (2 ^ m) NDEBUG r ops = .ok r1) :
    RunInv m NDEBUG r1 := by
  induction ops generalizing r with
  | nil =>
    simp only [run] at hs
    cases hs
    exact hr
  | cons op ops ih =>
    simp only [run] at hs
    cases hstep : step (2 ^ m) NDEBUG r op with
    | error e => simp [hstep] at hs
    | ok r2 =>
      simp only [hstep] at hs
      exact ih (step_inv hm1 hm op hr hstep) hs

theorem session_inv {m : Nat} {NDEBUG : Bool} (hm1 : 1 ≤ m) (hm : m ≤ 62) {size : Nat}
    (hsize : size < 2 ^ 63) (result0 : T) (ops : List (Op T)) {r : Run T}
    (hs : session (2 ^ m) NDEBUG size result0 ops = .ok r) : RunInv m NDEBUG r := by
  obtain ⟨q, hq, hinv⟩ := ctor_inv (T := T) m hm1 hm NDEBUG size hsize
  unfold session at hs
  simp only [hq] at hs
  exact run_inv hm1 hm ops ⟨[], by simp, hinv⟩ hs

/-- FIFO order.  For every size hint below `2 ^ 63`, in both builds: when a
sequence of calls has run, the values written by the `try_dequeue` calls
that returned `true` are the first of the values passed to the
`inner_enqueue` calls that returned `true`, in the same order. -/
theorem session_fifo {m : Nat} {NDEBUG : Bool} (hm1 : 1 ≤ m) (hm : m ≤ 62) {size : Nat}
    (hsize : size < 2 ^ 63) (result0 : T) (ops : List (Op T)) {r : Run T}
    (hs : session (2 ^ m) NDEBUG size result0 ops = .ok r) :
    r.dequeued = r.enqueued.take r.dequeued.length := by
  obtain ⟨xs, hxs, _⟩ := session_inv hm1 hm hsize result0 ops hs
  rw [hxs]; simp

/-- In a build with `NDEBUG` a call that satisfies the invariant returns. -/
theorem step_total_ndebug {m : Nat} {NDEBUG : Bool} (hN : NDEBUG = true) (hm1 : 1 ≤ m)
    (hm : m ≤ 62) {r : Run T} (op : Op T) (hr : RunInv m NDEBUG r) :
    ∃ r1, step (2 ^ m) NDEBUG r op = .ok r1 := by
  obtain ⟨xs, hxs, hinv⟩ := hr
  cases op with
  | enqueue v allocOk =>
    unfold step
    rcases inner_enqueue_spec hm1 hm hinv v allocOk with ⟨q1, he, hinv1⟩ | ⟨he, _⟩ | ⟨he, hh⟩
    · simp only [he]; exact ⟨_, rfl⟩
    · simp only [he]; exact ⟨_, rfl⟩
    · rw [hN] at hh; cases hh
  | dequeue =>
    unfold step
    rcases try_dequeue_spec r.result hinv with ⟨hnil, he⟩ | ⟨x, xs1, q1, hcons, he, hinv1⟩
    · simp only [he]; exact ⟨_, rfl⟩
    · simp only [he]; exact ⟨_, rfl⟩

theorem run_total_ndebug {m : Nat} {NDEBUG : Bool} (hN : NDEBUG = true) (hm1 : 1 ≤ m)
    (hm : m ≤ 62) (ops : List (Op T)) {r : Run T} (hr : RunInv m NDEBUG r) :
    ∃ r1, run (2 ^ m) NDEBUG r ops = .ok r1 := by
  induction ops generalizing r with
  | nil => exact ⟨r, rfl⟩
  | cons op ops ih =>
    obtain ⟨r2, hstep⟩ := step_total_ndebug hN hm1 hm op hr
    obtain ⟨r3, hrun⟩ := ih (step_inv hm1 hm op hr hstep)
    refine ⟨r3, ?_⟩
    simp only [run, hstep, hrun]

/-- In a build with `NDEBUG` every sequence of calls on a queue constructed
with a size hint below `2 ^ 63` runs to its end. -/
theorem session_total_ndebug {m : Nat} {NDEBUG : Bool} (hN : NDEBUG = true) (hm1 : 1 ≤ m)
    (hm : m ≤ 62) {size : Nat} (hsize : size < 2 ^ 63) (result0 : T) (ops : List (Op T)) :
    ∃ r, session (2 ^ m) NDEBUG size result0 ops = .ok r := by
  obtain ⟨q, hq, hinv⟩ := ctor_inv (T := T) m hm1 hm NDEBUG size hsize
  obtain ⟨r, hr⟩ := run_total_ndebug hN hm1 hm ops
    (r := { queue := q, result := result0, enqueued := [], dequeued := [] }) ⟨[], by simp, hinv⟩
  refine ⟨r, ?_⟩
  unfold session
  simp only [hq, hr]

end ReaderWriterQueue
end sq

namespace sq
namespace ReaderWriterQueue
variable {T : Type}

/-- A call of `inner_enqueue` that returns `false` found the tail block
full, its successor being the front block, asked for a new block and
was refused it; it leaves the queue as it was. -/
theorem inner_enqueue_false {MAX_BLOCK_SIZE : Nat} {NDEBUG : Bool} {q q1 : ReaderWriterQueue T}
    {element : T} {allocOk : Bool}
    (h : inner_enqueue MAX_BLOCK_SIZE NDEBUG q element allocOk = .ok (false, q1)) :
    q1 = q ∧ allocOk = false ∧
      ∃ tb, deref q.blocks q.tailBlock = .ok tb ∧ tb.forward tb.tail = tb.front ∧
        tb.next = q.frontBlock := by
  unfold inner_enqueue at h
  cases hdt : deref q.blocks q.tailBlock with
  | error e => simp [hdt] at h
  | ok tb =>
    simp only [hdt] at h
    by_cases h1 : tb.forward tb.tail ≠ tb.local_front
    · rw [if_pos h1] at h
      cases hc : tb.construct_element_at_idx tb.tail element with
      | error e => simp [hc] at h
      | ok b1 => simp [hc] at h
    · rw [if_neg h1] at h
      by_cases h2 : tb.forward tb.tail ≠ tb.get_local_front_from_front.local_front
      · rw [if_pos h2] at h
        cases hc : tb.get_local_front_from_front.construct_element_at_idx tb.tail element with
        | error e => simp [hc] at h
        | ok b1 => simp [hc] at h
      · rw [if_neg h2] at h
        simp only [ne_eq, not_not] at h1 h2
        have h2a : tb.forward tb.tail = tb.front := h2
        have hself : tb.get_local_front_from_front = tb :=
          refresh_front_eq_self tb (by rw [← h1, h2a])
        have hq : writeAt q.blocks q.tailBlock tb = q.blocks := writeAt_self hdt
        simp only [hself, hq] at h
        by_cases hnf : tb.next ≠ q.frontBlock
        · rw [if_pos hnf] at h
          cases hdn : deref q.blocks tb.next with
          | error e => simp [hdn] at h
          | ok nb =>
            simp only [hdn] at h
            split at h
            · cases h
            · cases hc : nb.get_local_front_from_front.construct_element_at_idx
                  nb.get_local_front_from_front.tail element with
              | error e => simp [hc] at h
              | ok b1 => simp [hc] at h
        · rw [if_neg hnf] at h
          simp only [ne_eq, not_not] at hnf
          cases hA : allocOk with
          | false =>
            simp only [hA] at h
            simp at h
            exact ⟨h.symm, rfl, tb, rfl, h2a, hnf⟩
          | true =>
            exfalso
            simp only [hA] at h
            simp only [Bool.not_true, Bool.false_eq_true, if_false] at h
            split at h
            · cases h
            · split at h
              · cases h
              · simp at h

end ReaderWriterQueue
end sq

theorem mem_writeAt {α : Type} {h : List α} {p : Nat} {x b : α} (hb : b ∈ writeAt h p x) :
    b = x ∨ b ∈ h := by
  unfold writeAt at hb
  rcases List.mem_or_eq_of_mem_set hb with h1 | h1
  · exact Or.inr h1
  · exact Or.inl h1

theorem deref_mem {α : Type} {h : List α} {p : Nat} {b : α} (hd : deref h p = .ok b) : b ∈ h := by
  rw [deref_ok_iff] at hd
  exact List.getElem?_mem hd.2

namespace sq
namespace ReaderWriterQueue
variable {T : Type}

theorem capBound_writeAt {B : Nat} {h : List (Block T)} {p : Nat} {x : Block T}
    (hh : ∀ b ∈ h, b.data.length ≤ B) (hx : x.data.length ≤ B) :
    ∀ b ∈ writeAt h p x, b.data.length ≤ B := by
  intro b hb
  rcases mem_writeAt hb with h1 | h1
  · rw [h1]; exact hx
  · exact hh b h1

theorem construct_length {b b1 : Block T} {idx : Nat} {t : T}
    (h : b.construct_element_at_idx idx t = .ok b1) : b1.data.length = b.data.length := by
  unfold Block.construct_element_at_idx at h
  split at h
  · cases h; simp
  · cases h

theorem move_out_length {b b1 : Block T} {idx : Nat} {v : T}
    (h : b.move_out_element_at_idx idx = .ok (v, b1)) : b1.data.length = b.data.length := by
  unfold Block.move_out_element_at_idx at h
  split at h
  · cases h; simp
  · cases h

theorem dequeue_from_cap {B : Nat} {q q1 : ReaderWriterQueue T} {p idx : Nat} {b : Block T}
    {r : Bool} {v : T} (h : dequeue_from q p b idx = .ok (r, q1, v))
    (hq : CapBound B q) (hb : b.data.length ≤ B) : CapBound B q1 := by
  unfold dequeue_from at h
  cases hm : b.move_out_element_at_idx idx with
  | error e => simp [hm] at h
  | ok res =>
    obtain ⟨v1, b1⟩ := res
    simp only [hm] at h
    cases h
    refine ⟨capBound_writeAt hq.1 ?_, hq.2⟩
    show b1.data.length ≤ B
    rw [move_out_length hm]; exact hb

theorem try_dequeue_cap {B : Nat} {NDEBUG : Bool} {q q1 : ReaderWriterQueue T} {result v : T}
    {r : Bool} (h : try_dequeue NDEBUG q result = .ok (r, q1, v)) (hq : CapBound B q) :
    CapBound B q1 := by
  unfold try_dequeue at h
  cases hdf : deref q.blocks q.frontBlock with
  | error e => simp [hdf] at h
  | ok fb =>
    have hfb : fb.data.length ≤ B := hq.1 fb (deref_mem hdf)
    have hq1 : CapBound B { q with blocks := writeAt q.blocks q.frontBlock fb.get_local_tail_from_tail } :=
      ⟨capBound_writeAt hq.1 hfb, hq.2⟩
    simp only [hdf] at h
    split at h
    · exact dequeue_from_cap h hq hfb
    · split at h
      · exact dequeue_from_cap h hq hfb
      · split at h
        · split at h
          · exact dequeue_from_cap h ⟨capBound_writeAt hq1.1 hfb, hq.2⟩ hfb
          · split at h
            · cases h
            · rename_i nb hdn
              have hnb : nb.data.length ≤ B := by
                rcases mem_writeAt (deref_mem hdn) with h1 | h1
                · rw [h1]; exact hfb
                · rcases mem_writeAt h1 with h2 | h2
                  · rw [h2]; exact hfb
                  · exact hq.1 nb h2
              split at h
              · cases h
              · exact dequeue_from_cap h ⟨capBound_writeAt hq1.1 hfb, hq.2⟩ hnb
        · cases h
          exact hq1

theorem inner_enqueue_cap {MAX_BLOCK_SIZE : Nat} {NDEBUG : Bool} {q q1 : ReaderWriterQueue T}
    {element : T} {allocOk r : Bool}
    (h : inner_enqueue MAX_BLOCK_SIZE NDEBUG q element allocOk = .ok (r, q1))
    (hq : CapBound (2 * MAX_BLOCK_SIZE) q) : CapBound (2 * MAX_BLOCK_SIZE) q1 := by
  unfold inner_enqueue at h
  cases hdt : deref q.blocks q.tailBlock with
  | error e => simp [hdt] at h
  | ok tb =>
    have htb : tb.data.length ≤ 2 * MAX_BLOCK_SIZE := hq.1 tb (deref_mem hdt)
    have hq1 : ∀ b ∈ writeAt q.blocks q.tailBlock tb.get_local_front_from_front,
        b.data.length ≤ 2 * MAX_BLOCK_SIZE := capBound_writeAt hq.1 htb
    simp only [hdt] at h
    split at h
    · split at h
      · cases h
      · rename_i b1 hc
        cases h
        exact ⟨capBound_writeAt hq.1 (by show b1.data.length ≤ _; rw [construct_length hc]; exact htb), hq.2⟩
    · split at h
      · split at h
        · cases h
        · rename_i b1 hc
          cases h
          exact ⟨capBound_writeAt hq.1 (by show b1.data.length ≤ _; rw [construct_length hc]; exact htb), hq.2⟩
      · split at h
        · split at h
          · cases h
          · rename_i nb hdn
            have hnb : nb.data.length ≤ 2 * MAX_BLOCK_SIZE := by
              rcases mem_writeAt (deref_mem hdn) with h1 | h1
              · rw [h1]; exact htb
              · exact hq.1 nb h1
            split at h
            · cases h
            · split at h
              · cases h
              · rename_i b1 hc
                cases h
                exact ⟨capBound_writeAt hq1 (by show b1.data.length ≤ _; rw [construct_length hc]; exact hnb), hq.2⟩
        · have hnew : (if q.largestBlockSize ≥ MAX_BLOCK_SIZE then q.largestBlockSize
              else (q.largestBlockSize * 2) % WORD) ≤ 2 * MAX_BLOCK_SIZE := by
            split
            · exact hq.2
            · exact le_trans (Nat.mod_le _ _) (by omega)
          split at h
          · cases h
            exact ⟨hq1, hq.2⟩
          · split at h
            · cases h
            · rename_i b1 hc
              split at h
              · cases h
              · cases h
                refine ⟨?_, hnew⟩
                intro b hb
                simp only [List.mem_append, List.mem_singleton] at hb
                rcases hb with hb | hb
                · rcases mem_writeAt hb with h1 | h1
                  · rw [h1]; exact htb
                  · exact hq1 b h1
                · rw [hb]
                  show b1.data.length ≤ _
                  rw [construct_length hc]
                  simpa [Block.make_block] using hnew

theorem ctorStep_cap {B L : Nat} (hL : L ≤ B) (st : CtorLoop T)
    (hst : ∀ b ∈ st.blocks, b.data.length ≤ B) :
    ∀ b ∈ (ctorStep L st).blocks, b.data.length ≤ B := by
  have h0 : ∀ b ∈ st.blocks ++ [(Block.make_block L : Block T)], b.data.length ≤ B := by
    intro b hb
    simp only [List.mem_append, List.mem_singleton] at hb
    rcases hb with hb | hb
    · exact hst b hb
    · rw [hb]; simpa [Block.make_block] using hL
  have h1 : ∀ b ∈ (if st.firstBlock = 0 then st.blocks ++ [(Block.make_block L : Block T)]
      else match deref (st.blocks ++ [(Block.make_block L : Block T)]) st.lastBlock with
        | .ok lb => writeAt (st.blocks ++ [(Block.make_block L : Block T)]) st.lastBlock
            { lb with next := st.blocks.length + 1 }
        | .error _ => st.blocks ++ [(Block.make_block L : Block T)]), b.data.length ≤ B := by
    split
    · exact h0
    · split
      · rename_i lb hd
        exact capBound_writeAt h0 (h0 lb (deref_mem hd))
      · exact h0
  unfold ctorStep
  dsimp only
  split
  · rename_i b0 hd
    exact capBound_writeAt h1 (h1 b0 (deref_mem hd))
  · exact h1

theorem ctorLoop_cap {B L : Nat} (hL : L ≤ B) (n : Nat) (st : CtorLoop T)
    (hst : ∀ b ∈ st.blocks, b.data.length ≤ B) :
    ∀ b ∈ (ctorLoop L n st).blocks, b.data.length ≤ B := by
  induction n generalizing st with
  | zero => exact hst
  | succ n ih => exact ih _ (ctorStep_cap hL st hst)

theorem ctor_cap_multi {MAX_BLOCK_SIZE n : Nat} {q : ReaderWriterQueue T}
    (h1 : (ReaderWriterQueue.mk (ctorLoop MAX_BLOCK_SIZE n (CtorLoop.mk ([] : List (Block T)) 0 0)).blocks
            (ctorLoop MAX_BLOCK_SIZE n (CtorLoop.mk ([] : List (Block T)) 0 0)).firstBlock
            (ctorLoop MAX_BLOCK_SIZE n (CtorLoop.mk ([] : List (Block T)) 0 0)).firstBlock
            MAX_BLOCK_SIZE) = q) :
    CapBound (2 * MAX_BLOCK_SIZE) q := by
  have hblocks : q.blocks = (ctorLoop MAX_BLOCK_SIZE n (CtorLoop.mk ([] : List (Block T)) 0 0)).blocks := by
    rw [← h1]
  have hlarge : q.largestBlockSize = MAX_BLOCK_SIZE := by rw [← h1]
  have hMM : MAX_BLOCK_SIZE ≤ 2 * MAX_BLOCK_SIZE := Nat.le_mul_of_pos_left _ (by decide)
  constructor
  · rw [hblocks]
    apply ctorLoop_cap hMM
    intro b hb
    exact absurd hb (List.not_mem_nil b)
  · rw [hlarge]
    exact hMM

theorem ctor_cap_single {B L : Nat} (hL : L ≤ B) {q : ReaderWriterQueue T}
    (h1 : (ReaderWriterQueue.mk [{ (Block.make_block L : Block T) with next := 1 }] 1 1 L) = q) :
    CapBound B q := by
  have hblocks : q.blocks = [{ (Block.make_block L : Block T) with next := 1 }] := by
    rw [← h1]
  have hlarge : q.largestBlockSize = L := by rw [← h1]
  constructor
  · rw [hblocks]
    intro b hb
    rw [List.mem_singleton] at hb
    rw [hb]
    show (List.replicate L (none : Option T)).length ≤ B
    rw [List.length_replicate]
    exact hL
  · rw [hlarge]
    exact hL

theorem ctor_cap {MAX_BLOCK_SIZE : Nat} {NDEBUG : Bool} {size : Nat} {q : ReaderWriterQueue T}
    (h : ctor MAX_BLOCK_SIZE NDEBUG size = .ok q) : CapBound (2 * MAX_BLOCK_SIZE) q := by
  unfold ctor at h
  by_cases c1 : (!NDEBUG && (MAX_BLOCK_SIZE != ceilToPow2 MAX_BLOCK_SIZE)) = true
  · rw [if_pos c1] at h
    exact Except.noConfusion h
  · rw [if_neg c1] at h
    by_cases c2 : (!NDEBUG && !(decide (MAX_BLOCK_SIZE ≥ 2))) = true
    · rw [if_pos c2] at h
      exact Except.noConfusion h
    · rw [if_neg c2] at h
      clear c1 c2
      dsimp only at h
      generalize ceilToPow2 ((size + 1) % WORD) = L at h
      generalize ((size + (MAX_BLOCK_SIZE * 2) % WORD + WORD - 3) % WORD) / (MAX_BLOCK_SIZE - 1) = n at h
      have hmod : (MAX_BLOCK_SIZE * 2) % WORD ≤ 2 * MAX_BLOCK_SIZE :=
        le_trans (Nat.mod_le _ _) (by omega)
      generalize (MAX_BLOCK_SIZE * 2) % WORD = M2 at h hmod
      by_cases c3 : L > M2
      · rw [if_pos c3] at h
        exact ctor_cap_multi (Except.ok.inj h)
      · rw [if_neg c3] at h
        exact ctor_cap_single (le_trans (not_lt.mp c3) hmod) (Except.ok.inj h)

theorem run_cap {MAX_BLOCK_SIZE : Nat} {NDEBUG : Bool} (ops : List (Op T)) {r r1 : Run T}
    (h : run MAX_BLOCK_SIZE NDEBUG r ops = .ok r1) (hr : CapBound (2 * MAX_BLOCK_SIZE) r.queue) :
    CapBound (2 * MAX_BLOCK_SIZE) r1.queue := by
  induction ops generalizing r with
  | nil =>
    simp only [run] at h
    cases h
    exact hr
  | cons op ops ih =>
    simp only [run] at h
    cases hstep : step MAX_BLOCK_SIZE NDEBUG r op with
    | error e => simp [hstep] at h
    | ok r2 =>
      simp only [hstep] at h
      refine ih h ?_
      cases op with
      | enqueue v allocOk =>
        unfold step at hstep
        cases he : inner_enqueue MAX_BLOCK_SIZE NDEBUG r.queue v allocOk with
        | error e => simp [he] at hstep
        | ok res =>
          obtain ⟨b, q1⟩ := res
          have hc := inner_enqueue_cap he hr
          cases b <;> (simp only [he] at hstep; cases hstep; exact hc)
      | dequeue =>
        unfold step at hstep
        cases he : try_dequeue NDEBUG r.queue r.result with
        | error e => simp [he] at hstep
        | ok res =>
          obtain ⟨b, q1, v⟩ := res
          have hc := try_dequeue_cap he hr
          cases b <;> (simp only [he] at hstep; cases hstep; exact hc)

end ReaderWriterQueue
end sq

namespace sq
namespace ReaderWriterQueue
variable {T : Type}

/-- For a size hint of `2 ^ 63` or more the constructor's `size + 1`
rounds up to zero: the single block has no slot. -/
theorem ceilToPow2_overflow (size : Nat) (h1 : 2 ^ 63 ≤ size) (h2 : size < WORD) :
    ceilToPow2 ((size + 1) % WORD) = 0 := by
  obtain ⟨L, hL, heq, hlt, _⟩ := ceilToPow2_eq ((size + 1) % WORD)
  have hW : WORD = 2 ^ 64 := rfl
  rw [heq]
  generalize ceilToPow2 ((size + 1) % WORD) = c at heq
  clear heq
  have hy : ((size + 1) % WORD + WORD - 1) % WORD = size := by
    rw [hW] at h2 ⊢
    omega
  rw [hy] at hlt
  have hL64 : L = 64 := by
    by_contra hcon
    have : 2 ^ L ≤ 2 ^ 63 := Nat.pow_le_pow_right (by omega) (by omega)
    omega
  rw [hL64, hW]
  exact Nat.mod_self _

theorem run_append {MAX_BLOCK_SIZE : Nat} {NDEBUG : Bool} (ops1 ops2 : List (Op T)) (r r1 : Run T)
    (h1 : run MAX_BLOCK_SIZE NDEBUG r ops1 = .ok r1) :
    run MAX_BLOCK_SIZE NDEBUG r (ops1 ++ ops2) = run MAX_BLOCK_SIZE NDEBUG r1 ops2 := by
  induction ops1 generalizing r with
  | nil =>
    simp only [run] at h1
    have := Except.ok.inj h1
    subst this
    rfl
  | cons op ops ih =>
    simp only [run, List.cons_append] at h1 ⊢
    cases hstep : step MAX_BLOCK_SIZE NDEBUG r op with
    | error e => simp [hstep] at h1
    | ok r2 =>
      simp only [hstep] at h1 ⊢
      exact ih r2 h1

/-- In a build with `NDEBUG`, enqueuing with allocations succeeding appends
every value. -/
theorem run_enqueues_ndebug {m : Nat} {NDEBUG : Bool} (hN : NDEBUG = true) (hm1 : 1 ≤ m)
    (hm : m ≤ 62) (vs : List T) (r : Run T) (xs : List T)
    (hxs : r.enqueued = r.dequeued ++ xs) (hinv : Inv (2 ^ m) NDEBUG r.queue xs) :
    ∃ r1, run (2 ^ m) NDEBUG r (vs.map (fun v => Op.enqueue v true)) = .ok r1 ∧
      r1.enqueued = r.dequeued ++ (xs ++ vs) ∧ r1.dequeued = r.dequeued ∧
      Inv (2 ^ m) NDEBUG r1.queue (xs ++ vs) := by
  induction vs generalizing r xs with
  | nil => exact ⟨r, rfl, by simpa using hxs, rfl, by simpa using hinv⟩
  | cons v vs ih =>
    rcases inner_enqueue_spec hm1 hm hinv v true with ⟨q1, he, hinv1⟩ | ⟨_, hf⟩ | ⟨_, hf⟩
    · obtain ⟨r1, hr1, h1, h2, h3⟩ := ih
        { r with queue := q1, enqueued := r.enqueued ++ [v] } (xs ++ [v])
        (by show r.enqueued ++ [v] = r.dequeued ++ (xs ++ [v]); rw [hxs, List.append_assoc]) hinv1
      refine ⟨r1, ?_, ?_, h2, ?_⟩
      · simp only [List.map_cons, run, step, he]
        exact hr1
      · rw [h1]; simp
      · simpa using h3
    · cases hf
    · rw [hN] at hf; cases hf

/-- Dequeuing `k` times from a queue that holds at least `k` values delivers
the `k` oldest, in both builds. -/
theorem run_dequeues {m : Nat} {NDEBUG : Bool} (k : Nat) (r : Run T) (xs : List T)
    (hk : k ≤ xs.length) (hinv : Inv (2 ^ m) NDEBUG r.queue xs) :
    ∃ r1, run (2 ^ m) NDEBUG r (List.replicate k Op.dequeue) = .ok r1 ∧
      r1.dequeued = r.dequeued ++ xs.take k ∧ r1.enqueued = r.enqueued ∧
      Inv (2 ^ m) NDEBUG r1.queue (xs.drop k) := by
  induction k generalizing r xs with
  | zero => exact ⟨r, rfl, by simp, rfl, by simpa using hinv⟩
  | succ k ih =>
    rcases try_dequeue_spec r.result hinv with ⟨hnil, _⟩ | ⟨x, xs1, q1, hcons, he, hinv1⟩
    · rw [hnil] at hk; simp at hk
    · subst hcons
      obtain ⟨r1, hr1, h1, h2, h3⟩ := ih
        { r with queue := q1, result := x, dequeued := r.dequeued ++ [x] } xs1
        (by simpa using hk) hinv1
      refine ⟨r1, ?_, ?_, h2, ?_⟩
      · simp only [List.replicate_succ, run, step, he]
        exact hr1
      · rw [h1]; simp
      · simpa using h3

/-- FIFO order in a build with `NDEBUG`: enqueuing the values `vs` into a
fresh queue (size hint below `2 ^ 63`, allocations succeeding) and calling
`try_dequeue` `vs.length` times runs to the end and delivers `vs` in
order, whatever the initial capacity. -/
theorem drain_ndebug {m : Nat} {NDEBUG : Bool} (hN : NDEBUG = true) (hm1 : 1 ≤ m) (hm : m ≤ 62)
    {size : Nat} (hsize : size < 2 ^ 63) (result0 : T) (vs : List T) :
    ∃ r, session (2 ^ m) NDEBUG size result0
        (vs.map (fun v => Op.enqueue v true) ++ List.replicate vs.length Op.dequeue) = .ok r ∧
      r.dequeued = vs := by
  obtain ⟨q, hq, hinv⟩ := ctor_inv (T := T) m hm1 hm NDEBUG size hsize
  obtain ⟨r1, hr1, he1, hd1, hinv1⟩ := run_enqueues_ndebug hN hm1 hm vs
    { queue := q, result := result0, enqueued := [], dequeued := [] } [] rfl hinv
  obtain ⟨r2, hr2, hd2, _, _⟩ := run_dequeues vs.length r1 ([] ++ vs) (by simp) hinv1
  refine ⟨r2, ?_, ?_⟩
  · unfold session
    simp only [hq]
    rw [run_append _ _ _ _ hr1]
    exact hr2
  · rw [hd2, hd1]; simp

end ReaderWriterQueue
end sq

namespace sq
namespace ReaderWriterQueue
variable {T : Type}

theorem ctor_overflow (m : Nat) (hm1 : 1 ≤ m) (hm : m ≤ 62) (NDEBUG : Bool) (size : Nat)
    (h1 : 2 ^ 63 ≤ size) (h2 : size < WORD) :
    ctor (2 ^ m) NDEBUG size = .ok (noSlotQueue T) := by
  have hz := ceilToPow2_overflow size h1 h2
  have hfix := ceilToPow2_two_pow m (by omega)
  have h2 : 2 ≤ 2 ^ m := by
    calc 2 = 2 ^ 1 := by norm_num
      _ ≤ 2 ^ m := Nat.pow_le_pow_right (by omega) hm1
  unfold ctor
  rw [if_neg (by simp [hfix]), if_neg (by simp [h2])]
  simp only [hz]
  rw [if_neg (by omega)]
  rfl

/-- On the queue without slots `inner_enqueue` writes past the storage. -/
theorem inner_enqueue_noSlot (MAX_BLOCK_SIZE : Nat) (NDEBUG : Bool) (v : T) (allocOk : Bool) :
    inner_enqueue MAX_BLOCK_SIZE NDEBUG (noSlotQueue T) v allocOk = .error .badAccess := by
  unfold inner_enqueue
  simp [noSlotQueue, deref, Block.make_block, Block.forward, Block.construct_element_at_idx, WORD]

/-- On the queue without slots `try_dequeue` returns `false` and changes nothing. -/
theorem try_dequeue_noSlot (NDEBUG : Bool) (result : T) :
    try_dequeue NDEBUG (noSlotQueue T) result = .ok (false, noSlotQueue T, result) := by
  unfold try_dequeue
  simp [noSlotQueue, deref, writeAt, Block.make_block, Block.get_local_tail_from_tail]

theorem step_noSlot_enqueue (MAX_BLOCK_SIZE : Nat) (NDEBUG : Bool) (r0 : Run T)
    (hq : r0.queue = noSlotQueue T) (v : T) (allocOk : Bool) :
    step MAX_BLOCK_SIZE NDEBUG r0 (.enqueue v allocOk) = .error .badAccess := by
  have h := inner_enqueue_noSlot MAX_BLOCK_SIZE NDEBUG v allocOk
  unfold step
  dsimp only
  rw [hq, h]

theorem step_noSlot_dequeue (MAX_BLOCK_SIZE : Nat) (NDEBUG : Bool) (r0 : Run T)
    (hq : r0.queue = noSlotQueue T) :
    step MAX_BLOCK_SIZE NDEBUG r0 .dequeue = .ok r0 := by
  have h := try_dequeue_noSlot NDEBUG r0.result
  unfold step
  dsimp only
  rw [hq, h]
  dsimp only
  rw [← hq]

/-- A sequence of calls on the queue without slots that runs to its end has
enqueued and dequeued nothing: every `inner_enqueue` on it is an
out-of-bounds write, every `try_dequeue` returns `false`. -/
theorem run_noSlot (MAX_BLOCK_SIZE : Nat) (NDEBUG : Bool) (ops : List (Op T)) (r0 r : Run T)
    (hq : r0.queue = noSlotQueue T) (h : run MAX_BLOCK_SIZE NDEBUG r0 ops = .ok r) :
    r = r0 := by
  induction ops with
  | nil =>
    unfold run at h
    exact (Except.ok.inj h).symm
  | cons op ops ih =>
    unfold run at h
    cases op with
    | enqueue v allocOk =>
      rw [step_noSlot_enqueue MAX_BLOCK_SIZE NDEBUG r0 hq] at h
      exact Except.noConfusion h
    | dequeue =>
      rw [step_noSlot_dequeue MAX_BLOCK_SIZE NDEBUG r0 hq] at h
      exact ih h

/-- For a size hint of `2 ^ 63` or more a sequence of calls that runs to
its end leaves the constructed queue as it was and has enqueued and
dequeued nothing. -/
theorem session_overflow (m : Nat) (hm1 : 1 ≤ m) (hm : m ≤ 62) (NDEBUG : Bool) (size : Nat)
    (h1 : 2 ^ 63 ≤ size) (h2 : size < WORD) (result0 : T) (ops : List (Op T)) (r : Run T)
    (hs : session (2 ^ m) NDEBUG size result0 ops = .ok r) :
    r.queue = noSlotQueue T ∧ r.result = result0 ∧ r.enqueued = [] ∧ r.dequeued = [] := by
  unfold session at hs
  rw [ctor_overflow m hm1 hm NDEBUG size h1 h2] at hs
  have hr := run_noSlot (2 ^ m) NDEBUG ops _ r rfl hs
  rw [hr]
  exact ⟨rfl, rfl, rfl, rfl⟩

end ReaderWriterQueue
end sq

namespace sq
namespace ReaderWriterQueue
variable {T : Type}

/-- C1 (failing input).  Default template arguments, assertions enabled,
size hint 1: after `enqueue 1, enqueue 2, dequeue, dequeue, enqueue 3,
enqueue 4, enqueue 5` the call `inner_enqueue(6)` finds the tail block full
and the next block free, and stops at `assert(nextBlockTail != nextBlockFront)`:
the run does not deliver the value 6. -/
theorem fifo_run_stops_at_assertion :
    session 512 false 1 (0 : Nat)
      [.enqueue 1 true, .enqueue 2 true, .dequeue, .dequeue,
       .enqueue 3 true, .enqueue 4 true, .enqueue 5 true, .enqueue 6 true,
       .dequeue, .dequeue, .dequeue, .dequeue] = .error .assertion := by
  rfl

end ReaderWriterQueue
end sq

namespace sq
namespace ReaderWriterQueue
variable {T : Type}

/-- C3 (failing input).  Default template arguments, assertions enabled, size
hint 1: in the queue reached by `enqueue 1, enqueue 2, dequeue, dequeue,
enqueue 3, enqueue 4, enqueue 5` the call `inner_enqueue(6)` needs no
allocation (`allocOk = true` is not even consulted) and does not return
`true`: it stops at the assertion of the next-block branch. -/
theorem inner_enqueue_stops_at_assertion :
    ∃ r : Run Nat,
      session 512 false 1 (0 : Nat)
        [.enqueue 1 true, .enqueue 2 true, .dequeue, .dequeue,
         .enqueue 3 true, .enqueue 4 true, .enqueue 5 true] = .ok r ∧
      r.enqueued = [1, 2, 3, 4, 5] ∧ r.dequeued = [1, 2] ∧
      inner_enqueue 512 false r.queue 6 true = .error .assertion ∧
      inner_enqueue 512 false r.queue 6 false = .error .assertion :=
  ⟨_, rfl, rfl, rfl, rfl, rfl⟩

/-- C4.  When `inner_enqueue` returns `false` the allocation of a new block
was refused and the queue after the call is the queue before it: the same
heap of blocks with every cursor and cached cursor, the same `frontBlock`,
`tailBlock` and `largestBlockSize`; every later call therefore behaves as
if the failed call had not been made. -/
theorem inner_enqueue_false_unchanged (MAX_BLOCK_SIZE : Nat) (NDEBUG : Bool)
    (q q1 : ReaderWriterQueue T) (element : T) (allocOk : Bool)
    (h : inner_enqueue MAX_BLOCK_SIZE NDEBUG q element allocOk = .ok (false, q1)) :
    q1 = q ∧ allocOk = false :=
  ⟨(inner_enqueue_false h).1, (inner_enqueue_false h).2.1⟩

/-- Witness of C4: the queue constructed with size hint 1 holds one value
after the first enqueue, its block of capacity 2 is full, and the growth
the second enqueue needs is refused. -/
theorem inner_enqueue_false_unchanged_witness :
    session 512 false 1 (0 : Nat) [.enqueue 7 true] =
        .ok { queue := fullBlockQueue, result := 0, enqueued := [7], dequeued := [] } ∧
      inner_enqueue 512 false fullBlockQueue 8 false = .ok (false, fullBlockQueue) ∧
      (fullBlockQueue = fullBlockQueue ∧ false = false) :=
  ⟨rfl, rfl, inner_enqueue_false_unchanged 512 false fullBlockQueue fullBlockQueue 8 false rfl⟩

/-- C5 (failing input).  `MAX_BLOCK_SIZE = 2`, assertions enabled, size hint
`n = 4`: the constructor makes five blocks of capacity 2, and of the four
consecutive `inner_enqueue` calls the second one, which has to move to the
second block, stops at the assertion of the next-block branch. -/
theorem enqueue_hint_stops_at_assertion :
    (∃ q : ReaderWriterQueue Nat, ctor 2 false 4 = .ok q ∧
      q.blocks.map (fun b => b.data.length) = [2, 2, 2, 2, 2]) ∧
    session 2 false 4 (0 : Nat) [.enqueue 0 true] ≠ .error .assertion ∧
    session 2 false 4 (0 : Nat) [.enqueue 0 true, .enqueue 1 true] = .error .assertion ∧
    session 2 false 4 (0 : Nat)
      [.enqueue 0 true, .enqueue 1 true, .enqueue 2 true, .enqueue 3 true] = .error .assertion := by
  refine ⟨⟨_, rfl, rfl⟩, ?_, rfl, rfl⟩
  intro h
  cases h

/-- C6 (counterexample).  With the default `MAX_BLOCK_SIZE = 512` and size
hint 1023 the constructor makes one block of capacity 1024. -/
theorem ctor_block_above_max :
    ∃ q : ReaderWriterQueue Nat, ctor 512 false 1023 = .ok q ∧
      ∃ b ∈ q.blocks, b.data.length = 1024 ∧ 512 < b.data.length := by
  refine ⟨_, rfl, _, List.mem_singleton.mpr rfl, ?_, ?_⟩
  · show (List.replicate _ (none : Option Nat)).length = 1024
    rw [List.length_replicate]
    rfl
  · show 512 < (List.replicate _ (none : Option Nat)).length
    rw [List.length_replicate]
    decide

/-- C6 (amended).  Every block of a queue, whether made by the constructor
(for every size hint) or by the growth path of `inner_enqueue`, has
capacity at most `2 * MAX_BLOCK_SIZE`, and so has `largestBlockSize`. -/
theorem block_capacity_le_twice_max (MAX_BLOCK_SIZE : Nat) (NDEBUG : Bool) (size : Nat)
    (result0 : T) (ops : List (Op T)) (r : Run T)
    (h : session MAX_BLOCK_SIZE NDEBUG size result0 ops = .ok r) :
    (∀ b ∈ r.queue.blocks, b.data.length ≤ 2 * MAX_BLOCK_SIZE) ∧
      r.queue.largestBlockSize ≤ 2 * MAX_BLOCK_SIZE := by
  unfold session at h
  cases hc : ctor MAX_BLOCK_SIZE NDEBUG size (T := T) with
  | error e => rw [hc] at h; exact Except.noConfusion h
  | ok q =>
    rw [hc] at h
    exact run_cap ops h (ctor_cap hc)

/-- Witness of C6 (amended): size hint 1, three enqueues, the second and the
third of which allocate. -/
theorem block_capacity_le_twice_max_witness :
    ∃ r : Run Nat,
      session 512 false 1 (0 : Nat) [.enqueue 1 true, .enqueue 2 true, .enqueue 3 true] = .ok r ∧
      ((∀ b ∈ r.queue.blocks, b.data.length ≤ 2 * 512) ∧ r.queue.largestBlockSize ≤ 2 * 512) :=
  ⟨_, rfl, block_capacity_le_twice_max 512 false 1 (0 : Nat)
    [.enqueue 1 true, .enqueue 2 true, .enqueue 3 true] _ rfl⟩

end ReaderWriterQueue
end sq

namespace LockFreeStack4
variable {T : Type}

/-- C7 (failing input).  After `push(a); push(b)` two calls of `pop` both
return the null pointer, for every amount of loop fuel from 4 on: the
condition of the `if` in `pop` is `std::memory_order_relaxed`, which is
false, so no call takes the branch that returns the value. -/
theorem pop_after_pushes_returns_null (a b : T) (k : Nat) :
    ∃ s, popN (k + 4) 2 (pushAll ctor [a, b]) = .ok (s, [none, none]) :=
  ⟨_, rfl⟩

/-- C8 (failing input).  On a fresh stack `pop` returns the null pointer, and
on the stack that holds the one value `v` it returns the null pointer as
well (fuel 3 or more), although the stack is not empty. -/
theorem pop_nonempty_returns_null (v : T) (k : Nat) :
    (∃ s, pop (k + 1) (ctor : LockFreeStack4 T) = .ok (s, none)) ∧
    (push ctor v)._head.ptr = 1 ∧
    (∃ s, pop (k + 3) (push ctor v) = .ok (s, none)) :=
  ⟨⟨_, rfl⟩, rfl, ⟨_, rfl⟩⟩

/-- C9 (failing input).  After `push(v)` the call `pop` unlinks the node (the
head becomes null) and returns without deleting it: no address has been
given to `delete`, and the node is left with `internal_count = -1`, which
no later call can bring to the value that triggers the deletion because
the node is no longer reachable. -/
theorem pop_unlinks_without_delete (v : T) (k : Nat) :
    ∃ s, pop (k + 3) (push ctor v) = .ok (s, none) ∧
      s._head.ptr = 0 ∧ s.deleted = [] ∧
      s.nodes = [{ data := some v, internal_count := -1,
                   next := { external_count := 1, ptr := 0 } }] :=
  ⟨_, rfl, rfl, rfl, rfl⟩

end LockFreeStack4

namespace LockFreeQueue2
variable {T : Type}

/-- C10 (failing input).  The first `push` on a freshly constructed queue does
not return: the constructor leaves `_head` and `_tail` null, and `push`
dereferences `old_tail.ptr` (for every amount of loop fuel). -/
theorem push_on_fresh_dereferences_null (v : T) (k : Nat) :
    (ctor : LockFreeQueue2 T)._tail.ptr = 0 ∧
    push (k + 1) (ctor : LockFreeQueue2 T) v = .error .badAccess :=
  ⟨rfl, rfl⟩

end LockFreeQueue2

namespace LockFreeQueue2
variable {T : Type}

/-- C11 (failing input).  On a freshly constructed queue `_head` and `_tail`
hold the same null pointer, and `pop` does not return the empty signal: it
finds `ptr == _tail.load().ptr` and calls `ptr->release_ref()` on the null
pointer (for every amount of loop fuel). -/
theorem pop_on_fresh_dereferences_null (k : Nat) :
    (ctor : LockFreeQueue2 T)._head.ptr = (ctor : LockFreeQueue2 T)._tail.ptr ∧
    (ctor : LockFreeQueue2 T)._head.ptr = 0 ∧
    pop (k + 1) (ctor : LockFreeQueue2 T) = .error .badAccess :=
  ⟨rfl, rfl, rfl⟩

/-- C12 (failing input).  The constructor allocates no node: the heap of a
freshly constructed queue is empty, `_head` and `_tail` are null, and there
is no node at `_tail.ptr`. -/
theorem ctor_has_no_dummy_node :
    (ctor : LockFreeQueue2 T).nodes = [] ∧
    (ctor : LockFreeQueue2 T)._tail = { external_count := 0, ptr := 0 } ∧
    (ctor : LockFreeQueue2 T)._head = { external_count := 0, ptr := 0 } ∧
    node_at (ctor : LockFreeQueue2 T) (ctor : LockFreeQueue2 T)._tail.ptr = .error .badAccess :=
  ⟨rfl, rfl, rfl, rfl⟩

end LockFreeQueue2

namespace LockFreeStack4
variable {T : Type}

/-- C15 (failing input).  Two producers push `a` and `b`, scheduled one
after the other; draining the stack afterwards retrieves nothing: the
first `pop` already returns the empty signal, and it has unlinked both
nodes.  On `LockFreeQueue2` the first `push` of the first producer does
not return. -/
theorem drain_after_pushes_retrieves_nothing (a b : T) (k n : Nat) :
    (∃ s, drain (k + 4) (n + 1) (pushAll ctor [a, b]) = .ok (s, []) ∧ s._head.ptr = 0) ∧
    LockFreeQueue2.push (k + 1) (LockFreeQueue2.ctor : LockFreeQueue2 T) a = .error .badAccess :=
  ⟨⟨_, rfl, rfl⟩, rfl⟩

end LockFreeStack4

namespace sq
namespace ReaderWriterQueue

/-- C13 (failing input).  Build with `NDEBUG`, size hint 0: after `enqueue 1,
enqueue 2, dequeue, dequeue, enqueue 3, enqueue 4, enqueue 5, enqueue 6` the
queue holds 3, 4, 5, 6, the last of them in the first block, whose capacity
is one and whose cursors are equal.  The destructor visits and frees each
of the three blocks once, runs `~T()` on 3, 4 and 5 and leaves the slot of
6 alive in a freed block. -/
theorem dtor_misses_element (k : Nat) :
    ∃ (r : Run Nat) (d : Destruction Nat),
      session 512 true 0 (0 : Nat)
        [.enqueue 1 true, .enqueue 2 true, .dequeue, .dequeue,
         .enqueue 3 true, .enqueue 4 true, .enqueue 5 true, .enqueue 6 true] = .ok r ∧
      r.enqueued = [1, 2, 3, 4, 5, 6] ∧ r.dequeued = [1, 2] ∧
      dtor (k + 4) r.queue = .ok d ∧
      d.destroyed = [3, 4, 5] ∧ d.freed = [3, 1, 2] ∧
      d.blocks.map (fun b => b.data) = [[some 6], [none, none], [none, none, none, none]] :=
  ⟨_, _, rfl, rfl, rfl, rfl, rfl, rfl, rfl⟩

/-- C18 (counterexample).  Default template arguments, assertions enabled,
size hint 1: after `enqueue 1, enqueue 2, enqueue 3, enqueue 4, dequeue` the
front block (capacity 2) is empty, so the ring has free slots, and the
next `inner_enqueue` allocates a third block all the same, because the
tail block is full and its successor is the front block. -/
theorem allocates_while_front_block_has_room :
    ∃ (r : Run Nat) (fb : Block Nat) (q1 : ReaderWriterQueue Nat),
      session 512 false 1 (0 : Nat)
        [.enqueue 1 true, .enqueue 2 true, .enqueue 3 true, .enqueue 4 true, .dequeue] = .ok r ∧
      deref r.queue.blocks r.queue.frontBlock = .ok fb ∧
      fb.data = [none, none] ∧ fb.front = fb.tail ∧
      r.queue.blocks.length = 2 ∧
      inner_enqueue 512 false r.queue 5 true = .ok (true, q1) ∧
      q1.blocks.length = 3 :=
  ⟨_, _, _, rfl, rfl, rfl, rfl, rfl, rfl, rfl⟩

/-- C19 (failing input).  Default template arguments, assertions enabled,
size hint 1: in the state reached by `enqueue 1, enqueue 2, dequeue, dequeue,
enqueue 3, enqueue 4, enqueue 5` the tail block is full and its successor is
not the front block; the successor has `tail = front = 1`, so the asserted
`nextBlockTail != nextBlockFront` is false and `inner_enqueue` stops at it. -/
theorem next_block_assertion_fails :
    ∃ (r : Run Nat) (tb nb : Block Nat),
      session 512 false 1 (0 : Nat)
        [.enqueue 1 true, .enqueue 2 true, .dequeue, .dequeue,
         .enqueue 3 true, .enqueue 4 true, .enqueue 5 true] = .ok r ∧
      deref r.queue.blocks r.queue.tailBlock = .ok tb ∧
      tb.forward tb.tail = tb.front ∧ tb.next ≠ r.queue.frontBlock ∧
      deref r.queue.blocks tb.next = .ok nb ∧
      nb.tail = 1 ∧ nb.front = 1 ∧
      inner_enqueue 512 false r.queue 6 true = .error .assertion :=
  ⟨_, _, _, rfl, rfl, rfl, by decide, rfl, rfl, rfl, rfl⟩

end ReaderWriterQueue
end sq

namespace sq
namespace ReaderWriterQueue
variable {T : Type}

/-- The ways a call of `inner_enqueue` returns: the element is stored in the
tail block; or the tail block is full, its successor is not the front
block and the element is stored there; or the tail block is full, its
successor is the front block, and the allocation is refused or a new block
is spliced in after the tail block. -/
theorem inner_enqueue_cases {MAX_BLOCK_SIZE : Nat} {NDEBUG : Bool} {q q1 : ReaderWriterQueue T}
    {element : T} {allocOk r : Bool}
    (h : inner_enqueue MAX_BLOCK_SIZE NDEBUG q element allocOk = .ok (r, q1)) :
    ∃ tb, deref q.blocks q.tailBlock = .ok tb ∧
      ((∃ b2, r = true ∧ q1 = { q with blocks := writeAt q.blocks q.tailBlock b2 } ∧
          b2.next = tb.next ∧ b2.data.length = tb.data.length ∧ b2.size_mask = tb.size_mask) ∨
       (∃ nb b2, r = true ∧ tb.forward tb.tail = tb.local_front ∧ tb.forward tb.tail = tb.front ∧
          tb.next ≠ q.frontBlock ∧ deref q.blocks tb.next = .ok nb ∧
          q1 = { q with blocks := writeAt q.blocks tb.next b2, tailBlock := tb.next } ∧
          b2.next = nb.next ∧ b2.data.length = nb.data.length ∧ b2.size_mask = nb.size_mask) ∨
       (r = false ∧ allocOk = false ∧ q1 = q ∧ tb.forward tb.tail = tb.local_front ∧
          tb.forward tb.tail = tb.front ∧ tb.next = q.frontBlock) ∨
       (r = true ∧ allocOk = true ∧ tb.forward tb.tail = tb.local_front ∧
          tb.forward tb.tail = tb.front ∧ tb.next = q.frontBlock ∧
          ∃ size, size = (if q.largestBlockSize ≥ MAX_BLOCK_SIZE then q.largestBlockSize
              else (q.largestBlockSize * 2) % WORD) ∧ 0 < size ∧
            q1 = { blocks := writeAt q.blocks q.tailBlock { tb with next := q.blocks.length + 1 }
                      ++ [grownBlock size element tb.next],
                   frontBlock := q.frontBlock, tailBlock := q.blocks.length + 1,
                   largestBlockSize := size })) := by
  unfold inner_enqueue at h
  cases hdt : deref q.blocks q.tailBlock with
  | error e => simp [hdt] at h
  | ok tb =>
    refine ⟨tb, rfl, ?_⟩
    simp only [hdt] at h
    by_cases h1 : tb.forward tb.tail ≠ tb.local_front
    · rw [if_pos h1] at h
      cases hc : tb.construct_element_at_idx tb.tail element with
      | error e => simp [hc] at h
      | ok b1 =>
        simp only [hc] at h
        left
        obtain ⟨hr, hq⟩ := Prod.mk.inj (Except.ok.inj h)
        refine ⟨_, hr.symm, hq.symm, ?_, ?_, ?_⟩
        · unfold Block.construct_element_at_idx at hc
          split at hc
          · cases hc; rfl
          · cases hc
        · exact (construct_length hc : b1.data.length = tb.data.length)
        · unfold Block.construct_element_at_idx at hc
          split at hc
          · cases hc; rfl
          · cases hc
    · rw [if_neg h1] at h
      by_cases h2 : tb.forward tb.tail ≠ tb.get_local_front_from_front.local_front
      · rw [if_pos h2] at h
        cases hc : tb.get_local_front_from_front.construct_element_at_idx tb.tail element with
        | error e => simp [hc] at h
        | ok b1 =>
          simp only [hc] at h
          left
          obtain ⟨hr, hq⟩ := Prod.mk.inj (Except.ok.inj h)
          refine ⟨_, hr.symm, hq.symm, ?_, ?_, ?_⟩
          · unfold Block.construct_element_at_idx at hc
            split at hc
            · cases hc; rfl
            · cases hc
          · exact (construct_length hc : b1.data.length = tb.get_local_front_from_front.data.length)
          · unfold Block.construct_element_at_idx at hc
            split at hc
            · cases hc; rfl
            · cases hc
      · rw [if_neg h2] at h
        simp only [ne_eq, not_not] at h1 h2
        have h2a : tb.forward tb.tail = tb.front := h2
        have hself : tb.get_local_front_from_front = tb :=
          refresh_front_eq_self tb (by rw [← h1, h2a])
        have hq : writeAt q.blocks q.tailBlock tb = q.blocks := writeAt_self hdt
        simp only [hself, hq] at h
        right
        by_cases hnf : tb.next ≠ q.frontBlock
        · rw [if_pos hnf] at h
          left
          cases hdn : deref q.blocks tb.next with
          | error e => simp [hdn] at h
          | ok nb =>
            simp only [hdn] at h
            split at h
            · cases h
            · cases hc : nb.get_local_front_from_front.construct_element_at_idx
                  nb.get_local_front_from_front.tail element with
              | error e => simp [hc] at h
              | ok b1 =>
                simp only [hc] at h
                obtain ⟨hr, hq1⟩ := Prod.mk.inj (Except.ok.inj h)
                refine ⟨nb, _, hr.symm, h1, h2a, hnf, rfl, hq1.symm, ?_, ?_, ?_⟩
                · unfold Block.construct_element_at_idx at hc
                  split at hc
                  · cases hc; rfl
                  · cases hc
                · exact (construct_length hc : b1.data.length = nb.get_local_front_from_front.data.length)
                · unfold Block.construct_element_at_idx at hc
                  split at hc
                  · cases hc; rfl
                  · cases hc
        · rw [if_neg hnf] at h
          simp only [ne_eq, not_not] at hnf
          right
          cases hA : allocOk with
          | false =>
            simp only [hA] at h
            simp at h
            left
            exact ⟨h.1, rfl, h.2.symm, h1, h2a, hnf⟩
          | true =>
            right
            simp only [hA] at h
            generalize hsz : (if q.largestBlockSize ≥ MAX_BLOCK_SIZE then q.largestBlockSize
              else (q.largestBlockSize * 2) % WORD) = size at h
            by_cases hpos : 0 < size
            · have hc : (Block.make_block size : Block T).construct_element_at_idx 0 element
                  = .ok { (Block.make_block size : Block T) with
                          data := (Block.make_block size : Block T).data.set 0 (some element) } := by
                unfold Block.construct_element_at_idx
                rw [if_pos (by simp [Block.make_block, hpos])]
              simp only [hc] at h
              simp at h
              split at h
              · cases h
              · obtain ⟨hr, hq1⟩ := Prod.mk.inj (Except.ok.inj h)
                refine ⟨hr.symm, rfl, h1, h2a, hnf, size, rfl, hpos, ?_⟩
                rw [← hq1]
                rfl
            · have hc : (Block.make_block size : Block T).construct_element_at_idx 0 element
                  = .error .badAccess := by
                unfold Block.construct_element_at_idx
                rw [if_neg (by simp [Block.make_block]; omega)]
              simp only [hc] at h
              simp at h

end ReaderWriterQueue
end sq

namespace sq
namespace ReaderWriterQueue
variable {T : Type}

theorem dequeue_from_ok {q q1 : ReaderWriterQueue T} {p idx : Nat} {b : Block T} {r : Bool} {v : T}
    (h : dequeue_from q p b idx = .ok (r, q1, v)) :
    r = true ∧ b.data[idx]? = some (some v) ∧
      ∃ b2, q1 = { q with blocks := writeAt q.blocks p b2 } ∧ b2.next = b.next ∧
        b2.data.length = b.data.length ∧ b2.size_mask = b.size_mask := by
  unfold dequeue_from at h
  cases hm : b.move_out_element_at_idx idx with
  | error e => simp [hm] at h
  | ok res =>
    obtain ⟨v1, b1⟩ := res
    simp only [hm] at h
    have hlen := move_out_length hm
    unfold Block.move_out_element_at_idx at hm
    split at hm
    · rename_i v2 hslot
      obtain ⟨hv, hb⟩ := Prod.mk.inj (Except.ok.inj hm)
      obtain ⟨hr, hq, hv1⟩ : true = r ∧ _ = q1 ∧ v1 = v := by
        have := Except.ok.inj h
        simp only [Prod.mk.injEq] at this
        exact this
      subst hv hv1 hb
      exact ⟨hr.symm, hslot, _, hq.symm, rfl, hlen, rfl⟩
    · cases hm

/-- The ways a call of `try_dequeue` returns: `false` with nothing changed
when the front block is empty and is the tail block; an element of the
front block; or, the front block being empty and not the tail block, the
element at the front of the next block, which becomes the front block. -/
theorem try_dequeue_cases {NDEBUG : Bool} {q q1 : ReaderWriterQueue T} {result v : T} {r : Bool}
    (h : try_dequeue NDEBUG q result = .ok (r, q1, v)) :
    ∃ fb, deref q.blocks q.frontBlock = .ok fb ∧
      ((r = false ∧ q1 = q ∧ v = result ∧ fb.front = fb.local_tail ∧ fb.front = fb.tail ∧
          q.frontBlock = q.tailBlock) ∨
       (∃ b2, r = true ∧ fb.data[fb.front]? = some (some v) ∧
          q1 = { q with blocks := writeAt q.blocks q.frontBlock b2 } ∧
          b2.next = fb.next ∧ b2.data.length = fb.data.length ∧ b2.size_mask = fb.size_mask) ∨
       (∃ nb b2, r = true ∧ fb.front = fb.local_tail ∧ fb.front = fb.tail ∧
          q.frontBlock ≠ q.tailBlock ∧ deref q.blocks fb.next = .ok nb ∧
          (NDEBUG = false → nb.front ≠ nb.tail) ∧ nb.data[nb.front]? = some (some v) ∧
          q1 = { q with blocks := writeAt q.blocks fb.next b2, frontBlock := fb.next } ∧
          b2.next = nb.next ∧ b2.data.length = nb.data.length ∧ b2.size_mask = nb.size_mask)) := by
  unfold try_dequeue at h
  cases hdf : deref q.blocks q.frontBlock with
  | error e => simp [hdf] at h
  | ok fb =>
    refine ⟨fb, rfl, ?_⟩
    simp only [hdf] at h
    by_cases h1 : fb.front ≠ fb.local_tail
    · rw [if_pos h1] at h
      obtain ⟨hr, hslot, b2, hq, hn, hl, hmk⟩ := dequeue_from_ok h
      right; left
      exact ⟨b2, hr, hslot, hq, hn, hl, hmk⟩
    · rw [if_neg h1] at h
      by_cases h2 : fb.front ≠ fb.get_local_tail_from_tail.local_tail
      · rw [if_pos h2] at h
        obtain ⟨hr, hslot, b2, hq, hn, hl, hmk⟩ := dequeue_from_ok h
        right; left
        exact ⟨b2, hr, hslot, hq, hn, hl, hmk⟩
      · rw [if_neg h2] at h
        simp only [ne_eq, not_not] at h1 h2
        have h2a : fb.front = fb.tail := h2
        have hself : fb.get_local_tail_from_tail = fb :=
          refresh_tail_eq_self fb (by rw [← h1, h2a])
        have hq : writeAt q.blocks q.frontBlock fb = q.blocks := writeAt_self hdf
        simp only [hself, hq] at h
        by_cases hft : q.frontBlock ≠ q.tailBlock
        · rw [if_pos hft, if_neg (by simp [h1])] at h
          right; right
          cases hdn : deref q.blocks fb.next with
          | error e => simp [hdn] at h
          | ok nb =>
            simp only [hdn] at h
            split at h
            · cases h
            · rename_i hassert
              obtain ⟨hr, hslot, b2, hq1, hn, hl, hmk⟩ := dequeue_from_ok h
              refine ⟨nb, b2, hr, h1, h2a, hft, rfl, ?_, hslot, hq1, hn, hl, hmk⟩
              intro hN hft2
              apply hassert
              subst hN
              simp [Block.get_local_tail_from_tail, hft2]
        · rw [if_neg hft] at h
          simp only [ne_eq, not_not] at hft
          left
          obtain ⟨hr, hq1, hv⟩ : false = r ∧ _ = q1 ∧ result = v := by
            have := Except.ok.inj h
            simp only [Prod.mk.injEq] at this
            exact this
          refine ⟨hr.symm, ?_, hv.symm, h1, h2a, hft⟩
          rw [← hq1]

end ReaderWriterQueue
end sq

namespace sq
namespace ReaderWriterQueue
variable {T : Type}

/-- C17.  For `MAX_BLOCK_SIZE` up to `2 ^ 63` and every queue state: a call of
`inner_enqueue` that returns with one more block on the heap has returned
`true`; the capacity `C` of the new block is `2 * L` if
`L < MAX_BLOCK_SIZE` and `L` otherwise, `L` being `largestBlockSize` before
the call; the new block has `front = 0`, `tail = 1`, the element in slot 0
and no other live slot; its `next` is the former `next` of the old tail
block, whose `next` now is the new block and which is otherwise unchanged,
as are all other blocks; the new block is `tailBlock`, `frontBlock` is
unchanged, and `largestBlockSize` is `C`. -/
theorem growth_splices_new_block (MAX_BLOCK_SIZE : Nat) (NDEBUG : Bool)
    (q q1 : ReaderWriterQueue T) (element : T) (allocOk r : Bool)
    (hMAX : MAX_BLOCK_SIZE ≤ 2 ^ 63)
    (h : inner_enqueue MAX_BLOCK_SIZE NDEBUG q element allocOk = .ok (r, q1))
    (halloc : q1.blocks.length ≠ q.blocks.length) :
    ∃ (tb nb : Block T) (C : Nat),
      C = (if q.largestBlockSize < MAX_BLOCK_SIZE then 2 * q.largestBlockSize
           else q.largestBlockSize) ∧
      r = true ∧ deref q.blocks q.tailBlock = .ok tb ∧
      q1.blocks.length = q.blocks.length + 1 ∧
      q1.tailBlock = q.blocks.length + 1 ∧ q1.frontBlock = q.frontBlock ∧
      q1.largestBlockSize = C ∧
      deref q1.blocks q1.tailBlock = .ok nb ∧
      nb.data.length = C ∧ nb.size_mask = (C + WORD - 1) % WORD ∧
      nb.front = 0 ∧ nb.tail = 1 ∧
      nb.data = (List.replicate C none).set 0 (some element) ∧
      nb.next = tb.next ∧
      deref q1.blocks q.tailBlock = .ok { tb with next := q1.tailBlock } ∧
      ∀ p b, p ≠ q.tailBlock → deref q.blocks p = .ok b → deref q1.blocks p = .ok b := by
  obtain ⟨tb, hdt, hcase⟩ := inner_enqueue_cases h
  have ht := deref_le_length hdt
  rcases hcase with ⟨b2, _, hq, _⟩ | ⟨nb, b2, _, _, _, _, _, hq, _⟩ | ⟨_, _, hq, _⟩ |
      ⟨hr, _, _, _, _, size, hsize, hpos, hq⟩
  · exact absurd (by rw [hq]; exact writeAt_length _ _ _) halloc
  · exact absurd (by rw [hq]; exact writeAt_length _ _ _) halloc
  · exact absurd (by rw [hq]) halloc
  · have hC : size = (if q.largestBlockSize < MAX_BLOCK_SIZE then 2 * q.largestBlockSize
           else q.largestBlockSize) := by
      rw [hsize]
      by_cases hge : q.largestBlockSize ≥ MAX_BLOCK_SIZE
      · rw [if_pos hge, if_neg (by omega)]
      · rw [if_neg hge, if_pos (by omega)]
        have hW : WORD = 2 ^ 64 := rfl
        rw [Nat.mod_eq_of_lt (by rw [hW]; omega)]
        omega
    have hlen : (writeAt q.blocks q.tailBlock { tb with next := q.blocks.length + 1 }).length
        = q.blocks.length := writeAt_length _ _ _
    have hnew : deref q1.blocks (q.blocks.length + 1) = .ok (grownBlock size element tb.next) := by
      rw [hq]
      have := deref_append_new (writeAt q.blocks q.tailBlock { tb with next := q.blocks.length + 1 })
        (grownBlock size element tb.next)
      rw [hlen] at this
      exact this
    have htl : q1.tailBlock = q.blocks.length + 1 := by rw [hq]
    refine ⟨tb, grownBlock size element tb.next, size, hC, hr, hdt, ?_, htl, ?_, ?_, ?_, ?_, rfl,
      rfl, rfl, rfl, rfl, ?_, ?_⟩
    · rw [hq]
      show (writeAt q.blocks q.tailBlock { tb with next := q.blocks.length + 1 }
        ++ [grownBlock size element tb.next]).length = _
      rw [List.length_append, hlen]
      rfl
    · rw [hq]
    · rw [hq]
    · rw [htl]
      exact hnew
    · simp [grownBlock]
    · rw [htl, hq]
      exact deref_append _ (deref_writeAt_same _ hdt)
    · intro p b hp hd
      have hp0 := deref_le_length hd
      rw [hq]
      show deref (writeAt q.blocks q.tailBlock { tb with next := q.blocks.length + 1 }
        ++ [grownBlock size element tb.next]) p = _
      apply deref_append
      rw [deref_writeAt_ne _ _ (by omega) (by omega) hp]
      exact hd

/-- Witness of C17: the queue with one full block of capacity 2 grows by a
block of capacity 4. -/
theorem growth_splices_new_block_witness :
    512 ≤ 2 ^ 63 ∧
    ∃ q1 : ReaderWriterQueue Nat,
      inner_enqueue 512 false fullBlockQueue 8 true = .ok (true, q1) ∧
      q1.blocks.length ≠ fullBlockQueue.blocks.length ∧
      ∃ (tb nb : Block Nat) (C : Nat),
        C = (if fullBlockQueue.largestBlockSize < 512 then 2 * fullBlockQueue.largestBlockSize
             else fullBlockQueue.largestBlockSize) ∧
        true = true ∧ deref fullBlockQueue.blocks fullBlockQueue.tailBlock = .ok tb ∧
        q1.blocks.length = fullBlockQueue.blocks.length + 1 ∧
        q1.tailBlock = fullBlockQueue.blocks.length + 1 ∧
        q1.frontBlock = fullBlockQueue.frontBlock ∧
        q1.largestBlockSize = C ∧
        deref q1.blocks q1.tailBlock = .ok nb ∧
        nb.data.length = C ∧ nb.size_mask = (C + WORD - 1) % WORD ∧
        nb.front = 0 ∧ nb.tail = 1 ∧
        nb.data = (List.replicate C none).set 0 (some 8) ∧
        nb.next = tb.next ∧
        deref q1.blocks fullBlockQueue.tailBlock = .ok { tb with next := q1.tailBlock } ∧
        ∀ p b, p ≠ fullBlockQueue.tailBlock → deref fullBlockQueue.blocks p = .ok b →
          deref q1.blocks p = .ok b :=
  ⟨by decide, _, rfl, by decide,
    growth_splices_new_block 512 false fullBlockQueue _ 8 true true (by decide) rfl (by decide)⟩

end ReaderWriterQueue
end sq

namespace sq
namespace ReaderWriterQueue
variable {T : Type}

theorem construct_ok {b b1 : Block T} {idx : Nat} {t : T}
    (h : b.construct_element_at_idx idx t = .ok b1) :
    idx < b.data.length ∧ b1 = { b with data := b.data.set idx (some t) } := by
  unfold Block.construct_element_at_idx at h
  split at h
  · rename_i hlt
    exact ⟨hlt, (Except.ok.inj h).symm⟩
  · cases h

/-- On a queue that satisfies the invariant and whose tail block has room,
`inner_enqueue` stores the element in the tail block. -/
theorem inner_enqueue_in_place {m : Nat} {NDEBUG : Bool} {q : ReaderWriterQueue T}
    {xs : List T} (hinv : Inv (2 ^ m) NDEBUG q xs) (v : T) (allocOk : Bool) {tb : Block T}
    (hdt : deref q.blocks q.tailBlock = .ok tb) (hroom : tb.forward tb.tail ≠ tb.front) :
    ∃ q1 tb1, inner_enqueue (2 ^ m) NDEBUG q v allocOk = .ok (true, q1) ∧
      Inv (2 ^ m) NDEBUG q1 (xs ++ [v]) ∧
      q1.blocks.length = q.blocks.length ∧ q1.tailBlock = q.tailBlock ∧
      q1.frontBlock = q.frontBlock ∧ q1.largestBlockSize = q.largestBlockSize ∧
      deref q1.blocks q1.tailBlock = .ok tb1 ∧ tb1.data[tb.tail]? = some (some v) ∧
      tb1.tail = tb.forward tb.tail := by
  obtain ⟨tb0, ct, hdt0, hrt, hplace, _, _⟩ := hinv.producer_view
  rw [hdt] at hdt0
  obtain rfl : tb = tb0 := Except.ok.inj hdt0
  by_cases h1 : tb.forward tb.tail ≠ tb.local_front
  · obtain ⟨b1, hb1, hnx, _, hrep⟩ := Block.Rep.put v (hrt.normal_of_room h1) h1
    obtain ⟨hidx, hb1eq⟩ := construct_ok hb1
    refine ⟨{ q with blocks := writeAt q.blocks q.tailBlock { b1 with tail := tb.forward tb.tail } },
      { b1 with tail := tb.forward tb.tail }, ?_,
      hplace v { b1 with tail := tb.forward tb.tail } hnx hrep, writeAt_length _ _ _, rfl, rfl, rfl,
      deref_writeAt_same _ hdt, ?_, rfl⟩
    · unfold inner_enqueue
      simp only [hdt]
      rw [if_pos h1]
      simp only [hb1]
    · show b1.data[tb.tail]? = some (some v)
      rw [hb1eq]
      show (tb.data.set tb.tail (some v))[tb.tail]? = _
      rw [List.getElem?_set_self hidx]
  · have hrt1 := hrt.refresh_front
    have h2a : tb.get_local_front_from_front.forward tb.get_local_front_from_front.tail
        ≠ tb.get_local_front_from_front.local_front := hroom
    obtain ⟨b1, hb1, hnx, _, hrep⟩ := Block.Rep.put v (hrt1.normal_of_room h2a) h2a
    have hb2 : tb.get_local_front_from_front.construct_element_at_idx tb.tail v = .ok b1 := hb1
    obtain ⟨hidx, hb1eq⟩ := construct_ok hb2
    refine ⟨{ q with blocks := writeAt q.blocks q.tailBlock { b1 with tail := tb.forward tb.tail } },
      { b1 with tail := tb.forward tb.tail }, ?_,
      hplace v { b1 with tail := tb.forward tb.tail } hnx hrep, writeAt_length _ _ _, rfl, rfl, rfl,
      deref_writeAt_same _ hdt, ?_, rfl⟩
    · unfold inner_enqueue
      simp only [hdt]
      rw [if_neg h1, if_pos (show tb.forward tb.tail ≠ tb.get_local_front_from_front.local_front
        from hroom)]
      simp only [hb2]
    · show b1.data[tb.tail]? = some (some v)
      rw [hb1eq]
      exact List.getElem?_set_self hidx

/-- C18 (amended).  In every state reached by a sequence of calls (size hint
below `2 ^ 63`, both builds): a call of `inner_enqueue` that returns with
one more block on the heap found the tail block full and the successor of
the tail block to be the front block; and when the tail block has a free
slot, `inner_enqueue` returns `true` having stored the element in that
slot, with the same blocks and the same tail block as before. -/
theorem allocates_only_when_tail_full (m : Nat) (hm1 : 1 ≤ m) (hm : m ≤ 62) (NDEBUG : Bool)
    (size : Nat) (hsize : size < 2 ^ 63) (result0 : T) (ops : List (Op T)) (r : Run T)
    (hs : session (2 ^ m) NDEBUG size result0 ops = .ok r) (v : T) (allocOk : Bool) :
    (∀ b q1, inner_enqueue (2 ^ m) NDEBUG r.queue v allocOk = .ok (b, q1) →
      q1.blocks.length ≠ r.queue.blocks.length →
      ∃ tb, deref r.queue.blocks r.queue.tailBlock = .ok tb ∧
        tb.forward tb.tail = tb.front ∧ tb.next = r.queue.frontBlock) ∧
    (∀ tb, deref r.queue.blocks r.queue.tailBlock = .ok tb → tb.forward tb.tail ≠ tb.front →
      ∃ q1 tb1, inner_enqueue (2 ^ m) NDEBUG r.queue v allocOk = .ok (true, q1) ∧
        q1.blocks.length = r.queue.blocks.length ∧ q1.tailBlock = r.queue.tailBlock ∧
        deref q1.blocks q1.tailBlock = .ok tb1 ∧ tb1.data[tb.tail]? = some (some v) ∧
        tb1.tail = tb.forward tb.tail) := by
  constructor
  · intro b q1 h halloc
    obtain ⟨tb, hdt, hcase⟩ := inner_enqueue_cases h
    refine ⟨tb, hdt, ?_⟩
    rcases hcase with ⟨b2, _, hq, _⟩ | ⟨nb, b2, _, _, _, _, _, hq, _⟩ | ⟨_, _, hq, _⟩ |
        ⟨_, _, _, hfull, hnf, _⟩
    · exact absurd (by rw [hq]; exact writeAt_length _ _ _) halloc
    · exact absurd (by rw [hq]; exact writeAt_length _ _ _) halloc
    · exact absurd (by rw [hq]) halloc
    · exact ⟨hfull, hnf⟩
  · intro tb hdt hroom
    obtain ⟨xs, _, hinv⟩ := session_inv hm1 hm hsize result0 ops hs
    obtain ⟨q1, tb1, he, _, hl, ht, _, _, hd1, hslot, htail⟩ :=
      inner_enqueue_in_place hinv v allocOk hdt hroom
    exact ⟨q1, tb1, he, hl, ht, hd1, hslot, htail⟩

/-- Witness of C18 (amended): the default `MAX_BLOCK_SIZE`, assertions
enabled, size hint 3, after one enqueue. -/
theorem allocates_only_when_tail_full_witness :
    1 ≤ 9 ∧ 9 ≤ 62 ∧ 3 < 2 ^ 63 ∧
    ∃ r : Run Nat, session (2 ^ 9) false 3 (0 : Nat) [.enqueue 1 true] = .ok r ∧
      ((∀ b q1, inner_enqueue (2 ^ 9) false r.queue 2 true = .ok (b, q1) →
        q1.blocks.length ≠ r.queue.blocks.length →
        ∃ tb, deref r.queue.blocks r.queue.tailBlock = .ok tb ∧
          tb.forward tb.tail = tb.front ∧ tb.next = r.queue.frontBlock) ∧
      (∀ tb, deref r.queue.blocks r.queue.tailBlock = .ok tb → tb.forward tb.tail ≠ tb.front →
        ∃ q1 tb1, inner_enqueue (2 ^ 9) false r.queue 2 true = .ok (true, q1) ∧
          q1.blocks.length = r.queue.blocks.length ∧ q1.tailBlock = r.queue.tailBlock ∧
          deref q1.blocks q1.tailBlock = .ok tb1 ∧ tb1.data[tb.tail]? = some (some 2) ∧
          tb1.tail = tb.forward tb.tail)) :=
  ⟨by decide, by decide, by decide, _, rfl,
    allocates_only_when_tail_full 9 (by decide) (by decide) false 3 (by decide) (0 : Nat)
      [.enqueue 1 true] _ rfl 2 true⟩

end ReaderWriterQueue
end sq


theorem deref_map {α β : Type} (f : α → β) {h : List α} {p : Nat} {b : α}
    (hd : deref h p = .ok b) : deref (h.map f) p = .ok (f b) := by
  rw [deref_ok_iff] at hd ⊢
  refine ⟨hd.1, ?_⟩
  rw [List.getElem?_map, hd.2]
  rfl

theorem map_writeAt {α β : Type} (f : α → β) {h : List α} {p : Nat} {b b2 : α}
    (hd : deref h p = .ok b) (hf : f b2 = f b) : (writeAt h p b2).map f = h.map f := by
  have h1 : (writeAt h p b2).map f = writeAt (h.map f) p (f b2) := by
    unfold writeAt
    rw [List.map_set]
  rw [h1, hf]
  exact writeAt_self (deref_map f hd)

namespace sq
namespace ReaderWriterQueue
variable {T : Type}

theorem Reach.trans {h : List (Block T)} {a b c : Nat} (h1 : Reach h a b) (h2 : Reach h b c) :
    Reach h a c := by
  induction h2 with
  | refl => exact h1
  | step _ hd ih => exact Reach.step ih hd

/-- Reachability survives a change of the heap that keeps every `next`. -/
theorem Reach.mono {h h1 : List (Block T)} {a x : Nat}
    (hk : ∀ p b, deref h p = .ok b → ∃ b1, deref h1 p = .ok b1 ∧ b1.next = b.next)
    (hr : Reach h a x) : Reach h1 a x := by
  induction hr with
  | refl => exact Reach.refl
  | step _ hd ih =>
    obtain ⟨b1, hd1, hn⟩ := hk _ _ hd
    rw [← hn]
    exact Reach.step ih hd1

/-- Writing a block with the same `next` keeps every `next` of the heap. -/
theorem keeps_next_writeAt {h : List (Block T)} {t : Nat} {tb b2 : Block T}
    (hdt : deref h t = .ok tb) (hn : b2.next = tb.next) :
    ∀ p b, deref h p = .ok b → ∃ b1, deref (writeAt h t b2) p = .ok b1 ∧ b1.next = b.next := by
  intro p b hd
  have ht := deref_le_length hdt
  have hp := deref_le_length hd
  by_cases hpt : p = t
  · subst hpt
    rw [hdt] at hd
    obtain rfl : tb = b := Except.ok.inj hd
    exact ⟨b2, deref_writeAt_same _ hdt, hn⟩
  · exact ⟨b, by rw [deref_writeAt_ne _ _ (by omega) (by omega) hpt]; exact hd, rfl⟩

/-- Reachability survives the splice of a new block after the block at `t`. -/
theorem Reach.splice {h : List (Block T)} {a x t : Nat} {tb g : Block T}
    (hdt : deref h t = .ok tb) (hg : g.next = tb.next) (hr : Reach h a x) :
    Reach (writeAt h t { tb with next := h.length + 1 } ++ [g]) a x := by
  have ht := deref_le_length hdt
  have hlen : (writeAt h t { tb with next := h.length + 1 }).length = h.length :=
    writeAt_length _ _ _
  induction hr with
  | refl => exact Reach.refl
  | @step p b _ hd ih =>
    have hp := deref_le_length hd
    by_cases hpt : p = t
    · subst hpt
      rw [hdt] at hd
      obtain rfl : tb = b := Except.ok.inj hd
      have h1 : deref (writeAt h p { tb with next := h.length + 1 } ++ [g]) p
          = .ok { tb with next := h.length + 1 } :=
        deref_append _ (deref_writeAt_same _ hdt)
      have h2 : deref (writeAt h p { tb with next := h.length + 1 } ++ [g]) (h.length + 1)
          = .ok g := by
        have := deref_append_new (writeAt h p { tb with next := h.length + 1 }) g
        rw [hlen] at this
        exact this
      rw [← hg]
      exact Reach.step (Reach.step ih h1) h2
    · have h1 : deref (writeAt h t { tb with next := h.length + 1 } ++ [g]) p = .ok b := by
        apply deref_append
        rw [deref_writeAt_ne _ _ (by omega) (by omega) hpt]
        exact hd
      exact Reach.step ih h1

/-- Following a chain reaches its end and every block on it. -/
theorem Chain.reach {over : Bool} {h : List (Block T)} {l : List (Nat × List T)} {a z : Nat}
    (hc : Chain over h a l z) : Reach h a z ∧ ∀ x ∈ l.map Prod.fst, Reach h a x := by
  induction l generalizing a with
  | nil =>
    have : a = z := hc
    subst this
    exact ⟨Reach.refl, fun x hx => absurd hx (List.not_mem_nil x)⟩
  | cons e l ih =>
    obtain ⟨p, c⟩ := e
    obtain ⟨hap, b, hd, _, hrest⟩ := hc
    subst hap
    obtain ⟨hz, hall⟩ := ih hrest
    have hstep : Reach h a b.next := Reach.step Reach.refl hd
    refine ⟨hstep.trans hz, ?_⟩
    intro x hx
    simp only [List.map_cons, List.mem_cons] at hx
    rcases hx with hx | hx
    · rw [hx]; exact Reach.refl
    · exact hstep.trans (hall x hx)

/-- The successor of a block of a chain is on the chain or is its end. -/
theorem Chain.next_mem {over : Bool} {h : List (Block T)} {l : List (Nat × List T)} {a z p : Nat}
    {b : Block T} (hc : Chain over h a l z) (hp : p ∈ l.map Prod.fst) (hd : deref h p = .ok b) :
    b.next ∈ l.map Prod.fst ∨ b.next = z := by
  induction l generalizing a with
  | nil => exact absurd hp (List.not_mem_nil p)
  | cons e l ih =>
    obtain ⟨p0, c⟩ := e
    obtain ⟨hap, b0, hd0, _, hrest⟩ := hc
    simp only [List.map_cons, List.mem_cons] at hp
    have hhead : b0.next ∈ (l.map Prod.fst) ∨ b0.next = z := by
      cases l with
      | nil => right; exact hrest
      | cons e1 l1 =>
        left
        obtain ⟨p1, c1⟩ := e1
        obtain ⟨h1, _⟩ := hrest
        rw [h1]
        simp
    by_cases hpp : p = p0
    · subst hpp
      rw [hd0] at hd
      obtain rfl : b0 = b := Except.ok.inj hd
      rcases hhead with hh | hh
      · left; simp only [List.map_cons, List.mem_cons]; right; exact hh
      · right; exact hh
    · rcases hp with hp | hp
      · exact absurd hp hpp
      · rcases ih hrest hp with hh | hh
        · left; simp only [List.map_cons, List.mem_cons]; right; exact hh
        · right; exact hh

/-- On a closed chain everything reached from its start is on the chain. -/
theorem Chain.reach_mem {over : Bool} {h : List (Block T)} {l : List (Nat × List T)} {a x : Nat}
    (hc : Chain over h a l a) (hl : l ≠ []) (hr : Reach h a x) : x ∈ l.map Prod.fst := by
  have hhead : a ∈ l.map Prod.fst := by
    cases l with
    | nil => exact absurd rfl hl
    | cons e l1 =>
      obtain ⟨p, c⟩ := e
      obtain ⟨h1, _⟩ := hc
      rw [h1]
      simp
  induction hr with
  | refl => exact hhead
  | step _ hd ih =>
    rcases Chain.next_mem hc ih hd with hh | hh
    · exact hh
    · rw [hh]; exact hhead

end ReaderWriterQueue
end sq

namespace sq
namespace ReaderWriterQueue
variable {T : Type}

theorem Extends.refl (q : ReaderWriterQueue T) : Extends q q :=
  ⟨⟨[], by simp⟩, fun _ h => h, le_refl _⟩

/-- A block is overwritten by one with the same capacity and `next`, and
`frontBlock` is kept. -/
theorem Extends.of_writeAt {q : ReaderWriterQueue T} {t tailBlock : Nat} {tb b2 : Block T}
    (hdt : deref q.blocks t = .ok tb) (hn : b2.next = tb.next)
    (hl : b2.data.length = tb.data.length) (hm : b2.size_mask = tb.size_mask) :
    Extends q { q with blocks := writeAt q.blocks t b2, tailBlock := tailBlock } := by
  have hk := keeps_next_writeAt hdt hn
  refine ⟨⟨[], ?_⟩, ?_, le_refl _⟩
  · rw [List.append_nil]
    exact map_writeAt Block.shape hdt (by simp [Block.shape, hl, hm])
  · rintro p ⟨hr, b, hd⟩
    obtain ⟨b1, hd1, _⟩ := hk p b hd
    exact ⟨Reach.mono hk hr, b1, hd1⟩

/-- A call of `inner_enqueue` that returns keeps every block with its
capacity and on the ring (`MAX_BLOCK_SIZE` up to `2 ^ 63`, every state). -/
theorem inner_enqueue_extends {MAX_BLOCK_SIZE : Nat} {NDEBUG : Bool} {q q1 : ReaderWriterQueue T}
    {element : T} {allocOk r : Bool} (hMAX : MAX_BLOCK_SIZE ≤ 2 ^ 63)
    (h : inner_enqueue MAX_BLOCK_SIZE NDEBUG q element allocOk = .ok (r, q1)) :
    Extends q q1 := by
  obtain ⟨tb, hdt, hcase⟩ := inner_enqueue_cases h
  have ht := deref_le_length hdt
  rcases hcase with ⟨b2, _, hq, hn, hl, hm⟩ | ⟨nb, b2, _, _, _, _, hdn, hq, hn, hl, hm⟩ |
      ⟨_, _, hq, _⟩ | ⟨_, _, _, _, _, size, hsize, hpos, hq⟩
  · rw [hq]
    exact Extends.of_writeAt hdt hn hl hm
  · rw [hq]
    exact Extends.of_writeAt hdn hn hl hm
  · rw [hq]
    exact Extends.refl q
  · rw [hq]
    refine ⟨⟨[(grownBlock size element tb.next).shape], ?_⟩, ?_, ?_⟩
    · show (writeAt q.blocks q.tailBlock { tb with next := q.blocks.length + 1 }
        ++ [grownBlock size element tb.next]).map Block.shape = _
      rw [List.map_append, map_writeAt Block.shape hdt
        (show Block.shape { tb with next := q.blocks.length + 1 } = Block.shape tb from rfl)]
      rfl
    · rintro p ⟨hr, b, hd⟩
      refine ⟨Reach.splice hdt rfl hr, ?_⟩
      have hp := deref_le_length hd
      by_cases hpt : p = q.tailBlock
      · rw [hpt]
        exact ⟨_, deref_append _ (deref_writeAt_same _ hdt)⟩
      · refine ⟨b, deref_append _ ?_⟩
        rw [deref_writeAt_ne _ _ (by omega) (by omega) hpt]
        exact hd
    · show q.largestBlockSize ≤ size
      rw [hsize]
      by_cases hge : q.largestBlockSize ≥ MAX_BLOCK_SIZE
      · rw [if_pos hge]
      · rw [if_neg hge]
        have hW : WORD = 2 ^ 64 := rfl
        rw [Nat.mod_eq_of_lt (by rw [hW]; omega)]
        omega

/-- A call of `try_dequeue` on a queue that satisfies the invariant keeps
every block with its capacity and on the ring. -/
theorem try_dequeue_extends {MAX_BLOCK_SIZE : Nat} {NDEBUG : Bool} {q q1 : ReaderWriterQueue T}
    {xs : List T} {result v : T} {r : Bool} (hinv : Inv MAX_BLOCK_SIZE NDEBUG q xs)
    (h : try_dequeue NDEBUG q result = .ok (r, q1, v)) :
    Extends q q1 := by
  obtain ⟨fb, hdf, hcase⟩ := try_dequeue_cases h
  rcases hcase with ⟨_, hq, _⟩ | ⟨b2, _, _, hq, hn, hl, hm⟩ |
      ⟨nb, b2, _, _, _, _, hdn, _, _, hq, hn, hl, hm⟩
  · rw [hq]
    exact Extends.refl q
  · rw [hq]
    exact Extends.of_writeAt hdf hn hl hm
  · rw [hq]
    have hk := keeps_next_writeAt hdn hn
    refine ⟨⟨[], ?_⟩, ?_, le_refl _⟩
    · rw [List.append_nil]
      exact map_writeAt Block.shape hdn (by simp [Block.shape, hl, hm])
    · rintro p ⟨hr, b, hd⟩
      obtain ⟨b1, hd1, _⟩ := hk p b hd
      refine ⟨Reach.mono hk ?_, b1, hd1⟩
      show Reach q.blocks fb.next p
      obtain ⟨init, ct, post, hchain, _⟩ := hinv
      have hmem := Chain.reach_mem hchain (by simp) hr
      generalize init ++ (q.tailBlock, ct) :: post = l at hchain hmem
      cases l with
      | nil => exact absurd hmem (List.not_mem_nil p)
      | cons e l1 =>
        obtain ⟨p0, c0⟩ := e
        obtain ⟨hp0, b0, hd0, _, hrest⟩ := hchain
        subst hp0
        rw [hdf] at hd0
        obtain rfl : fb = b0 := Except.ok.inj hd0
        obtain ⟨hz, hall⟩ := Chain.reach hrest
        simp only [List.map_cons, List.mem_cons] at hmem
        rcases hmem with hmem | hmem
        · rw [hmem]; exact hz
        · exact hall p hmem

end ReaderWriterQueue
end sq

namespace sq
namespace ReaderWriterQueue
variable {T : Type}

theorem all_writeAt {P : Nat → Prop} {h : List (Block T)} {p : Nat} {x : Block T}
    (hh : ∀ b ∈ h, P b.data.length) (hx : P x.data.length) :
    ∀ b ∈ writeAt h p x, P b.data.length := by
  intro b hb
  rcases mem_writeAt hb with h1 | h1
  · rw [h1]; exact hx
  · exact hh b h1

theorem ctorStep_all {P : Nat → Prop} {L : Nat} (hL : P L) (st : CtorLoop T)
    (hst : ∀ b ∈ st.blocks, P b.data.length) :
    ∀ b ∈ (ctorStep L st).blocks, P b.data.length := by
  have h0 : ∀ b ∈ st.blocks ++ [(Block.make_block L : Block T)], P b.data.length := by
    intro b hb
    simp only [List.mem_append, List.mem_singleton] at hb
    rcases hb with hb | hb
    · exact hst b hb
    · rw [hb]; simpa [Block.make_block] using hL
  have h1 : ∀ b ∈ (if st.firstBlock = 0 then st.blocks ++ [(Block.make_block L : Block T)]
      else match deref (st.blocks ++ [(Block.make_block L : Block T)]) st.lastBlock with
        | .ok lb => writeAt (st.blocks ++ [(Block.make_block L : Block T)]) st.lastBlock
            { lb with next := st.blocks.length + 1 }
        | .error _ => st.blocks ++ [(Block.make_block L : Block T)]), P b.data.length := by
    split
    · exact h0
    · split
      · rename_i lb hd
        exact all_writeAt h0 (h0 lb (deref_mem hd))
      · exact h0
  unfold ctorStep
  dsimp only
  split
  · rename_i b0 hd
    exact all_writeAt h1 (h1 b0 (deref_mem hd))
  · exact h1

theorem ctorLoop_all {P : Nat → Prop} {L : Nat} (hL : P L) (n : Nat) (st : CtorLoop T)
    (hst : ∀ b ∈ st.blocks, P b.data.length) :
    ∀ b ∈ (ctorLoop L n st).blocks, P b.data.length := by
  induction n generalizing st with
  | zero => exact hst
  | succ n ih => exact ih _ (ctorStep_all hL st hst)

theorem ctor_low_multi {M n : Nat} (hM : 2 ≤ M) {q : ReaderWriterQueue T}
    (h1 : (ReaderWriterQueue.mk (ctorLoop M n (CtorLoop.mk ([] : List (Block T)) 0 0)).blocks
            (ctorLoop M n (CtorLoop.mk ([] : List (Block T)) 0 0)).firstBlock
            (ctorLoop M n (CtorLoop.mk ([] : List (Block T)) 0 0)).firstBlock
            M) = q) :
    CapLow q := by
  have hblocks : q.blocks = (ctorLoop M n (CtorLoop.mk ([] : List (Block T)) 0 0)).blocks := by
    rw [← h1]
  unfold CapLow
  rw [hblocks]
  apply ctorLoop_all (P := fun k => 2 ≤ k) hM
  intro b hb
  exact absurd hb (List.not_mem_nil b)

theorem ctor_low_single {L : Nat} (hL : 2 ≤ L) {q : ReaderWriterQueue T}
    (h1 : (ReaderWriterQueue.mk [{ (Block.make_block L : Block T) with next := 1 }] 1 1 L) = q) :
    CapLow q := by
  have hblocks : q.blocks = [{ (Block.make_block L : Block T) with next := 1 }] := by
    rw [← h1]
  unfold CapLow
  rw [hblocks]
  intro b hb
  rw [List.mem_singleton] at hb
  rw [hb]
  show 2 ≤ (List.replicate L (none : Option T)).length
  rw [List.length_replicate]
  exact hL

/-- For a size hint from 1 on, every block made by the constructor has at
least two slots. -/
theorem ctor_low {m : Nat} (hm1 : 1 ≤ m) {NDEBUG : Bool} {size : Nat} (h1 : 1 ≤ size)
    (hsize : size < 2 ^ 63) {q : ReaderWriterQueue T}
    (h : ctor (2 ^ m) NDEBUG size = .ok q) : CapLow q := by
  have hW : WORD = 2 ^ 64 := rfl
  have hM : 2 ≤ 2 ^ m := by
    calc 2 = 2 ^ 1 := by norm_num
      _ ≤ 2 ^ m := Nat.pow_le_pow_right (by omega) hm1
  have hs1 : (size + 1) % WORD = size + 1 := Nat.mod_eq_of_lt (by rw [hW]; omega)
  have hL2 : 2 ≤ ceilToPow2 ((size + 1) % WORD) := by
    obtain ⟨L, _, hceil, hle, _⟩ := ceilToPow2_pow (size + 1) (by omega) (by omega)
    rw [hs1, hceil]
    omega
  generalize 2 ^ m = M at h hM
  unfold ctor at h
  by_cases c1 : (!NDEBUG && (M != ceilToPow2 M)) = true
  · rw [if_pos c1] at h
    exact Except.noConfusion h
  · rw [if_neg c1] at h
    by_cases c2 : (!NDEBUG && !(decide (M ≥ 2))) = true
    · rw [if_pos c2] at h
      exact Except.noConfusion h
    · rw [if_neg c2] at h
      clear c1 c2 hs1
      dsimp only at h
      generalize ceilToPow2 ((size + 1) % WORD) = L at h hL2
      generalize ((size + (M * 2) % WORD + WORD - 3) % WORD) / (M - 1) = n at h
      generalize (M * 2) % WORD = M2 at h
      by_cases c3 : L > M2
      · rw [if_pos c3] at h
        exact ctor_low_multi hM (Except.ok.inj h)
      · rw [if_neg c3] at h
        exact ctor_low_single hL2 (Except.ok.inj h)

theorem step_enqueue_ok {MAX_BLOCK_SIZE : Nat} {NDEBUG : Bool} {r r1 : Run T} {v : T}
    {allocOk : Bool} (h : step MAX_BLOCK_SIZE NDEBUG r (.enqueue v allocOk) = .ok r1) :
    ∃ b, inner_enqueue MAX_BLOCK_SIZE NDEBUG r.queue v allocOk = .ok (b, r1.queue) := by
  unfold step at h
  cases he : inner_enqueue MAX_BLOCK_SIZE NDEBUG r.queue v allocOk with
  | error e => simp [he] at h
  | ok res =>
    obtain ⟨b, q1⟩ := res
    cases b <;> (simp only [he] at h; cases h; exact ⟨_, rfl⟩)

theorem step_dequeue_ok {MAX_BLOCK_SIZE : Nat} {NDEBUG : Bool} {r r1 : Run T}
    (h : step MAX_BLOCK_SIZE NDEBUG r .dequeue = .ok r1) :
    ∃ b v, try_dequeue NDEBUG r.queue r.result = .ok (b, r1.queue, v) := by
  unfold step at h
  cases he : try_dequeue NDEBUG r.queue r.result with
  | error e => simp [he] at h
  | ok res =>
    obtain ⟨b, q1, v⟩ := res
    cases b <;> (simp only [he] at h; cases h; exact ⟨_, _, rfl⟩)

/-- A call keeps the lower bound on the capacities: a block written back
has the capacity it had, and a new block has at least two slots. -/
theorem step_low {MAX_BLOCK_SIZE : Nat} {NDEBUG : Bool} (hM2 : 2 ≤ MAX_BLOCK_SIZE)
    (hMAX : MAX_BLOCK_SIZE ≤ 2 ^ 63) {r r1 : Run T} (op : Op T)
    (h : step MAX_BLOCK_SIZE NDEBUG r op = .ok r1) (hr : CapLow r.queue) : CapLow r1.queue := by
  cases op with
  | enqueue v allocOk =>
    obtain ⟨b, he⟩ := step_enqueue_ok h
    obtain ⟨tb, hdt, hcase⟩ := inner_enqueue_cases he
    have htb := hr tb (deref_mem hdt)
    rcases hcase with ⟨b2, _, hq, _, hl, _⟩ | ⟨nb, b2, _, _, _, _, hdn, hq, _, hl, _⟩ |
        ⟨_, _, hq, _⟩ | ⟨_, _, _, _, _, size, hsize, hpos, hq⟩
    · rw [hq]
      exact all_writeAt (P := fun k => 2 ≤ k) hr (by rw [hl]; exact htb)
    · rw [hq]
      exact all_writeAt (P := fun k => 2 ≤ k) hr (by rw [hl]; exact hr nb (deref_mem hdn))
    · rw [hq]
      exact hr
    · have hsz : 2 ≤ size := by
        by_cases hge : r.queue.largestBlockSize ≥ MAX_BLOCK_SIZE
        · rw [if_pos hge] at hsize
          omega
        · rw [if_neg hge] at hsize
          have hW : WORD = 2 ^ 64 := rfl
          rw [Nat.mod_eq_of_lt (by rw [hW]; omega)] at hsize
          omega
      rw [hq]
      intro b1 hb1
      simp only [List.mem_append, List.mem_singleton] at hb1
      rcases hb1 with hb1 | hb1
      · exact all_writeAt (P := fun k => 2 ≤ k) hr
          (show 2 ≤ ({ tb with next := r.queue.blocks.length + 1 } : Block T).data.length from htb)
          b1 hb1
      · rw [hb1]
        simpa [grownBlock] using hsz
  | dequeue =>
    obtain ⟨b, v, he⟩ := step_dequeue_ok h
    obtain ⟨fb, hdf, hcase⟩ := try_dequeue_cases he
    rcases hcase with ⟨_, hq, _⟩ | ⟨b2, _, _, hq, _, hl, _⟩ |
        ⟨nb, b2, _, _, _, _, hdn, _, _, hq, _, hl, _⟩
    · rw [hq]
      exact hr
    · rw [hq]
      exact all_writeAt (P := fun k => 2 ≤ k) hr (by rw [hl]; exact hr fb (deref_mem hdf))
    · rw [hq]
      exact all_writeAt (P := fun k => 2 ≤ k) hr (by rw [hl]; exact hr nb (deref_mem hdn))

theorem run_low {MAX_BLOCK_SIZE : Nat} {NDEBUG : Bool} (hM2 : 2 ≤ MAX_BLOCK_SIZE)
    (hMAX : MAX_BLOCK_SIZE ≤ 2 ^ 63) (ops : List (Op T)) {r r1 : Run T}
    (h : run MAX_BLOCK_SIZE NDEBUG r ops = .ok r1) (hr : CapLow r.queue) : CapLow r1.queue := by
  induction ops generalizing r with
  | nil =>
    simp only [run] at h
    cases h
    exact hr
  | cons op ops ih =>
    simp only [run] at h
    cases hstep : step MAX_BLOCK_SIZE NDEBUG r op with
    | error e => simp [hstep] at h
    | ok r2 =>
      simp only [hstep] at h
      exact ih h (step_low hM2 hMAX op hstep hr)

/-- After every sequence of calls on a queue constructed with a size hint
from 1 on, every block has at least two slots. -/
theorem session_low {m : Nat} {NDEBUG : Bool} (hm1 : 1 ≤ m) (hm : m ≤ 62) {size : Nat}
    (h1 : 1 ≤ size) (hsize : size < 2 ^ 63) (result0 : T) (ops : List (Op T)) {r : Run T}
    (hs : session (2 ^ m) NDEBUG size result0 ops = .ok r) : CapLow r.queue := by
  have hM : 2 ≤ 2 ^ m := by
    calc 2 = 2 ^ 1 := by norm_num
      _ ≤ 2 ^ m := Nat.pow_le_pow_right (by omega) hm1
  have hM63 : 2 ^ m ≤ 2 ^ 63 := Nat.pow_le_pow_right (by omega) (by omega)
  unfold session at hs
  cases hc : ctor (2 ^ m) NDEBUG size (T := T) with
  | error e => rw [hc] at hs; exact Except.noConfusion hs
  | ok q =>
    rw [hc] at hs
    exact run_low hM hM63 ops hs (ctor_low hm1 h1 hsize hc)

end ReaderWriterQueue

namespace Block
variable {T : Type}

/-- In a block with two slots or more the cursors tell a full block from an
empty one. -/
theorem Rep.normal_of_cap {over : Bool} {b : Block T} {xs : List T} (h : Rep over b xs)
    (hcap : 2 ≤ b.data.length) : Rep false b xs := by
  obtain ⟨e, c, a, h1, h2, h3, h4, h5, h6, h7, h8, h9, h10⟩ := h
  refine ⟨e, c, a, h1, h2, h3, h4, h5, h6, h7, ?_, h9, h10⟩
  rcases h8 with h8 | h8
  · left; exact h8
  · obtain ⟨_, he, _, _⟩ := h8
    subst he
    rw [h2] at hcap
    simp at hcap

/-- The slot at the front of an empty block is dead. -/
theorem Rep.empty_slot {over : Bool} {b : Block T} (h : Rep over b []) :
    b.data[b.front]? = some none := by
  obtain ⟨e, c, a, h1, h2, h3, h4, h5, h6, h7, h8, h9, h10⟩ := h
  have := h10 0 (Nat.two_pow_pos e)
  have hw : wrap (2 ^ e) (b.front + 0) = b.front := by
    unfold wrap; split_ifs <;> omega
  rw [hw] at this
  simpa using this

end Block
end sq

namespace sq
namespace ReaderWriterQueue
variable {T : Type}

theorem sum_capacity_le {q q1 : ReaderWriterQueue T}
    (h : ∃ l, q1.blocks.map Block.shape = q.blocks.map Block.shape ++ l) :
    (q.blocks.map (fun b => b.data.length)).sum ≤ (q1.blocks.map (fun b => b.data.length)).sum := by
  obtain ⟨l, hl⟩ := h
  have h1 : ∀ bs : List (Block T), bs.map (fun b => b.data.length)
      = (bs.map Block.shape).map Prod.fst := by
    intro bs
    rw [List.map_map]
    rfl
  rw [h1 q.blocks, h1 q1.blocks, hl, List.map_append, List.sum_append]
  exact Nat.le_add_right _ _

/-- C14.  For every power-of-two `MAX_BLOCK_SIZE` from `2` to `2 ^ 62`, both
builds and every size hint: a call of `inner_enqueue` or `try_dequeue` made
after any sequence of calls, if it returns, leaves every block of the heap
in place with the capacity and mask it had (new blocks come after them),
leaves every block that was on the ring on the ring, and does not decrease
`largestBlockSize` nor the total capacity. -/
theorem blocks_are_never_removed (m : Nat) (hm1 : 1 ≤ m) (hm : m ≤ 62) (NDEBUG : Bool)
    (size : Nat) (hsize : size < WORD) (result0 : T) (ops : List (Op T)) (op : Op T)
    (r r1 : Run T) (hs : session (2 ^ m) NDEBUG size result0 ops = .ok r)
    (hstep : step (2 ^ m) NDEBUG r op = .ok r1) :
    (∃ l, r1.queue.blocks.map Block.shape = r.queue.blocks.map Block.shape ++ l) ∧
    (∀ p, OnRing r.queue p → OnRing r1.queue p) ∧
    r.queue.largestBlockSize ≤ r1.queue.largestBlockSize ∧
    (r.queue.blocks.map (fun b => b.data.length)).sum
      ≤ (r1.queue.blocks.map (fun b => b.data.length)).sum := by
  have hM63 : 2 ^ m ≤ 2 ^ 63 := Nat.pow_le_pow_right (by omega) (by omega)
  have hext : Extends r.queue r1.queue := by
    by_cases hlt : size < 2 ^ 63
    · obtain ⟨xs, _, hinv⟩ := session_inv hm1 hm hlt result0 ops hs
      cases op with
      | enqueue v allocOk =>
        obtain ⟨b, he⟩ := step_enqueue_ok hstep
        exact inner_enqueue_extends hM63 he
      | dequeue =>
        obtain ⟨b, v, he⟩ := step_dequeue_ok hstep
        exact try_dequeue_extends hinv he
    · obtain ⟨hq, _⟩ :=
        session_overflow m hm1 hm NDEBUG size (Nat.le_of_not_lt hlt) hsize result0 ops r hs
      cases op with
      | enqueue v allocOk =>
        rw [step_noSlot_enqueue (2 ^ m) NDEBUG r hq] at hstep
        exact Except.noConfusion hstep
      | dequeue =>
        rw [step_noSlot_dequeue (2 ^ m) NDEBUG r hq] at hstep
        rw [← Except.ok.inj hstep]
        exact Extends.refl _
  exact ⟨hext.1, hext.2.1, hext.2.2, sum_capacity_le hext.1⟩

/-- Witness of C14: the default `MAX_BLOCK_SIZE`, assertions enabled, size hint
1, the second enqueue, which allocates a block. -/
theorem blocks_are_never_removed_witness :
    1 ≤ 9 ∧ 9 ≤ 62 ∧ 1 < WORD ∧
    ∃ r r1 : Run Nat,
      session (2 ^ 9) false 1 (0 : Nat) [.enqueue 1 true] = .ok r ∧
      step (2 ^ 9) false r (.enqueue 2 true) = .ok r1 ∧
      r.queue.blocks.length = 1 ∧ r1.queue.blocks.length = 2 ∧
      ((∃ l, r1.queue.blocks.map Block.shape = r.queue.blocks.map Block.shape ++ l) ∧
      (∀ p, OnRing r.queue p → OnRing r1.queue p) ∧
      r.queue.largestBlockSize ≤ r1.queue.largestBlockSize ∧
      (r.queue.blocks.map (fun b => b.data.length)).sum
        ≤ (r1.queue.blocks.map (fun b => b.data.length)).sum) :=
  ⟨by decide, by decide, by decide, _, _, rfl, rfl, rfl, rfl,
    blocks_are_never_removed 9 (by decide) (by decide) false 1 (by decide) (0 : Nat)
      [.enqueue 1 true] (.enqueue 2 true) _ _ rfl rfl⟩

/-- Whenever `inner_enqueue` finds the tail block full and its successor not
to be the front block, the successor is empty, its `tail` equals its
`front`: in a build with assertions the call stops at
`assert(nextBlockTail != nextBlockFront)`.  This holds in every state
reached by a sequence of calls, for every size hint. -/
theorem next_block_empty_on_entry {m : Nat} {NDEBUG : Bool} (hm1 : 1 ≤ m) (hm : m ≤ 62)
    {size : Nat} (hsize : size < WORD) (result0 : T) (ops : List (Op T)) {r : Run T}
    (hs : session (2 ^ m) NDEBUG size result0 ops = .ok r) {tb : Block T}
    (hdt : deref r.queue.blocks r.queue.tailBlock = .ok tb)
    (h1 : tb.forward tb.tail = tb.local_front) (h2 : tb.forward tb.tail = tb.front)
    (hnf : tb.next ≠ r.queue.frontBlock) (v : T) (allocOk : Bool) (N : Bool) (hN : N = false) :
    ∃ nb, deref r.queue.blocks tb.next = .ok nb ∧ nb.tail = nb.front ∧
      inner_enqueue (2 ^ m) N r.queue v allocOk = .error .assertion := by
  by_cases hlt : size < 2 ^ 63
  · obtain ⟨xs, _, hinv⟩ := session_inv hm1 hm hlt result0 ops hs
    obtain ⟨tb0, ct, hdt0, _, _, hnextb, _⟩ := hinv.producer_view
    rw [hdt] at hdt0
    obtain rfl : tb = tb0 := Except.ok.inj hdt0
    obtain ⟨nb, hdn, hrn, _⟩ := hnextb hnf
    have hemp : nb.front = nb.tail := hrn.empty_iff.mpr rfl
    refine ⟨nb, hdn, hemp.symm, ?_⟩
    have hself : tb.get_local_front_from_front = tb :=
      refresh_front_eq_self tb (by rw [← h1, h2])
    have hq : writeAt r.queue.blocks r.queue.tailBlock tb = r.queue.blocks := writeAt_self hdt
    subst hN
    unfold inner_enqueue
    simp only [hdt, hself, hq]
    rw [if_neg (by simp [h1]), if_neg (by simp [h1]), if_pos hnf]
    simp only [hdn]
    rw [if_pos (by simp [Block.get_local_front_from_front, hemp])]
  · obtain ⟨hq, _⟩ :=
      session_overflow m hm1 hm NDEBUG size (Nat.le_of_not_lt hlt) hsize result0 ops r hs
    exfalso
    apply hnf
    rw [hq] at hdt ⊢
    have hd1 : deref (noSlotQueue T).blocks (noSlotQueue T).tailBlock
        = .ok { (Block.make_block 0 : Block T) with next := 1 } := by
      simp [noSlotQueue, deref]
    rw [hd1] at hdt
    rw [← Except.ok.inj hdt]
    rfl

/-- The next-block branch of `try_dequeue`.  For every power-of-two
`MAX_BLOCK_SIZE` from `2` to `2 ^ 62`, both builds and every size hint, in every state reached by a sequence of calls:
when the front block is empty and is not the tail block, the slot at the
front of the next block holds a live element, it is the oldest value
enqueued and not yet dequeued, `try_dequeue` returns `true` with that
element and with the next block as front block, and, in a build with
assertions or with a size hint from 1 on, the front and the tail of the
next block differ. -/
theorem next_block_holds_element (m : Nat) (hm1 : 1 ≤ m) (hm : m ≤ 62) (NDEBUG : Bool)
    (size : Nat) (hsize : size < WORD) (result0 : T) (ops : List (Op T)) (r : Run T)
    (hs : session (2 ^ m) NDEBUG size result0 ops = .ok r) (fb : Block T)
    (hdf : deref r.queue.blocks r.queue.frontBlock = .ok fb) (hempty : fb.front = fb.tail)
    (hft : r.queue.frontBlock ≠ r.queue.tailBlock) :
    ∃ nb x q1, deref r.queue.blocks fb.next = .ok nb ∧
      nb.data[nb.front]? = some (some x) ∧
      ((NDEBUG = false ∨ 1 ≤ size) → nb.front ≠ nb.tail) ∧
      r.enqueued[r.dequeued.length]? = some x ∧
      try_dequeue NDEBUG r.queue r.result = .ok (true, q1, x) ∧
      q1.frontBlock = fb.next := by
  by_cases hlt : size < 2 ^ 63
  · obtain ⟨xs, hxs, hinv⟩ := session_inv hm1 hm hlt result0 ops hs
    obtain ⟨fb0, c0, hdf0, hrep0, _, _, hadv⟩ := hinv.consumer_view
    rw [hdf] at hdf0
    obtain rfl : fb = fb0 := Except.ok.inj hdf0
    have hc0 : c0 = [] := hrep0.empty_iff.mp hempty
    subst hc0
    obtain ⟨nb0, x0, c1, hdn0, hrn, _⟩ := hadv rfl hft
    rcases try_dequeue_spec r.result hinv with ⟨_, he⟩ | ⟨x, xs1, q1, hcons, he, _⟩
    · obtain ⟨fb1, _, hcase⟩ := try_dequeue_cases he
      rcases hcase with ⟨_, _, _, _, _, heq⟩ | ⟨_, hr, _⟩ | ⟨_, _, hr, _⟩
      · exact absurd heq hft
      · cases hr
      · cases hr
    · obtain ⟨fb1, hdf1, hcase⟩ := try_dequeue_cases he
      rw [hdf] at hdf1
      obtain rfl : fb = fb1 := Except.ok.inj hdf1
      rcases hcase with ⟨hr, _⟩ | ⟨_, _, hslot, _⟩ | ⟨nb, b2, _, _, _, _, hdn, hassert, hslot, hq, _⟩
      · cases hr
      · rw [hrep0.empty_slot] at hslot
        cases hslot
      · rw [hdn] at hdn0
        obtain rfl : nb = nb0 := Except.ok.inj hdn0
        refine ⟨nb, x, q1, hdn, hslot, ?_, ?_, he, by rw [hq]⟩
        · rintro (hN | h1)
          · exact hassert hN
          · have hlow := session_low hm1 hm h1 hlt result0 ops hs
            have hrn1 := hrn.normal_of_cap (hlow nb (deref_mem hdn))
            intro hh
            have := hrn1.empty_iff.mp hh
            cases this
        · rw [hxs, hcons, List.getElem?_append_right (le_refl _)]
          simp
  · obtain ⟨hq, _⟩ :=
      session_overflow m hm1 hm NDEBUG size (Nat.le_of_not_lt hlt) hsize result0 ops r hs
    exfalso
    apply hft
    rw [hq]
    rfl

/-- An instance of `next_block_holds_element`: the default `MAX_BLOCK_SIZE`,
assertions enabled, size hint 1, after two enqueues, the second into a new
block, and one dequeue, which
empties the front block. -/
theorem next_block_holds_element_witness :
    1 ≤ 9 ∧ 9 ≤ 62 ∧ 1 < WORD ∧
    ∃ (r : Run Nat) (fb : Block Nat),
      session (2 ^ 9) false 1 (0 : Nat) [.enqueue 1 true, .enqueue 2 true, .dequeue] = .ok r ∧
      deref r.queue.blocks r.queue.frontBlock = .ok fb ∧ fb.front = fb.tail ∧
      r.queue.frontBlock ≠ r.queue.tailBlock ∧
      ∃ nb x q1, deref r.queue.blocks fb.next = .ok nb ∧
        nb.data[nb.front]? = some (some x) ∧
        ((false = false ∨ 1 ≤ 1) → nb.front ≠ nb.tail) ∧
        r.enqueued[r.dequeued.length]? = some x ∧
        try_dequeue false r.queue r.result = .ok (true, q1, x) ∧
        q1.frontBlock = fb.next :=
  ⟨by decide, by decide, by decide, _, _, rfl, rfl, rfl, by decide,
    next_block_holds_element 9 (by decide) (by decide) false 1 (by decide) (0 : Nat)
      [.enqueue 1 true, .enqueue 2 true, .dequeue] _ rfl _ rfl rfl (by decide)⟩

end ReaderWriterQueue
end sq

namespace sq
namespace Block
variable {T : Type}

/-- The loop of `Block::~Block`, started at index `i` of a block that holds
`xs` from `i` on, destroys exactly `xs`, oldest first. -/
theorem destroyLoop_spec (xs : List T) (b : Block T) (i fuel : Nat) (acc : List T)
    (h : Rep false { b with front := i, local_tail := b.tail } xs) (hf : xs.length < fuel) :
    ∃ b1, destroyLoop fuel b i b.tail acc = .ok (b1, acc ++ xs) ∧ b1.next = b.next ∧
      b1.data.length = b.data.length ∧ b1.size_mask = b.size_mask := by
  induction xs generalizing b i fuel acc with
  | nil =>
    have hi : i = b.tail := h.empty_iff.mpr rfl
    obtain ⟨f, rfl⟩ : ∃ f, fuel = f + 1 := ⟨fuel - 1, by omega⟩
    refine ⟨b, ?_, rfl, rfl, rfl⟩
    unfold destroyLoop
    rw [if_pos hi]
    simp
  | cons x xs ih =>
    have hi : i ≠ b.tail := fun hh => by
      have := h.empty_iff.mp hh
      cases this
    obtain ⟨f, rfl⟩ : ∃ f, fuel = f + 1 := ⟨fuel - 1, by omega⟩
    obtain ⟨b1, hmv, _, hrep⟩ := h.take_fresh rfl
    have hslot : b.data[i]? = some (some x) ∧
        b1 = { b with front := i, local_tail := b.tail, data := b.data.set i none } := by
      unfold move_out_element_at_idx at hmv
      split at hmv
      · rename_i v hs
        obtain ⟨hv, hb⟩ := Prod.mk.inj (Except.ok.inj hmv)
        subst hv
        exact ⟨hs, hb.symm⟩
      · cases hmv
    obtain ⟨hs, hb1⟩ := hslot
    subst hb1
    have hrep2 : Rep false
        { ({ b with data := b.data.set i none } : Block T) with
          front := ((i + 1) % WORD) &&& b.size_mask,
          local_tail := ({ b with data := b.data.set i none } : Block T).tail } xs := hrep
    obtain ⟨b2, h2, hn, hl, hm⟩ := ih { b with data := b.data.set i none }
      (((i + 1) % WORD) &&& b.size_mask) f (acc ++ [x]) hrep2
      (by simp only [List.length_cons] at hf; omega)
    refine ⟨b2, ?_, hn, ?_, hm⟩
    · unfold destroyLoop
      rw [if_neg hi]
      simp only [hs]
      rw [h2]
      simp
    · rw [hl]
      simp

/-- The destructor of a block that holds `xs` destroys exactly `xs`. -/
theorem dtor_spec {xs : List T} {b : Block T} (h : Rep false b xs) {fuel : Nat}
    (hf : xs.length < fuel) :
    ∃ b1, b.dtor fuel = .ok (b1, xs) ∧ b1.next = b.next ∧
      b1.data.length = b.data.length ∧ b1.size_mask = b.size_mask := by
  have h1 : Rep false { b with front := b.front, local_tail := b.tail } xs := h.refresh_tail
  obtain ⟨b1, hd, hrest⟩ := destroyLoop_spec xs b b.front fuel [] h1 hf
  exact ⟨b1, by simpa [dtor] using hd, hrest⟩

end Block

namespace ReaderWriterQueue
variable {T : Type}

/-- A chain of blocks that all have two slots or more is a chain of blocks
whose cursors are unambiguous. -/
theorem Chain.unambiguous {over : Bool} {h : List (Block T)} {l : List (Nat × List T)}
    {a z : Nat} (hc : Chain over h a l z) (hcap : ∀ b ∈ h, 2 ≤ b.data.length) :
    Chain false h a l z := by
  induction l generalizing a with
  | nil => exact hc
  | cons e l ih =>
    obtain ⟨p, c⟩ := e
    obtain ⟨hap, b, hd, hr, hrest⟩ := hc
    exact ⟨hap, b, hd, hr.normal_of_cap (hcap b (deref_mem hd)), ih hrest⟩

/-- The loop of `~ReaderWriterQueue`, started at the head of a chain of
distinct blocks that ends at `z`, destroys the content of the blocks of
the chain in order and frees each of them once. -/
theorem dtorLoop_chain {h : List (Block T)} (l : List (Nat × List T)) {a z : Nat}
    (e0 : Nat × List T) (hc : Chain false h a (e0 :: l) z)
    (hnd : ((e0 :: l).map Prod.fst).Nodup) (hz : z ∉ l.map Prod.fst)
    (st : Destruction T) (fuel : Nat)
    (hagree : ∀ p ∈ (e0 :: l).map Prod.fst, deref st.blocks p = deref h p)
    (hfree : ∀ p ∈ (e0 :: l).map Prod.fst, p ∉ st.freed)
    (hf : (e0 :: l).length + ((e0 :: l).flatMap Prod.snd).length ≤ fuel) :
    ∃ st1, dtorLoop fuel st a z = .ok st1 ∧
      st1.destroyed = st.destroyed ++ (e0 :: l).flatMap Prod.snd ∧
      st1.freed = st.freed ++ (e0 :: l).map Prod.fst := by
  induction l generalizing a e0 st fuel with
  | nil =>
    obtain ⟨p, c⟩ := e0
    obtain ⟨hap, b, hd, hr, hrest⟩ := hc
    subst hap
    have hnext : b.next = z := hrest
    simp only [List.length_singleton, List.flatMap_cons, List.flatMap_nil, List.append_nil] at hf
    obtain ⟨f, rfl⟩ : ∃ f, fuel = f + 1 := ⟨fuel - 1, by omega⟩
    obtain ⟨b1, hdt, _⟩ := Block.dtor_spec hr (show c.length < f + 1 by omega)
    have hd1 : deref st.blocks a = .ok b := by
      rw [hagree a (by simp)]; exact hd
    refine ⟨{ blocks := writeAt st.blocks a b1, destroyed := st.destroyed ++ c,
              freed := st.freed ++ [a] }, ?_, ?_, ?_⟩
    · unfold dtorLoop
      rw [if_neg (hfree a (by simp))]
      simp only [hd1, hdt]
      rw [if_neg (by simp [hnext])]
    · simp
    · simp
  | cons e1 l ih =>
    obtain ⟨p, c⟩ := e0
    obtain ⟨hap, b, hd, hr, hrest⟩ := hc
    subst hap
    obtain ⟨p1, c1⟩ := e1
    have hnext : b.next = p1 := hrest.1
    simp only [List.map_cons, List.nodup_cons, List.mem_cons, not_or] at hnd hz
    obtain ⟨⟨hap1, hal⟩, hp1l, hndl⟩ := hnd
    have hlen : (((a, c) :: (p1, c1) :: l).flatMap Prod.snd).length
        = c.length + (((p1, c1) :: l).flatMap Prod.snd).length := by
      simp [List.flatMap_cons]
    rw [hlen] at hf
    simp only [List.length_cons] at hf
    obtain ⟨f, rfl⟩ : ∃ f, fuel = f + 1 := ⟨fuel - 1, by omega⟩
    obtain ⟨b1, hdt, _⟩ := Block.dtor_spec hr (show c.length < f + 1 by omega)
    have hd1 : deref st.blocks a = .ok b := by
      rw [hagree a (by simp)]; exact hd
    have ha0 := deref_le_length hd
    obtain ⟨st1, hrun, hdes, hfr⟩ := ih (p1, c1) hrest
      (by simp only [List.map_cons, List.nodup_cons]; exact ⟨hp1l, hndl⟩) hz.2
      { blocks := writeAt st.blocks a b1, destroyed := st.destroyed ++ c,
        freed := st.freed ++ [a] } f
      (by
        intro q hq
        simp only [List.map_cons, List.mem_cons] at hq
        have hqa : q ≠ a := by
          rcases hq with hq | hq
          · rw [hq]; exact fun hh => hap1 hh.symm
          · exact fun hh => hal (hh ▸ hq)
        have hdq := hagree q (by simp only [List.map_cons, List.mem_cons]; right; exact hq)
        show deref (writeAt st.blocks a b1) q = deref h q
        by_cases hq0 : q = 0
        · rw [← hdq, hq0]
          simp [deref]
        · rw [deref_writeAt_ne _ _ (by omega) hq0 hqa]
          exact hdq)
      (by
        intro q hq
        simp only [List.map_cons, List.mem_cons] at hq
        have hqa : q ≠ a := by
          rcases hq with hq | hq
          · rw [hq]; exact fun hh => hap1 hh.symm
          · exact fun hh => hal (hh ▸ hq)
        have := hfree q (by simp only [List.map_cons, List.mem_cons]; right; exact hq)
        show q ∉ st.freed ++ [a]
        simp only [List.mem_append, List.mem_singleton, not_or]
        exact ⟨this, hqa⟩)
      (by simp only [List.length_cons]; omega)
    refine ⟨st1, ?_, ?_, ?_⟩
    · unfold dtorLoop
      rw [if_neg (hfree a (by simp))]
      simp only [hd1, hdt]
      rw [if_pos (show b.next ≠ z by rw [hnext]; exact fun hh => hz.1 hh.symm)]
      exact hrun
    · rw [hdes]
      simp [List.flatMap_cons]
    · rw [hfr]
      simp

end ReaderWriterQueue
end sq

namespace sq
namespace ReaderWriterQueue
variable {T : Type}

/-- Destruction of a queue that satisfies the invariant and whose blocks
have unambiguous cursors: with enough fuel the destructor returns, having
run `~T()` on exactly the values the queue holds, oldest first, and having
freed exactly the blocks of the ring, each once. -/
theorem Inv.destruction {MAX_BLOCK_SIZE : Nat} {NDEBUG : Bool} {q : ReaderWriterQueue T}
    {xs : List T} (hinv : Inv MAX_BLOCK_SIZE NDEBUG q xs)
    (hnormal : NDEBUG = false ∨ ∀ b ∈ q.blocks, 2 ≤ b.data.length) :
    ∃ F, ∀ k, ∃ d, dtor (k + F) q = .ok d ∧ d.destroyed = xs ∧ d.freed.Nodup ∧
      ∀ p, p ∈ d.freed ↔ OnRing q p := by
  obtain ⟨init, ct, post, hchain, hnd, _, _, _, hpost, hxs, _⟩ := hinv
  have hflat : (init ++ (q.tailBlock, ct) :: post).flatMap Prod.snd = xs := by
    have hp : post.flatMap Prod.snd = [] := by
      rw [List.flatMap_eq_nil_iff]
      exact hpost
    rw [hxs, List.flatMap_append, List.flatMap_cons, hp, List.append_nil]
  have hne : init ++ (q.tailBlock, ct) :: post ≠ [] := by simp
  have hc0 : Chain false q.blocks q.frontBlock (init ++ (q.tailBlock, ct) :: post) q.frontBlock := by
    rcases hnormal with hN | hcap
    · subst hN; exact hchain
    · exact hchain.unambiguous hcap
  have hring : ∀ p, p ∈ (init ++ (q.tailBlock, ct) :: post).map Prod.fst ↔ OnRing q p := by
    intro p
    constructor
    · intro hp
      exact ⟨(Chain.reach hc0).2 p hp, Chain.mem_deref hc0 p hp⟩
    · rintro ⟨hr, _⟩
      exact Chain.reach_mem hc0 hne hr
  generalize init ++ (q.tailBlock, ct) :: post = L at hnd hflat hne hc0 hring
  cases L with
  | nil => exact absurd rfl hne
  | cons e0 l =>
    have hhead : q.frontBlock = e0.1 := hc0.1
    have hz : q.frontBlock ∉ l.map Prod.fst := by
      rw [hhead]
      simp only [List.map_cons, List.nodup_cons] at hnd
      exact hnd.1
    refine ⟨(e0 :: l).length + ((e0 :: l).flatMap Prod.snd).length, ?_⟩
    intro k
    obtain ⟨st1, hrun, hdes, hfr⟩ := dtorLoop_chain l e0 hc0 hnd hz
      { blocks := q.blocks, destroyed := [], freed := [] }
      (k + ((e0 :: l).length + ((e0 :: l).flatMap Prod.snd).length))
      (fun _ _ => rfl) (fun _ _ hh => absurd hh (List.not_mem_nil _)) (by omega)
    refine ⟨st1, hrun, ?_, ?_, ?_⟩
    · rw [hdes, hflat]; rfl
    · rw [hfr]; exact hnd
    · intro p
      rw [hfr]
      exact hring p

/-- Destruction after any sequence of calls, in a build with assertions or
for a size hint from 1 on (and below `2 ^ 63`): with enough fuel the
destructor returns; it has run `~T()` on exactly the values enqueued and
not yet dequeued, oldest first, and has freed exactly the blocks of the
ring, each once. -/
theorem session_dtor {m : Nat} {NDEBUG : Bool} (hm1 : 1 ≤ m) (hm : m ≤ 62) {size : Nat}
    (hsize : size < 2 ^ 63) (hbuild : NDEBUG = false ∨ 1 ≤ size) (result0 : T)
    (ops : List (Op T)) {r : Run T} (hs : session (2 ^ m) NDEBUG size result0 ops = .ok r) :
    ∃ F, ∀ k, ∃ d, dtor (k + F) r.queue = .ok d ∧ r.enqueued = r.dequeued ++ d.destroyed ∧
      d.freed.Nodup ∧ ∀ p, p ∈ d.freed ↔ OnRing r.queue p := by
  obtain ⟨xs, hxs, hinv⟩ := session_inv hm1 hm hsize result0 ops hs
  have hnormal : NDEBUG = false ∨ ∀ b ∈ r.queue.blocks, 2 ≤ b.data.length := by
    rcases hbuild with hN | h1
    · exact Or.inl hN
    · exact Or.inr (session_low hm1 hm h1 hsize result0 ops hs)
  obtain ⟨F, hF⟩ := hinv.destruction hnormal
  refine ⟨F, fun k => ?_⟩
  obtain ⟨d, hd, hdes, hnd, hring⟩ := hF k
  exact ⟨d, hd, by rw [hdes]; exact hxs, hnd, hring⟩

end ReaderWriterQueue
end sq

namespace LockFreeQueue2

/-- C21 (failing input).  A node with `internal_count = 0` that one counted
pointer still refers to (`external_count = 1`), and a counted pointer `p` to
it with `external_count = 3`: `free_external_counter(p)` leaves
`internal_count` at 0 instead of `0 + (3 - 2) = 1`, so both counts are 0
and the node is deleted.  On a node with `external_count = 2` the counter
becomes `{0, 1}` instead of `{1, 1}`. -/
theorem free_external_counter_drops_references (k : Nat) :
    (∃ s, free_external_counter (k + 1)
        (oneNode { internal_count := 0, external_count := 1 } 3)
        { external_count := 3, ptr := 1 } = .ok s ∧
      s.nodes.map (fun n => n.count) = [{ internal_count := 0, external_count := 0 }] ∧
      s.deleted = [1]) ∧
    (∃ s, free_external_counter (k + 1)
        (oneNode { internal_count := 0, external_count := 2 } 3)
        { external_count := 3, ptr := 1 } = .ok s ∧
      s.nodes.map (fun n => n.count) = [{ internal_count := 0, external_count := 1 }] ∧
      s.deleted = []) :=
  ⟨⟨_, rfl, rfl, rfl⟩, ⟨_, rfl, rfl, rfl⟩⟩

/-- C22 (failing input).  `_head` holds `{ptr, 5}` and the caller's `old` is
the stale `{ptr, 1}`: `increase_external_count` returns after one failed
compare-exchange, for every amount of loop fuel; the counter is unchanged,
and `old` is left with the external count 2, which is neither the value of
the counter nor one more than it. -/
theorem increase_external_count_returns_after_failed_cas (k : Nat) :
    increase_external_count .head (k + 1)
        (oneNode { internal_count := 0, external_count := 1 } 5)
        { external_count := 1, ptr := 1 }
      = .ok (oneNode { internal_count := 0, external_count := 1 } 5,
             { external_count := 2, ptr := 1 }) ∧
    (oneNode { internal_count := 0, external_count := 1 } 5)._head
      = { external_count := 5, ptr := 1 } :=
  ⟨rfl, rfl⟩

/-- The loop of `release_ref` never exits: as long as the node can be read,
every amount of fuel is used up. -/
theorem release_ref_loop_runs_on {T : Type} (p : Nat) (fuel : Nat) (s : LockFreeQueue2 T)
    (c : NodeCounter) (h : ∃ nd, node_at s p = .ok nd) :
    release_ref_loop p fuel s c = .error .fuel := by
  induction fuel generalizing s c with
  | zero => rfl
  | succ fuel ih =>
    obtain ⟨nd, hnd⟩ := h
    unfold release_ref_loop
    simp only [hnd]
    have ht : truthy memory_order_release = true := rfl
    rw [if_pos ht]
    apply ih
    by_cases hc : nd.count = c
    · rw [if_pos hc]
      unfold node_at at hnd ⊢
      by_cases hp : p ∈ s.deleted
      · rw [if_pos hp] at hnd
        exact Except.noConfusion hnd
      · rw [if_neg hp] at hnd
        refine ⟨{ nd with count :=
          { c with internal_count := (c.internal_count + 2 ^ 30 - 1) % 2 ^ 30 } }, ?_⟩
        show (if p ∈ s.deleted then _ else _) = _
        rw [if_neg hp]
        exact deref_writeAt_same _ hnd
    · rw [if_neg hc]
      exact ⟨nd, hnd⟩

/-- No call of `release_ref` returns. -/
theorem release_ref_never_returns {T : Type} (fuel : Nat) (s s1 : LockFreeQueue2 T) (p : Nat) :
    release_ref fuel s p ≠ .ok s1 := by
  unfold release_ref
  cases hnd : node_at s p with
  | error e => simp
  | ok nd =>
    simp only []
    rw [release_ref_loop_runs_on p fuel s nd.count ⟨nd, hnd⟩]
    simp

/-- C23 (failing input).  On a node with `internal_count = 1` and
`external_count = 0` the call `release_ref()` does not return: whatever
the amount of fuel, the loop is still running when it is used up. -/
theorem release_ref_does_not_terminate (k : Nat) :
    release_ref k (oneNode { internal_count := 1, external_count := 0 } 1) 1 = .error .fuel := by
  unfold release_ref
  have hnd : node_at (oneNode { internal_count := 1, external_count := 0 } 1) 1
      = .ok { data := some 7, count := { internal_count := 1, external_count := 0 },
              next := { external_count := 0, ptr := 0 } } := rfl
  simp only [hnd]
  rw [release_ref_loop_runs_on 1 k _ _ ⟨_, hnd⟩]

end LockFreeQueue2

namespace LockFreeStack2
variable {T : Type}

/-- C24 (failing input).  After `pop()` on an empty stack `_threads_in_pop`
is 1, no call being in progress.  A later `push(v); pop()` then finds the
counter at 2 in `try_reclaim`, does not delete its node but chains it to
`_to_be_deleted`, and leaves the counter at 1; on a stack that has not
seen the empty `pop`, the same two calls delete the node and leave the
counter at 0. -/
theorem threads_in_pop_stays_raised (dflt v : T) (k : Nat) :
    ∃ s1 s2 s3,
      pop k dflt (ctor : LockFreeStack2 T) = .ok (s1, some dflt) ∧ s1._threads_in_pop = 1 ∧
      pop k dflt (push s1 v) = .ok (s2, some v) ∧
      s2._threads_in_pop = 1 ∧ s2.deleted = [] ∧ s2._to_be_deleted = 1 ∧
      pop (k + 1) dflt (push ctor v) = .ok (s3, some v) ∧
      s3._threads_in_pop = 0 ∧ s3.deleted = [1] :=
  ⟨_, _, _, rfl, rfl, rfl, rfl, rfl, rfl, rfl, rfl, rfl⟩

end LockFreeStack2

namespace Queue
variable {T : Type}

/-- C25 (failing input).  The first `push` leaves `_tail` null, the new dummy
node being at address 2; the second `push` writes through the null
`_tail`.  After `push(a)` the first `pop(t)` returns `true` with `a`, and
the second, no value remaining, does not return `false`: it reads the data
of the dummy node. -/
theorem second_push_dereferences_null (a b t : T) :
    ∃ s1 s2, push (ctor : Queue T) a = .ok s1 ∧ s1._tail = 0 ∧
      s1.nodes = [{ data := some a, next := 2 }, { data := none, next := 0 }] ∧
      push s1 b = .error .badAccess ∧
      pop_into s1 t = .ok (true, s2, a) ∧
      pop_into s2 t = .error .badAccess :=
  ⟨_, _, rfl, rfl, rfl, rfl, rfl, rfl⟩

end Queue

namespace sq
namespace ReaderWriterQueue

/-- C27.  For every `x` with `1 ≤ x ≤ 2 ^ 63`, `ceilToPow2 x` is a power of
two, it is at least `x`, every power of two that is at least `x` is at
least `ceilToPow2 x`, and `ceilToPow2 x = x` exactly when `x` is a power
of two. -/
theorem ceilToPow2_least_power (x : Nat) (hx1 : 1 ≤ x) (hx : x ≤ 2 ^ 63) :
    (∃ L, ceilToPow2 x = 2 ^ L) ∧ x ≤ ceilToPow2 x ∧
    (∀ k, x ≤ 2 ^ k → ceilToPow2 x ≤ 2 ^ k) ∧
    (ceilToPow2 x = x ↔ ∃ k, x = 2 ^ k) := by
  obtain ⟨L, _, heq, hle, hlow⟩ := ceilToPow2_pow x hx1 hx
  refine ⟨⟨L, heq⟩, by rw [heq]; exact hle, ?_, ?_⟩
  · intro k hk
    rw [heq]
    apply Nat.pow_le_pow_right (by norm_num)
    by_cases h0 : L = 0
    · rw [h0]; exact Nat.zero_le k
    · have h1 : 2 ^ (L - 1) < 2 ^ k := lt_of_lt_of_le (hlow (Nat.one_le_iff_ne_zero.mpr h0)) hk
      have h2 : L - 1 < k := (Nat.pow_lt_pow_iff_right (by norm_num)).mp h1
      exact Nat.le_of_pred_lt h2
  · constructor
    · intro h
      exact ⟨L, by rw [← h]; exact heq⟩
    · rintro ⟨k, rfl⟩
      have hk : k ≤ 63 := (Nat.pow_le_pow_iff_right (by norm_num)).mp hx
      exact ceilToPow2_two_pow k hk

/-- Witness of C27: `x = 5`, whose least power of two is 8. -/
theorem ceilToPow2_least_power_witness :
    1 ≤ 5 ∧ 5 ≤ 2 ^ 63 ∧ ceilToPow2 5 = 8 ∧
    ((∃ L, ceilToPow2 5 = 2 ^ L) ∧ 5 ≤ ceilToPow2 5 ∧
      (∀ k, 5 ≤ 2 ^ k → ceilToPow2 5 ≤ 2 ^ k) ∧
      (ceilToPow2 5 = 5 ↔ ∃ k, 5 = 2 ^ k)) :=
  ⟨by decide, by norm_num, by decide, ceilToPow2_least_power 5 (by decide) (by norm_num)⟩

end ReaderWriterQueue
end sq

namespace sq
namespace ReaderWriterQueue
variable {T : Type}

end ReaderWriterQueue
end sq

namespace sq
namespace Block
variable {T : Type}

end Block
end sq

namespace sq
namespace ReaderWriterQueue
variable {T : Type}

end ReaderWriterQueue
end sq

namespace sq
namespace ReaderWriterQueue
variable {T : Type}

end ReaderWriterQueue
end sq

namespace sq
namespace ReaderWriterQueue

/-- C20 (failing input).  Build with `NDEBUG`, size hint 0: after `enqueue 1,
enqueue 2, dequeue, dequeue, enqueue 3, enqueue 4, enqueue 5, enqueue 6,
dequeue, dequeue, dequeue` the front block is empty and is not the tail
block, and the next block, the constructor's block of capacity one, holds
6 with `front = tail = 0`.  The condition `nextBlockFront != nextBlockTail`
is false in this state: `try_dequeue` as compiled returns `true` with 6,
and the same call with the assertion compiled in stops at it. -/
theorem next_block_cursors_equal :
    ∃ (r : Run Nat) (fb nb : Block Nat) (q1 : ReaderWriterQueue Nat),
      session 512 true 0 (0 : Nat)
        [.enqueue 1 true, .enqueue 2 true, .dequeue, .dequeue,
         .enqueue 3 true, .enqueue 4 true, .enqueue 5 true, .enqueue 6 true,
         .dequeue, .dequeue, .dequeue] = .ok r ∧
      r.enqueued = [1, 2, 3, 4, 5, 6] ∧ r.dequeued = [1, 2, 3, 4, 5] ∧
      deref r.queue.blocks r.queue.frontBlock = .ok fb ∧ fb.front = fb.tail ∧
      r.queue.frontBlock ≠ r.queue.tailBlock ∧
      deref r.queue.blocks fb.next = .ok nb ∧
      nb.data = [some 6] ∧ nb.front = 0 ∧ nb.tail = 0 ∧
      try_dequeue true r.queue r.result = .ok (true, q1, 6) ∧
      try_dequeue false r.queue r.result = .error .assertion :=
  ⟨_, _, _, _, rfl, rfl, rfl, rfl, rfl, by decide, rfl, rfl, rfl, rfl, rfl, rfl⟩

end ReaderWriterQueue
end sq
